import Mathlib

/-!
# JsonAsAsset: state machine graph builder and layout

A shallow embedding of `StateMachineUtilities.h`
(`AutoLayoutStateMachineGraph`, `CreateStateMachineGraph`).

Modelling conventions
* An object pointer (`UEdGraphNode*`) is the index of the node in the graph's `Nodes` array;
  a pin pointer is a pair (owning node, index in the node's `Pins` array).
* `TMap` is an association list in insertion order; `TMap::Add` on a present key replaces the
  value in place, `TQueue` is a first-in first-out list.
* `NodePosX` / `NodePosY` are integer fields.  The `float` intermediates of the layout are
  integer valued (or half-integers before the final truncation) and are computed exactly;
  binary32 rounding and `int32` wrap-around are outside the model.
* A fatal assertion of the engine (array index out of range, dereferencing a null shared
  pointer) is the result `none`.
-/

namespace JsonAsAsset

/-! ## Editor graph -/

/-- Dynamic class of a graph node, as far as `Cast<...>` in the source distinguishes it. -/
inductive NodeClass
  | entry
  | state
  | transition
  | other
deriving DecidableEq

/-- Pin direction (`EEdGraphPinDirection`). -/
inductive EPinDirection
  | EGPD_Input
  | EGPD_Output
deriving DecidableEq

/-- Pointer to a pin: the owning node and the position in its `Pins` array. -/
structure PinRef where
  node : Nat
  pin : Nat
deriving DecidableEq

/-- An `UEdGraphPin`: name, direction and the `LinkedTo` array. -/
structure Pin where
  pinName : String
  direction : EPinDirection
  linkedTo : List PinRef
deriving DecidableEq

/-! ## Input document -/

/-- Entry of the per-state nested "Transitions" list. -/
structure StateTransitionJson where
  TransitionIndex : Int
  bAutomaticRemainingTimeRule : Bool
deriving DecidableEq

/-- Entry of the "States" list; an invalid (null) nested object is `none`. -/
structure StateJson where
  StateName : String
  Transitions : Option (List (Option StateTransitionJson))
deriving DecidableEq

/-- Entry of the flat "Transitions" list. -/
structure TransitionJson where
  PreviousState : Int
  NextState : Int
  bDesiredTransitionReturnValue : Bool
deriving DecidableEq

/-- The state machine document handed to `CreateStateMachineGraph`. -/
structure StateMachineJson where
  States : List StateJson
  Transitions : List TransitionJson
  InitialState : Int
deriving DecidableEq

/-- A document handed to `DeserializeObjectProperties`. -/
inductive JsonDoc
  | flat (t : TransitionJson)
  | nested (m : StateTransitionJson)
deriving DecidableEq

/-- A graph node.  `bCanEnterTransition` is the field of the result node of a transition's
bound graph, `deserialized` records the document last handed to the property deserializer
for this node. -/
structure Node where
  cls : NodeClass
  name : String
  NodePosX : Int
  NodePosY : Int
  pins : List Pin
  bCanEnterTransition : Bool
  bAutomaticRuleBasedOnSequencePlayerInState : Bool
  deserialized : Option JsonDoc
deriving DecidableEq

/-- The `UAnimationStateMachineGraph`: its `Nodes` array and its `EntryNode` pointer. -/
structure Graph where
  Nodes : List Node
  EntryNode : Option Nat
deriving DecidableEq

/-! ## Containers -/

/-- Lookup in a `TMap` (`Find` / `Contains` / `operator[]`). -/
def mapFind {β : Type} : List (Nat × β) → Nat → Option β
  | [], _ => none
  | (k, v) :: t, key => if k = key then some v else mapFind t key

/-- The `TMap::Add`: replaces the value of a present key in place, else appends the pair. -/
def mapAdd {β : Type} : List (Nat × β) → Nat → β → List (Nat × β)
  | [], key, val => [(key, val)]
  | (k, v) :: t, key, val => if k = key then (k, val) :: t else (k, v) :: mapAdd t key val

/-- The `TArray::AddUnique`. -/
def addUnique (l : List Nat) (x : Nat) : List Nat :=
  if x ∈ l then l else l ++ [x]

/-! ## AutoLayoutStateMachineGraph -/

/-- The `Cast<UAnimStateNode>(p)` on a node pointer: the node when it is a state node. -/
def castState (g : Graph) (id : Nat) : Option Nat :=
  match g.Nodes[id]? with
  | some n => if n.cls = NodeClass.state then some id else none
  | none => none

/-- The `FindPin(Name)`: first pin of the node with that name. -/
def findPin (n : Node) (nm : String) : Option Pin :=
  n.pins.find? (fun p => p.pinName = nm)

/-- Lines 24-32: the state owning the first pin linked to the entry node's "Entry" pin. -/
def findInitialState (g : Graph) : Option Nat :=
  match g.EntryNode with
  | none => none
  | some e =>
    match g.Nodes[e]? with
    | none => none
    | some en =>
      match findPin en "Entry" with
      | none => none
      | some entryPin =>
        match entryPin.linkedTo with
        | [] => none
        | r :: _ => castState g r.node

/-- Lines 47-61 and 113-125: for a transition node (`GetInputPin` is `Pins[0]`, `GetOutputPin`
is `Pins[1]`; a node with fewer than two pins has null pins) whose two pins are linked, the
states owning the first linked pin of each. -/
def transitionEndpoints (g : Graph) (n : Node) : Option (Nat × Nat) :=
  if n.cls = NodeClass.transition then
    match n.pins with
    | inPin :: outPin :: _ =>
      match inPin.linkedTo, outPin.linkedTo with
      | a :: _, b :: _ =>
        match castState g a.node, castState g b.node with
        | some fromState, some toState => some (fromState, toState)
        | _, _ => none
      | _, _ => none
    | _ => none
  else none

/-- Line 60: `OutgoingTransitions.FindOrAdd(FromState).AddUnique(ToState)`. -/
def addOutgoing (m : List (Nat × List Nat)) (e : Nat × Nat) : List (Nat × List Nat) :=
  mapAdd m e.1 (addUnique ((mapFind m e.1).getD []) e.2)

/-- Lines 44-63: the adjacency map built from the transition nodes, in `Nodes` order. -/
def buildOutgoing (g : Graph) : List (Nat × List Nat) :=
  g.Nodes.foldl (fun m n =>
    match transitionEndpoints g n with
    | some e => addOutgoing m e
    | none => m) []

/-- State of the level assignment loop: `StateLevels` and `NodesToProcess`. -/
structure LevelState where
  levels : List (Nat × Nat)
  queue : List Nat
deriving DecidableEq

/-- Lines 73-78: relax one outgoing edge of the node being processed. -/
def relaxEdge (currentLevel : Nat) (st : LevelState) (nextState : Nat) : LevelState :=
  let nextLevel := currentLevel + 1
  match mapFind st.levels nextState with
  | none => { levels := mapAdd st.levels nextState nextLevel, queue := st.queue ++ [nextState] }
  | some l =>
    if nextLevel < l then
      { levels := mapAdd st.levels nextState nextLevel, queue := st.queue ++ [nextState] }
    else st

/-- Lines 66-80: one iteration of the `while` loop on a non-empty queue `current :: rest`.
`FindChecked` asserts that `current` has a level; every queued node has one
(`LevelInv.queued`), so the default is never used. -/
def processNode (out : List (Nat × List Nat)) (levels : List (Nat × Nat))
    (current : Nat) (rest : List Nat) : LevelState :=
  let currentLevel := (mapFind levels current).getD 0
  match mapFind out current with
  | none => { levels := levels, queue := rest }
  | some nexts => nexts.foldl (relaxEdge currentLevel) { levels := levels, queue := rest }

/-- Lines 65-81: the `while (!NodesToProcess.IsEmpty())` loop, with an iteration budget. -/
def levelLoop (out : List (Nat × List Nat)) : Nat → LevelState → LevelState
  | 0, st => st
  | fuel + 1, st =>
    match st.queue with
    | [] => st
    | current :: rest => levelLoop out fuel (processNode out st.levels current rest)

/-- Lines 38-81: the level map at the end of the work-queue loop.  The budget
`Nodes.Num() + 1` is never exhausted (`assignLevels_inv`). -/
def assignLevels (g : Graph) (initialState : Nat) : LevelState :=
  levelLoop (buildOutgoing g) (g.Nodes.length + 1)
    { levels := [(initialState, 0)], queue := [initialState] }

/-- Lines 83-89: `StatesByLevel`, filled in the iteration order of `StateLevels`. -/
def groupByLevel (levels : List (Nat × Nat)) : List (Nat × List Nat) :=
  levels.foldl (fun m p => mapAdd m p.2 (((mapFind m p.2).getD []) ++ [p.1])) []

/-- Code units of one character of an `FString` as the comparison sees them: an ASCII
upper-case letter is folded to lower case, a character outside the basic plane is its two
surrogates. -/
def charUnits (c : Char) : List Nat :=
  if 65 ≤ c.toNat ∧ c.toNat ≤ 90 then [c.toNat + 32]
  else if c.toNat < 65536 then [c.toNat]
  else [55296 + (c.toNat - 65536) / 1024, 56320 + (c.toNat - 65536) % 1024]

/-- Key of the case-insensitive comparison of `FString::operator<` (`Stricmp`): the folded
code units, compared lexicographically. -/
def nameKey (s : String) : List Nat :=
  s.toList.flatMap charUnits

/-- The `A.GetName() < B.GetName()` of the sort predicate. -/
def nameLt (a b : String) : Prop := nameKey a < nameKey b

instance : DecidableRel nameLt := fun a b => by
  unfold nameLt
  infer_instance

/-- Name of the node behind a pointer (`GetName`). -/
def nodeName (g : Graph) (id : Nat) : String :=
  match g.Nodes[id]? with
  | some n => n.name
  | none => ""

/-- Lines 98-100: `NodesInLevel.Sort` by name.  Elements whose names compare equal keep
their relative order in the model. -/
def sortByName (g : Graph) (l : List Nat) : List Nat :=
  l.insertionSort (fun a b => ¬ nameLt (nodeName g b) (nodeName g a))

/-- In-place modification of the node behind a pointer. -/
def updateNode (g : Graph) (id : Nat) (f : Node → Node) : Graph :=
  match g.Nodes[id]? with
  | some n => { g with Nodes := g.Nodes.set id (f n) }
  | none => g

/-- Assignment of `NodePosX` / `NodePosY` of one node. -/
def setPos (g : Graph) (id : Nat) (x y : Int) : Graph :=
  updateNode g id (fun n => { n with NodePosX := x, NodePosY := y })

/-- Lines 105-109: the `for` loop over one sorted level, starting at index `i`. -/
def placeNodes (x startY : Int) : Nat → List Nat → Graph → Graph
  | _, [], g => g
  | i, node :: rest, g => placeNodes x startY (i + 1) rest (setPos g node x (startY + i * 200))

/-- Lines 95-109: sort one level, compute `X` and `StartY`, place its nodes. -/
def placeLevel (g : Graph) (level : Nat) (nodesInLevel : List Nat) : Graph :=
  let sorted := sortByName g nodesInLevel
  let x : Int := level * 400
  let startY : Int := -(((sorted.length : Int) - 1) * 200) / 2
  placeNodes x startY 0 sorted g

/-- The `(a + b) * 0.5f` of lines 126-127 stored into an integer field, with the sum and
the product taken as exact: halved, truncated towards zero.  The `int32` sum and the
binary32 product of the code are exact for sums up to `2 ^ 24` in magnitude (see
`midpointCode`, the machine arithmetic, and `midpointCode_eq_midpoint`). -/
def midpoint (a b : Int) : Int := Int.tdiv (a + b) 2

/-- Position fields of the node behind a pointer. -/
def posX (g : Graph) (id : Nat) : Int :=
  match g.Nodes[id]? with
  | some n => n.NodePosX
  | none => 0

/-- Position fields of the node behind a pointer. -/
def posY (g : Graph) (id : Nat) : Int :=
  match g.Nodes[id]? with
  | some n => n.NodePosY
  | none => 0

/-- Lines 113-129: body of the second loop over `Nodes` for the node at index `i`. -/
def placeTransition (g : Graph) (i : Nat) : Graph :=
  match g.Nodes[i]? with
  | none => g
  | some n =>
    match transitionEndpoints g n with
    | none => g
    | some (fromState, toState) =>
      setPos g i (midpoint (posX g fromState) (posX g toState))
        (midpoint (posY g fromState) (posY g toState))

/-- Lines 112-130: every transition node is moved to the midpoint of its two states. -/
def placeTransitions (g : Graph) : Graph :=
  (List.range g.Nodes.length).foldl placeTransition g

/-- Lines 83-110: group the levelled states and place every level. -/
def placeStates (g : Graph) (levels : List (Nat × Nat)) : Graph :=
  (groupByLevel levels).foldl (fun acc grp => placeLevel acc grp.1 grp.2) g

/-- The `AutoLayoutStateMachineGraph` of the source, on a non-null graph. -/
def AutoLayoutStateMachineGraph (g : Graph) : Graph :=
  match findInitialState g with
  | none => g
  | some initialState =>
    placeTransitions (placeStates g (assignLevels g initialState).levels)

/-! ## CreateStateMachineGraph -/

/-- Engine behaviour the builder relies on and the source does not fix:
`defaultPins id` are the pins `AllocateDefaultPins` creates on the state node behind pointer
`id` (the stock engine creates an input pin "In" and an output pin "Out"), `schema` tells
whether the graph's schema is an `UAnimationStateMachineSchema` (line 144). -/
structure Engine where
  defaultPins : Nat → List (String × EPinDirection)
  schema : Bool

/-- The stock engine: every state node gets the pins "In" and "Out", the schema is present. -/
def stockEngine : Engine :=
  { defaultPins := fun _ =>
      [("In", EPinDirection.EGPD_Input), ("Out", EPinDirection.EGPD_Output)],
    schema := true }

/-- Fresh, unlinked pins. -/
def mkPins (l : List (String × EPinDirection)) : List Pin :=
  l.map (fun p => { pinName := p.1, direction := p.2, linkedTo := [] })

/-- Modelled from the spec: `FUObjectExport` of `ObjectUtilities.h` (not among the sources),
the record of one created object: its name, its source record and the object pointer. -/
structure FUObjectExport where
  Name : String
  JsonObject : StateJson
  Object : Option Nat
deriving DecidableEq

/-- The `TArray::operator[]` with an `int32` index: `none` is the failed range check. -/
def arrayGet {α : Type} (l : List α) (i : Int) : Option α :=
  if 0 ≤ i then l[i.toNat]? else none

/-- Modelled from the spec: `FUObjectExportContainer::Find(Name)` of `ObjectUtilities.h`
(not among the sources): an export recorded under that name, if any.  The container keeps
the names as `FName` (line 172), which compare without case, so names match by `nameKey`.
When several exports match, the model takes the first; results about `Find` are stated for
containers in which the match is unique. -/
def containerFind (c : List FUObjectExport) (nm : String) : Option FUObjectExport :=
  c.find? (fun e => nameKey e.Name = nameKey nm)

/-- Lines 155-179: spawn the state node of one "States" entry (named after `StateName`,
placed at the origin with its default pins) and record it in the container.  `NewObject`
returns a fresh object for every record; `SpawnNodeFromTemplate` creates the bound graph, so
the guard of line 163 does not fire. -/
def createState (E : Engine) (g : Graph) (c : List FUObjectExport) (s : StateJson) :
    Graph × List FUObjectExport :=
  let id := g.Nodes.length
  let node : Node :=
    { cls := NodeClass.state, name := s.StateName, NodePosX := 0, NodePosY := 0,
      pins := mkPins (E.defaultPins id), bCanEnterTransition := false,
      bAutomaticRuleBasedOnSequencePlayerInState := false, deserialized := none }
  ({ g with Nodes := g.Nodes ++ [node] },
   c ++ [{ Name := s.StateName, JsonObject := s, Object := some id }])

/-- Lines 154-180: the state creation loop. -/
def createStates (E : Engine) : List StateJson → Graph → List FUObjectExport →
    Graph × List FUObjectExport
  | [], g, c => (g, c)
  | s :: rest, g, c => createStates E rest (createState E g c s).1 (createState E g c s).2

/-- Lines 232-243: scan of the nested list for the first valid entry whose
`TransitionIndex` equals the flat position. -/
def findStateTransition (transitionIndex : Int) :
    List (Option StateTransitionJson) → Option StateTransitionJson
  | [] => none
  | none :: rest => findStateTransition transitionIndex rest
  | some m :: rest =>
    if transitionIndex = m.TransitionIndex then some m
    else findStateTransition transitionIndex rest

/-- Lines 227-244: `TransitionStateObject`, null (`none`) when the from-state record has no
"Transitions" field or no entry matches. -/
def transitionStateObject (previousStateObject : StateJson) (transitionIndex : Int) :
    Option StateTransitionJson :=
  match previousStateObject.Transitions with
  | none => none
  | some stateTransitions => findStateTransition transitionIndex stateTransitions

/-- Modelled from the spec: `FindOutputPin` of `AnimationBlueprintUtilities.h` (not among the
sources), the designated output connection point: the first pin of direction output. -/
def findOutputPin (n : Node) : Option Nat :=
  n.pins.findIdx? (fun p => p.direction = EPinDirection.EGPD_Output)

/-- Modelled from the spec: `FindInputPin` of `AnimationBlueprintUtilities.h` (not among the
sources), the designated input connection point: the first pin of direction input; lines
285-290 spell the same search out. -/
def findInputPin (n : Node) : Option Nat :=
  n.pins.findIdx? (fun p => p.direction = EPinDirection.EGPD_Input)

/-- In-place modification of one pin of a node. -/
def modifyPin (n : Node) (i : Nat) (f : Pin → Pin) : Node :=
  match n.pins[i]? with
  | some p => { n with pins := n.pins.set i (f p) }
  | none => n

/-- The pin behind a pin pointer. -/
def pinAt (g : Graph) (r : PinRef) : Option Pin :=
  match g.Nodes[r.node]? with
  | some n => n.pins[r.pin]?
  | none => none

/-- The `UEdGraphPin::MakeLinkTo`: unless already linked, each pin is appended to the other
pin's `LinkedTo`. -/
def makeLinkTo (g : Graph) (a b : PinRef) : Graph :=
  match pinAt g a with
  | none => g
  | some pa =>
    if b ∈ pa.linkedTo then g
    else
      updateNode
        (updateNode g a.node
          (fun n => modifyPin n a.pin (fun p => { p with linkedTo := p.linkedTo ++ [b] })))
        b.node (fun n => modifyPin n b.pin (fun p => { p with linkedTo := p.linkedTo ++ [a] }))

/-- The `UEdGraphPin::BreakAllPinLinks`: the pin is removed from the `LinkedTo` of every pin
it links to, and its own `LinkedTo` is emptied. -/
def breakAllPinLinks (g : Graph) (a : PinRef) : Graph :=
  match pinAt g a with
  | none => g
  | some pa =>
    updateNode
      (pa.linkedTo.foldl (fun acc b =>
        updateNode acc b.node
          (fun n => modifyPin n b.pin
            (fun p => { p with linkedTo := p.linkedTo.filter (fun r => r ≠ a) }))) g)
      a.node (fun n => modifyPin n a.pin (fun p => { p with linkedTo := [] }))

/-- The transition node of lines 204-213: a fresh `UAnimStateTransitionNode` with its two
default pins (`Pins[0]` input, `Pins[1]` output); `PostPlacedNewNode` creates its bound graph
and result node, so the guard of lines 216-219 does not fire. -/
def newTransitionNode (canEnter : Bool) : Node :=
  { cls := NodeClass.transition, name := "AnimStateTransitionNode",
    NodePosX := 0, NodePosY := 0,
    pins := mkPins [("In", EPinDirection.EGPD_Input), ("Out", EPinDirection.EGPD_Output)],
    bCanEnterTransition := canEnter,
    bAutomaticRuleBasedOnSequencePlayerInState := false, deserialized := none }

/-- Modelled from the spec: `UObjectSerializer::DeserializeObjectProperties` (not among the
sources), a black box that populates the target from the document; the model records the
document it was handed and leaves the modelled fields alone. -/
def deserializeObjectProperties (doc : JsonDoc) (n : Node) : Node :=
  { n with deserialized := some doc }

/-- Lines 250-259: the two independent wiring blocks of a transition. -/
def wireTransition (g : Graph) (fromNode toNode transitionNode : Nat) : Graph :=
  let g1 :=
    match (g.Nodes[fromNode]?).bind findOutputPin with
    | some fromOutput => makeLinkTo g { node := fromNode, pin := fromOutput }
        { node := transitionNode, pin := 0 }
    | none => g
  match (g1.Nodes[toNode]?).bind findInputPin with
  | some toInput => makeLinkTo g1 { node := transitionNode, pin := 1 }
      { node := toNode, pin := toInput }
  | none => g1

/-- Lines 186-259: body of the transition loop for the record at position
`transitionIndex`.  The result `none` is a fatal assertion: the unchecked
`Container.Exports[...]` of lines 192-193 on an index out of range, or the dereference of
the null `TransitionStateObject` at line 246. -/
def createTransition (container : List FUObjectExport) (g : Graph) (transitionIndex : Nat)
    (t : TransitionJson) : Option Graph :=
  match arrayGet container t.PreviousState, arrayGet container t.NextState with
  | some previousStateExport, some nextStateExport =>
    match previousStateExport.Object, nextStateExport.Object with
    | some previousObject, some nextObject =>
      match castState g previousObject, castState g nextObject with
      | some fromNode, some toNode =>
        let transitionNode := g.Nodes.length
        let g1 : Graph :=
          { g with Nodes := g.Nodes ++ [newTransitionNode t.bDesiredTransitionReturnValue] }
        match transitionStateObject previousStateExport.JsonObject transitionIndex with
        | none => none
        | some transitionState =>
          let g2 := updateNode g1 transitionNode (fun n =>
            deserializeObjectProperties (JsonDoc.flat t)
              { n with bAutomaticRuleBasedOnSequencePlayerInState :=
                  transitionState.bAutomaticRemainingTimeRule })
          some (wireTransition g2 fromNode toNode transitionNode)
      | _, _ => some g
    | _, _ => some g
  | _, _ => none

/-- Lines 185-260: the transition loop, from position `transitionIndex` on. -/
def createTransitions (container : List FUObjectExport) :
    Nat → List TransitionJson → Graph → Option Graph
  | _, [], g => some g
  | transitionIndex, t :: rest, g =>
    match createTransition container g transitionIndex t with
    | none => none
    | some g1 => createTransitions container (transitionIndex + 1) rest g1

/-- The `AllocateDefaultPins` on a state node (line 281): default pins are appended. -/
def allocateDefaultPins (E : Engine) (g : Graph) (id : Nat) : Graph :=
  updateNode g id (fun n => { n with pins := n.pins ++ mkPins (E.defaultPins id) })

/-- The `TryCreateConnection` of the state machine schema for an entry pin `a` and a state
pin `b` on another node: the response is "break the other links of `a`", then the link is
made. -/
def tryCreateConnection (g : Graph) (a b : PinRef) : Graph :=
  if a.node = b.node then g else makeLinkTo (breakAllPinLinks g a) a b

/-- Lines 263-298: entry wiring.  The result is `none` when one of the early `return`s
of lines 263, 267 and 274 is taken (the layout of line 300 is then not run). -/
def wireEntry (E : Engine) (json : StateMachineJson) (container : List FUObjectExport)
    (g : Graph) : Option Graph :=
  match g.EntryNode with
  | none => none
  | some entryNode =>
    match arrayGet json.States json.InitialState with
    | none => none
    | some initialStateObject =>
      match (containerFind container initialStateObject.StateName).bind
          (fun e => e.Object.bind (castState g)) with
      | none => none
      | some initialStateNode =>
        let entryOutputPin :=
          (g.Nodes[entryNode]?).bind
            (fun n => n.pins.findIdx? (fun p => p.pinName = "Entry"))
        let g1 := allocateDefaultPins E g initialStateNode
        let initialInputPin := (g1.Nodes[initialStateNode]?).bind findInputPin
        match entryOutputPin, initialInputPin with
        | some entryPin, some inputPin =>
          if E.schema then
            some (tryCreateConnection g1 { node := entryNode, pin := entryPin }
              { node := initialStateNode, pin := inputPin })
          else some g1
        | _, _ => some g1

/-- The `CreateStateMachineGraph` of the source on a non-null graph and a valid document.
The result `none` is a fatal assertion (see `createTransition`). -/
def CreateStateMachineGraph (E : Engine) (g0 : Graph) (json : StateMachineJson) :
    Option Graph :=
  let created := createStates E json.States g0 []
  match createTransitions created.2 0 json.Transitions created.1 with
  | none => none
  | some g2 =>
    match wireEntry E json created.2 g2 with
    | none => some g2
    | some g3 => some (AutoLayoutStateMachineGraph g3)

/-! ## Auxiliary definitions of the proofs -/

/-- Successors of a node in an adjacency map (`OutgoingTransitions[u]`, empty if absent). -/
def succs (out : List (Nat × List Nat)) (u : Nat) : List Nat :=
  (mapFind out u).getD []

/-- Directed transition edge of the graph: some transition node of `Nodes` has `u` as its
from-state and `v` as its to-state. -/
def Edge (g : Graph) (u v : Nat) : Prop :=
  ∃ n ∈ g.Nodes, transitionEndpoints g n = some (u, v)

/-- Walk of `n` edges of the relation `E` from `s`. -/
inductive Walk (E : Nat → Nat → Prop) (s : Nat) : Nat → Nat → Prop
  | refl : Walk E s s 0
  | step {u v n : Nat} : Walk E s u n → E u v → Walk E s v (n + 1)

/-- Level of a node, `0` when it has none. -/
def lvl (levels : List (Nat × Nat)) (v : Nat) : Nat :=
  (mapFind levels v).getD 0

/-- Number of node pointers below `N` without a level. -/
def unassigned (N : Nat) (levels : List (Nat × Nat)) : Nat :=
  ((List.range N).filter (fun v => (mapFind levels v).isNone)).length

/-- Termination measure of the loop. -/
def loopMeasure (N : Nat) (st : LevelState) : Nat :=
  unassigned N st.levels + st.queue.length

/-- Invariant of the `while` loop of lines 65-81 (between iterations). -/
structure LevelInv (out : List (Nat × List Nat)) (init : Nat) (st : LevelState) : Prop where
  init0 : mapFind st.levels init = some 0
  sound : ∀ v l, mapFind st.levels v = some l → Walk (fun a b => b ∈ succs out a) init v l
  queued : ∀ q ∈ st.queue, ∃ l, mapFind st.levels q = some l
  sorted : st.queue.Pairwise (fun a b => lvl st.levels a ≤ lvl st.levels b)
  bound : ∀ q rest, st.queue = q :: rest →
    ∀ v l, mapFind st.levels v = some l → l ≤ lvl st.levels q + 1
  closed : ∀ u lu, mapFind st.levels u = some lu → u ∉ st.queue →
    ∀ v ∈ succs out u, ∃ lv, mapFind st.levels v = some lv ∧ lv ≤ lu + 1

/-- Invariant of the inner `for` loop of lines 72-79 while `cur` (level `lv`) is processed. -/
structure RelaxInv (out : List (Nat × List Nat)) (init cur lv : Nat) (st : LevelState) :
    Prop where
  init0 : mapFind st.levels init = some 0
  sound : ∀ v l, mapFind st.levels v = some l → Walk (fun a b => b ∈ succs out a) init v l
  queued : ∀ q ∈ st.queue, ∃ l, mapFind st.levels q = some l ∧ lv ≤ l
  sorted : st.queue.Pairwise (fun a b => lvl st.levels a ≤ lvl st.levels b)
  bound : ∀ v l, mapFind st.levels v = some l → l ≤ lv + 1
  closed : ∀ u lu, mapFind st.levels u = some lu → u ∉ st.queue → u ≠ cur →
    ∀ v ∈ succs out u, ∃ l, mapFind st.levels v = some l ∧ l ≤ lu + 1
  current : mapFind st.levels cur = some lv

/-- A node is reachable from `init` along directed transition edges of the graph. -/
def Reachable (g : Graph) (init v : Nat) : Prop :=
  ∃ n, Walk (Edge g) init v n

/-- Example graph: entry node linked to state `A`; transitions `A → B`, `B → C`, `A → C`;
state `D` is not connected. -/
def exampleGraph : Graph :=
  { Nodes :=
      [ { cls := NodeClass.entry, name := "Entry", NodePosX := 0, NodePosY := 0,
          pins := [⟨"Entry", EPinDirection.EGPD_Output, [⟨1, 0⟩]⟩],
          bCanEnterTransition := false,
          bAutomaticRuleBasedOnSequencePlayerInState := false, deserialized := none },
        { cls := NodeClass.state, name := "A", NodePosX := 7, NodePosY := 9,
          pins := [⟨"In", EPinDirection.EGPD_Input, [⟨0, 0⟩]⟩,
                   ⟨"Out", EPinDirection.EGPD_Output, [⟨5, 0⟩, ⟨7, 0⟩]⟩],
          bCanEnterTransition := false,
          bAutomaticRuleBasedOnSequencePlayerInState := false, deserialized := none },
        { cls := NodeClass.state, name := "c", NodePosX := 0, NodePosY := 0,
          pins := [⟨"In", EPinDirection.EGPD_Input, [⟨5, 1⟩]⟩,
                   ⟨"Out", EPinDirection.EGPD_Output, [⟨6, 0⟩]⟩],
          bCanEnterTransition := false,
          bAutomaticRuleBasedOnSequencePlayerInState := false, deserialized := none },
        { cls := NodeClass.state, name := "B", NodePosX := 0, NodePosY := 0,
          pins := [⟨"In", EPinDirection.EGPD_Input, [⟨6, 1⟩, ⟨7, 1⟩]⟩,
                   ⟨"Out", EPinDirection.EGPD_Output, []⟩],
          bCanEnterTransition := false,
          bAutomaticRuleBasedOnSequencePlayerInState := false, deserialized := none },
        { cls := NodeClass.state, name := "D", NodePosX := 31, NodePosY := -5,
          pins := [⟨"In", EPinDirection.EGPD_Input, []⟩,
                   ⟨"Out", EPinDirection.EGPD_Output, [⟨8, 0⟩]⟩],
          bCanEnterTransition := false,
          bAutomaticRuleBasedOnSequencePlayerInState := false, deserialized := none },
        { cls := NodeClass.transition, name := "T0", NodePosX := 0, NodePosY := 0,
          pins := [⟨"In", EPinDirection.EGPD_Input, [⟨1, 1⟩]⟩,
                   ⟨"Out", EPinDirection.EGPD_Output, [⟨2, 0⟩]⟩],
          bCanEnterTransition := true,
          bAutomaticRuleBasedOnSequencePlayerInState := false, deserialized := none },
        { cls := NodeClass.transition, name := "T1", NodePosX := 0, NodePosY := 0,
          pins := [⟨"In", EPinDirection.EGPD_Input, [⟨2, 1⟩]⟩,
                   ⟨"Out", EPinDirection.EGPD_Output, [⟨3, 0⟩]⟩],
          bCanEnterTransition := true,
          bAutomaticRuleBasedOnSequencePlayerInState := false, deserialized := none },
        { cls := NodeClass.transition, name := "T2", NodePosX := 0, NodePosY := 0,
          pins := [⟨"In", EPinDirection.EGPD_Input, [⟨1, 1⟩]⟩,
                   ⟨"Out", EPinDirection.EGPD_Output, [⟨3, 0⟩]⟩],
          bCanEnterTransition := true,
          bAutomaticRuleBasedOnSequencePlayerInState := false, deserialized := none },
        { cls := NodeClass.transition, name := "T3", NodePosX := 3, NodePosY := 4,
          pins := [⟨"In", EPinDirection.EGPD_Input, [⟨4, 1⟩]⟩,
                   ⟨"Out", EPinDirection.EGPD_Output, [⟨1, 0⟩]⟩],
          bCanEnterTransition := true,
          bAutomaticRuleBasedOnSequencePlayerInState := false, deserialized := none } ],
    EntryNode := some 0 }

/-- Node with its position fields overridden when a position is given. -/
def overridePos (p : Option (Int × Int)) (n : Node) : Node :=
  match p with
  | some q => { n with NodePosX := q.1, NodePosY := q.2 }
  | none => n

/-- A sequence of position assignments `(node, x, y)`, applied in order. -/
def applyPlan (P : List (Nat × Int × Int)) (g : Graph) : Graph :=
  P.foldl (fun acc p => setPos acc p.1 p.2.1 p.2.2) g

/-- The last position a plan assigns to node `i`, if any. -/
def lastPos : List (Nat × Int × Int) → Nat → Option (Int × Int)
  | [], _ => none
  | p :: P, i =>
    match lastPos P i with
    | some q => some q
    | none => if p.1 = i then some p.2 else none

/-- Assignments made by `placeNodes`. -/
def nodesPlan (x startY : Int) : Nat → List Nat → List (Nat × Int × Int)
  | _, [] => []
  | i, node :: rest => (node, x, startY + i * 200) :: nodesPlan x startY (i + 1) rest

/-- Assignments made by `placeLevel`. -/
def levelPlan (g : Graph) (level : Nat) (nodesInLevel : List Nat) : List (Nat × Int × Int) :=
  nodesPlan (level * 400) (-((((sortByName g nodesInLevel).length : Int) - 1) * 200) / 2) 0
    (sortByName g nodesInLevel)

/-- Assignments made by `placeStates`. -/
def statePlan (g : Graph) (levels : List (Nat × Nat)) : List (Nat × Int × Int) :=
  (groupByLevel levels).flatMap (fun grp => levelPlan g grp.1 grp.2)

/-- Assignment made by `placeTransition` for the node at index `i`, if any. -/
def transitionPos (h : Graph) (i : Nat) : Option (Nat × Int × Int) :=
  match h.Nodes[i]? with
  | none => none
  | some n =>
    match transitionEndpoints h n with
    | none => none
    | some (fromState, toState) =>
      some (i, midpoint (posX h fromState) (posX h toState),
        midpoint (posY h fromState) (posY h toState))

/-- Assignments made by `placeTransitions`. -/
def transitionPlan (h : Graph) : List (Nat × Int × Int) :=
  (List.range h.Nodes.length).filterMap (transitionPos h)

/-- A node without its position. -/
def strip (n : Node) : Node :=
  { n with NodePosX := 0, NodePosY := 0 }

/-- The graph without the node positions: what the layout reads of the topology. -/
def topo (g : Graph) : Graph :=
  { g with Nodes := g.Nodes.map strip }

/-- The states that `StateLevels` maps to level `L`, in the map's iteration order. -/
def levelMembers (levels : List (Nat × Nat)) (L : Nat) : List Nat :=
  (levels.filter (fun p => p.2 = L)).map (fun p => p.1)

/-- The state node spawned for the record `s` behind pointer `id` (lines 158-161). -/
def stateNode (E : Engine) (id : Nat) (s : StateJson) : Node :=
  { cls := NodeClass.state, name := s.StateName, NodePosX := 0, NodePosY := 0,
    pins := mkPins (E.defaultPins id), bCanEnterTransition := false,
    bAutomaticRuleBasedOnSequencePlayerInState := false, deserialized := none }

/-- The container entry recorded for the record `s` behind pointer `id` (lines 170-179). -/
def stateExport (id : Nat) (s : StateJson) : FUObjectExport :=
  { Name := s.StateName, JsonObject := s, Object := some id }

/-- The state nodes spawned for a list of records, the first behind pointer `base`. -/
def stateNodes (E : Engine) : Nat → List StateJson → List Node
  | _, [] => []
  | base, s :: rest => stateNode E base s :: stateNodes E (base + 1) rest

/-- The container entries of a list of records, the first behind pointer `base`. -/
def stateExports : Nat → List StateJson → List FUObjectExport
  | _, [] => []
  | base, s :: rest => stateExport base s :: stateExports (base + 1) rest

/-- A node without its pins and its position: class, name and the transition flags. -/
def fields (n : Node) : Node :=
  { n with pins := [], NodePosX := 0, NodePosY := 0 }

/-- The first valid entry of a nested "Transitions" list whose `TransitionIndex` is `t`,
as the specification words the reconciliation. -/
def firstWithIndex (nested : List (Option StateTransitionJson)) (t : Int) :
    Option StateTransitionJson :=
  (nested.filterMap id).find? (fun m => m.TransitionIndex = t)

/-- The nested metadata entry that the transition at position `k` is reconciled with: none
when the from-state index is out of range, the from-state record has no nested list or no
entry of the list carries the ordinal `k`. -/
def reconciled (states : List StateJson) (k : Nat) (t : TransitionJson) :
    Option StateTransitionJson :=
  match arrayGet states t.PreviousState with
  | none => none
  | some s => transitionStateObject s k

/-- The transition node created for the record `t` reconciled with the entry `m`, before
it is wired (lines 204-247). -/
def transitionNode (t : TransitionJson) (m : StateTransitionJson) : Node :=
  deserializeObjectProperties (JsonDoc.flat t)
    { newTransitionNode t.bDesiredTransitionReturnValue with
      bAutomaticRuleBasedOnSequencePlayerInState := m.bAutomaticRemainingTimeRule }

/-- The container is the one of the state creation loop and its state nodes are in `g`. -/
structure ContainerOk (E : Engine) (n0 : Nat) (states : List StateJson)
    (c : List FUObjectExport) (g : Graph) : Prop where
  container : c = stateExports n0 states
  nodes : ∀ i s, states[i]? = some s →
    (g.Nodes[n0 + i]?).map fields = some (fields (stateNode E (n0 + i) s))

/-- Closed form of one iteration of the transition loop over the container of the state
creation loop: the node `transitionNode t m` is appended and wired between the states
behind `n0 + PreviousState` and `n0 + NextState`. -/
def transitionStep (n0 : Nat) (states : List StateJson) (g : Graph) (k : Nat)
    (t : TransitionJson) : Option Graph :=
  match arrayGet states t.PreviousState, arrayGet states t.NextState with
  | some sp, some _ =>
    match transitionStateObject sp k with
    | none => none
    | some m =>
      some (wireTransition { g with Nodes := g.Nodes ++ [transitionNode t m] }
        (n0 + t.PreviousState.toNat) (n0 + t.NextState.toNat) g.Nodes.length)
  | _, _ => none

/-- The fresh state machine graph handed to the builder: only the entry node, whose
"Entry" output pin is not linked. -/
def freshGraph : Graph :=
  { Nodes :=
      [ { cls := NodeClass.entry, name := "Entry", NodePosX := 0, NodePosY := 0,
          pins := mkPins [("Entry", EPinDirection.EGPD_Output)],
          bCanEnterTransition := false,
          bAutomaticRuleBasedOnSequencePlayerInState := false, deserialized := none } ],
    EntryNode := some 0 }

/-- Example document: the nested list of state "A" is out of order (the entry of ordinal 1
comes before the entry of ordinal 0). -/
def outOfOrderJson : StateMachineJson :=
  { States :=
      [ { StateName := "A",
          Transitions := some [some ⟨1, false⟩, some ⟨0, true⟩] },
        { StateName := "B", Transitions := none },
        { StateName := "C", Transitions := none } ],
    Transitions := [⟨0, 1, true⟩, ⟨0, 2, true⟩],
    InitialState := 0 }

/-- Example document of the out-of-range scenario: 3 states, one in-range transition and one
transition with `NextState = 5`. -/
def outOfRangeJson : StateMachineJson :=
  { States :=
      [ { StateName := "A", Transitions := some [some ⟨0, false⟩] },
        { StateName := "B", Transitions := some [some ⟨1, false⟩] },
        { StateName := "C", Transitions := none } ],
    Transitions := [⟨0, 1, true⟩, ⟨1, 5, true⟩],
    InitialState := 0 }

/-- Document of the end-to-end scenario: states `A`, `B`, `C`, transitions `A → B`
(`canEnter = true`) and `B → C` (`canEnter = false`), initial state 0; `a0` and `a1` are the
automatic-rule flags of the nested metadata entries of the two transitions. -/
def scenarioJson (a0 a1 : Bool) : StateMachineJson :=
  { States :=
      [ { StateName := "A", Transitions := some [some ⟨0, a0⟩] },
        { StateName := "B", Transitions := some [some ⟨1, a1⟩] },
        { StateName := "C", Transitions := none } ],
    Transitions := [⟨0, 1, true⟩, ⟨1, 2, false⟩],
    InitialState := 0 }

/-- One half of `MakeLinkTo`: the pin pointer `r` is appended to the `LinkedTo` of pin `i`. -/
def linkAppend (r : PinRef) (i : Nat) (n : Node) : Node :=
  modifyPin n i (fun p => { p with linkedTo := p.linkedTo ++ [r] })

/-- Directions of the pins of a node. -/
def dirs (n : Node) : List EPinDirection :=
  n.pins.map (fun p => p.direction)

/-- Index of the designated output pin among the default pins of the state behind `id`. -/
def defaultOutput (E : Engine) (id : Nat) : Option Nat :=
  findOutputPin (stateNode E id { StateName := "", Transitions := none })

/-- Index of the designated input pin among the default pins of the state behind `id`. -/
def defaultInput (E : Engine) (id : Nat) : Option Nat :=
  findInputPin (stateNode E id { StateName := "", Transitions := none })

/-- A transition node after wiring: its input pin is linked to `a`, its output pin to `b`. -/
def wiredTransition (t : TransitionJson) (m : StateTransitionJson) (a b : PinRef) : Node :=
  { transitionNode t m with
    pins := [ { pinName := "In", direction := EPinDirection.EGPD_Input, linkedTo := [a] },
              { pinName := "Out", direction := EPinDirection.EGPD_Output, linkedTo := [b] } ] }

/-- Links of a node stay below `bound`. -/
def LinksBelow (bound : Nat) (n : Node) : Prop :=
  ∀ p ∈ n.pins, ∀ r ∈ p.linkedTo, r.node < bound

/-- Invariant of the transition loop of `CreateStateMachineGraph` after the records `done`
have been processed: the nodes of the input graph are untouched, the state nodes keep their
fields and pin directions, and every processed record has its wired transition node. -/
structure WireInv (E : Engine) (g0 : Graph) (states : List StateJson)
    (done : List TransitionJson) (g : Graph) : Prop where
  entry : g.EntryNode = g0.EntryNode
  len : g.Nodes.length = g0.Nodes.length + states.length + done.length
  old : ∀ i, i < g0.Nodes.length → g.Nodes[i]? = g0.Nodes[i]?
  stateNodesOk : ∀ i s, states[i]? = some s → ∃ n, g.Nodes[g0.Nodes.length + i]? = some n ∧
    fields n = fields (stateNode E (g0.Nodes.length + i) s) ∧
    dirs n = dirs (stateNode E (g0.Nodes.length + i) s) ∧
    LinksBelow g.Nodes.length n
  wired : ∀ k t, done[k]? = some t → ∃ m o i,
    reconciled states k t = some m ∧
    defaultOutput E (g0.Nodes.length + t.PreviousState.toNat) = some o ∧
    defaultInput E (g0.Nodes.length + t.NextState.toNat) = some i ∧
    t.PreviousState.toNat < states.length ∧ t.NextState.toNat < states.length ∧
    g.Nodes[g0.Nodes.length + states.length + k]? =
      some (wiredTransition t m
        { node := g0.Nodes.length + t.PreviousState.toNat, pin := o }
        { node := g0.Nodes.length + t.NextState.toNat, pin := i })

/-- The record `t` at position `k` can be created and wired: both state indices are in
range, the from-state's nested list has an entry of ordinal `k`, and the two connection
points exist. -/
def Wirable (E : Engine) (n0 : Nat) (states : List StateJson) (k : Nat) (t : TransitionJson) :
    Prop :=
  (arrayGet states t.PreviousState).isSome ∧ (arrayGet states t.NextState).isSome ∧
  (reconciled states k t).isSome ∧
  (defaultOutput E (n0 + t.PreviousState.toNat)).isSome ∧
  (defaultInput E (n0 + t.NextState.toNat)).isSome

/-- The entry pointer of the graph and the links of its entry node stay inside the graph
(no dangling pointers). -/
def EntryInGraph (g : Graph) : Prop :=
  ∀ e, g.EntryNode = some e →
    e < g.Nodes.length ∧ ∀ n, g.Nodes[e]? = some n → LinksBelow g.Nodes.length n

/-- Code points of a name: the key of the plain (case-sensitive) lexicographic order. -/
def plainKey (s : String) : List Nat :=
  s.toList.map (fun c => c.toNat)

/-- The name has no upper-case ASCII letter and no character outside the basic plane. -/
def CaseFree (s : String) : Prop :=
  ∀ c ∈ s.toList, ¬ (65 ≤ c.toNat ∧ c.toNat ≤ 90) ∧ c.toNat < 65536

/-- Pointers of the state nodes of the graph. -/
def stateIds (g : Graph) : List Nat :=
  (List.range g.Nodes.length).filter (fun v => (castState g v).isSome)

/-- Number of state nodes of the graph. -/
def stateCount (g : Graph) : Nat :=
  (stateIds g).length

/-- Number of the pointers of `univ` without a level. -/
def unassignedIn (univ : List Nat) (levels : List (Nat × Nat)) : Nat :=
  (univ.filter (fun v => (mapFind levels v).isNone)).length

/-- Every level plus the number of pointers of `univ` still without a level stays below
`S`. -/
def LevelBound (univ : List Nat) (S : Nat) (levels : List (Nat × Nat)) : Prop :=
  ∀ v l, mapFind levels v = some l → l + unassignedIn univ levels + 1 ≤ S

/-- Example graph with a cycle (`A → B → A`), a self-loop (`A → A`) and parallel
transitions (two transition nodes `A → B`); the entry node is linked to `A`. -/
def cyclicGraph : Graph :=
  { Nodes :=
      [ { cls := NodeClass.entry, name := "Entry", NodePosX := 0, NodePosY := 0,
          pins := [⟨"Entry", EPinDirection.EGPD_Output, [⟨1, 0⟩]⟩],
          bCanEnterTransition := false,
          bAutomaticRuleBasedOnSequencePlayerInState := false, deserialized := none },
        { cls := NodeClass.state, name := "A", NodePosX := 0, NodePosY := 0,
          pins := [⟨"In", EPinDirection.EGPD_Input, [⟨0, 0⟩, ⟨4, 1⟩, ⟨5, 1⟩]⟩,
                   ⟨"Out", EPinDirection.EGPD_Output, [⟨3, 0⟩, ⟨5, 0⟩, ⟨6, 0⟩]⟩],
          bCanEnterTransition := false,
          bAutomaticRuleBasedOnSequencePlayerInState := false, deserialized := none },
        { cls := NodeClass.state, name := "B", NodePosX := 0, NodePosY := 0,
          pins := [⟨"In", EPinDirection.EGPD_Input, [⟨3, 1⟩, ⟨6, 1⟩]⟩,
                   ⟨"Out", EPinDirection.EGPD_Output, [⟨4, 0⟩]⟩],
          bCanEnterTransition := false,
          bAutomaticRuleBasedOnSequencePlayerInState := false, deserialized := none },
        { cls := NodeClass.transition, name := "AB", NodePosX := 0, NodePosY := 0,
          pins := [⟨"In", EPinDirection.EGPD_Input, [⟨1, 1⟩]⟩,
                   ⟨"Out", EPinDirection.EGPD_Output, [⟨2, 0⟩]⟩],
          bCanEnterTransition := true,
          bAutomaticRuleBasedOnSequencePlayerInState := false, deserialized := none },
        { cls := NodeClass.transition, name := "BA", NodePosX := 0, NodePosY := 0,
          pins := [⟨"In", EPinDirection.EGPD_Input, [⟨2, 1⟩]⟩,
                   ⟨"Out", EPinDirection.EGPD_Output, [⟨1, 0⟩]⟩],
          bCanEnterTransition := true,
          bAutomaticRuleBasedOnSequencePlayerInState := false, deserialized := none },
        { cls := NodeClass.transition, name := "AA", NodePosX := 0, NodePosY := 0,
          pins := [⟨"In", EPinDirection.EGPD_Input, [⟨1, 1⟩]⟩,
                   ⟨"Out", EPinDirection.EGPD_Output, [⟨1, 0⟩]⟩],
          bCanEnterTransition := true,
          bAutomaticRuleBasedOnSequencePlayerInState := false, deserialized := none },
        { cls := NodeClass.transition, name := "AB2", NodePosX := 0, NodePosY := 0,
          pins := [⟨"In", EPinDirection.EGPD_Input, [⟨1, 1⟩]⟩,
                   ⟨"Out", EPinDirection.EGPD_Output, [⟨2, 0⟩]⟩],
          bCanEnterTransition := true,
          bAutomaticRuleBasedOnSequencePlayerInState := false, deserialized := none } ],
    EntryNode := some 0 }

/-- Example document of a reconciliation miss: the from-state "A" of the only transition
has no nested "Transitions" field. -/
def missingNestedJson : StateMachineJson :=
  { States :=
      [ { StateName := "A", Transitions := none },
        { StateName := "B", Transitions := none } ],
    Transitions := [⟨0, 1, true⟩],
    InitialState := 0 }

/-- Example document of a reconciliation miss: the nested list of the from-state "A" holds
an entry of ordinal 3 only, the transition sits at position 0. -/
def missingOrdinalJson : StateMachineJson :=
  { States :=
      [ { StateName := "A", Transitions := some [some ⟨3, true⟩] },
        { StateName := "B", Transitions := none } ],
    Transitions := [⟨0, 1, true⟩],
    InitialState := 0 }

/-- The links towards the connection point `pin` of node `node`: none when the connection
point is absent. -/
def linkTo (node : Nat) (pin : Option Nat) : List PinRef :=
  match pin with
  | some p => [{ node := node, pin := p }]
  | none => []

/-- A transition node whose input pin has the links `la` and whose output pin has the
links `lb`. -/
def wiredNode (t : TransitionJson) (m : StateTransitionJson) (la lb : List PinRef) : Node :=
  { transitionNode t m with
    pins := [ { pinName := "In", direction := EPinDirection.EGPD_Input, linkedTo := la },
              { pinName := "Out", direction := EPinDirection.EGPD_Output, linkedTo := lb } ] }

/-- The state side of one link: node `node` gets the pin pointer `r` appended to its
connection point `pin`, when that exists; every other node `j` is left alone. -/
def linkAt (j node : Nat) (r : PinRef) (pin : Option Nat) (n : Node) : Node :=
  match pin with
  | some p => if j = node then linkAppend r p n else n
  | none => n

/-- Lines 250-254: the first wiring block, from-state output to transition input. -/
def linkFrom (g : Graph) (fromNode transitionNode : Nat) : Graph :=
  match (g.Nodes[fromNode]?).bind findOutputPin with
  | some fromOutput => makeLinkTo g { node := fromNode, pin := fromOutput }
      { node := transitionNode, pin := 0 }
  | none => g

/-- Lines 255-259: the second wiring block, transition output to to-state input. -/
def linkInto (g : Graph) (toNode transitionNode : Nat) : Graph :=
  match (g.Nodes[toNode]?).bind findInputPin with
  | some toInput => makeLinkTo g { node := transitionNode, pin := 1 }
      { node := toNode, pin := toInput }
  | none => g

/-- The record `t` at position `k` passes the loop body without a fatal assertion: both
state indices are in range and the from-state's nested list has an entry of ordinal `k`. -/
def Buildable (states : List StateJson) (k : Nat) (t : TransitionJson) : Prop :=
  (arrayGet states t.PreviousState).isSome ∧ (arrayGet states t.NextState).isSome ∧
  (reconciled states k t).isSome

/-- Invariant of the transition loop of `CreateStateMachineGraph` after the records `done`
have been processed, whatever pins the states have: the nodes of the input graph are
untouched, the state nodes keep their fields and pin directions, and the node of every
processed record is linked to the connection points that exist. -/
structure BuildInv (E : Engine) (g0 : Graph) (states : List StateJson)
    (done : List TransitionJson) (g : Graph) : Prop where
  entryKept : g.EntryNode = g0.EntryNode
  lenSum : g.Nodes.length = g0.Nodes.length + states.length + done.length
  oldKept : ∀ i, i < g0.Nodes.length → g.Nodes[i]? = g0.Nodes[i]?
  statesKept : ∀ i s, states[i]? = some s → ∃ n, g.Nodes[g0.Nodes.length + i]? = some n ∧
    fields n = fields (stateNode E (g0.Nodes.length + i) s) ∧
    dirs n = dirs (stateNode E (g0.Nodes.length + i) s) ∧
    LinksBelow g.Nodes.length n
  built : ∀ k t, done[k]? = some t → ∃ m,
    reconciled states k t = some m ∧
    t.PreviousState.toNat < states.length ∧ t.NextState.toNat < states.length ∧
    g.Nodes[g0.Nodes.length + states.length + k]? =
      some (wiredNode t m
        (linkTo (g0.Nodes.length + t.PreviousState.toNat)
          (defaultOutput E (g0.Nodes.length + t.PreviousState.toNat)))
        (linkTo (g0.Nodes.length + t.NextState.toNat)
          (defaultInput E (g0.Nodes.length + t.NextState.toNat))))

/-- The graph after the state creation loop and the transition loop (lines 147-260),
before the entry wiring; `none` is a fatal assertion of the transition loop. -/
def loopGraph (E : Engine) (g0 : Graph) (json : StateMachineJson) : Option Graph :=
  createTransitions (createStates E json.States g0 []).2 0 json.Transitions
    (createStates E json.States g0 []).1

/-- An engine whose state node behind pointer 1 gets an input pin only; every other state
node gets the stock pins. -/
def noOutputEngine : Engine :=
  { defaultPins := fun id =>
      if id = 1 then [("In", EPinDirection.EGPD_Input)]
      else [("In", EPinDirection.EGPD_Input), ("Out", EPinDirection.EGPD_Output)],
    schema := true }

/-- The scenario document with an initial state index outside the "States" list. -/
def invalidInitialJson : StateMachineJson :=
  { scenarioJson true false with InitialState := 7 }

/-- The `int32` addition of lines 126-127: the sum wraps around at `2 ^ 31`. -/
def wrapInt32 (z : Int) : Int :=
  (z + 2147483648) % 4294967296 - 2147483648

/-- Spacing of the binary32 values (24 significant bits) at a magnitude `a ≤ 2 ^ 31`. -/
def binary32Spacing (a : Nat) : Nat :=
  if a < 16777216 then 1
  else if a < 33554432 then 2
  else if a < 67108864 then 4
  else if a < 134217728 then 8
  else if a < 268435456 then 16
  else if a < 536870912 then 32
  else if a < 1073741824 then 64
  else if a < 2147483648 then 128
  else 256

/-- Conversion of an `int32` to binary32 (`int` to `float` in `(a + b) * 0.5f`): the
nearest binary32 value, ties to the even significand; integers up to `2 ^ 24` in magnitude
are binary32 values. -/
def roundBinary32 (z : Int) : Int :=
  let a := z.natAbs
  if a ≤ 16777216 then z
  else
    let q := binary32Spacing a
    let lo := a / q * q
    let r := a % q
    let up : Nat :=
      if 2 * r < q then lo
      else if q < 2 * r then lo + q
      else if (a / q) % 2 = 0 then lo else lo + q
    if 0 ≤ z then (up : Int) else -(up : Int)

/-- The machine arithmetic of lines 126-127, `(a + b) * 0.5f` stored into an `int32`
field: `int32` sum, conversion to binary32, exact halving, truncation towards zero. -/
def midpointCode (a b : Int) : Int :=
  Int.tdiv (roundBinary32 (wrapInt32 (a + b))) 2

/-- A coordinate within `±2 ^ 23`: the sum of two of them is an `int32` and a binary32
value, so that the arithmetic of lines 126-127 is exact. -/
def InExactRange (z : Int) : Prop :=
  -8388608 ≤ z ∧ z ≤ 8388608

/-! ## Container lemmas -/

theorem mapFind_mapAdd_self {β : Type} (m : List (Nat × β)) (k : Nat) (v : β) :
    mapFind (mapAdd m k v) k = some v := by
  induction m with
  | nil => simp [mapAdd, mapFind]
  | cons p t ih =>
    obtain ⟨k', v'⟩ := p
    by_cases h : k' = k
    · simp [mapAdd, mapFind, h]
    · simp [mapAdd, mapFind, h, ih]

theorem mapFind_mapAdd_ne {β : Type} (m : List (Nat × β)) (k k' : Nat) (v : β) (h : k' ≠ k) :
    mapFind (mapAdd m k v) k' = mapFind m k' := by
  induction m with
  | nil =>
    have : ¬ k = k' := fun e => h e.symm
    simp [mapAdd, mapFind, this]
  | cons p t ih =>
    obtain ⟨k0, v0⟩ := p
    by_cases h0 : k0 = k
    · subst h0
      have : ¬ k0 = k' := fun e => h e.symm
      simp [mapAdd, mapFind, this]
    · by_cases h1 : k0 = k'
      · subst h1
        simp [mapAdd, mapFind, h0]
      · simp [mapAdd, mapFind, h0, h1, ih]

theorem mem_addUnique (l : List Nat) (x y : Nat) : y ∈ addUnique l x ↔ y ∈ l ∨ y = x := by
  unfold addUnique
  by_cases h : x ∈ l
  · simp only [h, if_true]
    constructor
    · intro hy; exact Or.inl hy
    · rintro (hy | hy)
      · exact hy
      · subst hy; exact h
  · simp [h]

theorem mem_succs_addOutgoing (m : List (Nat × List Nat)) (e : Nat × Nat) (u v : Nat) :
    v ∈ succs (addOutgoing m e) u ↔ v ∈ succs m u ∨ (u, v) = e := by
  obtain ⟨a, b⟩ := e
  unfold succs addOutgoing
  by_cases h : u = a
  · subst h
    simp only [mapFind_mapAdd_self, Option.getD_some, mem_addUnique, Prod.mk.injEq, true_and]
  · rw [mapFind_mapAdd_ne _ _ _ _ h]
    simp [h]

theorem mem_succs_foldl_addOutgoing (es : List (Nat × Nat)) (m : List (Nat × List Nat))
    (u v : Nat) :
    v ∈ succs (es.foldl addOutgoing m) u ↔ v ∈ succs m u ∨ (u, v) ∈ es := by
  induction es generalizing m with
  | nil => simp
  | cons e t ih =>
    simp only [List.foldl_cons, ih, mem_succs_addOutgoing, List.mem_cons]
    tauto

theorem buildOutgoing_eq (g : Graph) :
    buildOutgoing g = (g.Nodes.filterMap (transitionEndpoints g)).foldl addOutgoing [] := by
  unfold buildOutgoing
  generalize ([] : List (Nat × List Nat)) = m
  generalize g.Nodes = l
  induction l generalizing m with
  | nil => rfl
  | cons a t ih =>
    simp only [List.foldl_cons, List.filterMap_cons]
    cases hfa : transitionEndpoints g a with
    | none => simpa using ih m
    | some e => simpa using ih (addOutgoing m e)

theorem mem_succs_buildOutgoing (g : Graph) (u v : Nat) :
    v ∈ succs (buildOutgoing g) u ↔ Edge g u v := by
  rw [buildOutgoing_eq, mem_succs_foldl_addOutgoing]
  simp [Edge, succs, mapFind, List.mem_filterMap]

theorem castState_lt {g : Graph} {a b : Nat} (h : castState g a = some b) :
    b = a ∧ a < g.Nodes.length := by
  unfold castState at h
  cases hn : g.Nodes[a]? with
  | none => simp [hn] at h
  | some n =>
    simp only [hn] at h
    split at h
    · simp only [Option.some.injEq] at h
      refine ⟨h.symm, ?_⟩
      by_contra hlt
      rw [List.getElem?_eq_none (by omega)] at hn
      cases hn
    · cases h

theorem transitionEndpoints_lt {g : Graph} {n : Node} {u v : Nat}
    (h : transitionEndpoints g n = some (u, v)) :
    u < g.Nodes.length ∧ v < g.Nodes.length := by
  unfold transitionEndpoints at h
  split at h
  · split at h
    · split at h
      · split at h
        · rename_i f t hf ht
          simp only [Option.some.injEq, Prod.mk.injEq] at h
          obtain ⟨h1, h2⟩ := h
          subst h1 h2
          have := castState_lt hf
          have := castState_lt ht
          omega
        · cases h
      · cases h
    · cases h
  · cases h

theorem Edge.lt {g : Graph} {u v : Nat} (h : Edge g u v) :
    u < g.Nodes.length ∧ v < g.Nodes.length := by
  obtain ⟨n, _, hn⟩ := h
  exact transitionEndpoints_lt hn

/-! ## Level assignment: invariants of the work-queue loop -/

theorem Walk.mono_rel {E F : Nat → Nat → Prop} (h : ∀ a b, E a b → F a b) {s v n : Nat}
    (w : Walk E s v n) : Walk F s v n := by
  induction w with
  | refl => exact Walk.refl
  | step _ e ih => exact Walk.step ih (h _ _ e)

theorem filter_length_le_of_imp {α : Type} (p q : α → Bool) (l : List α)
    (h : ∀ a, q a = true → p a = true) : (l.filter q).length ≤ (l.filter p).length := by
  induction l with
  | nil => simp
  | cons a t ih =>
    by_cases hq : q a = true
    · have hp := h a hq
      simp [List.filter_cons, hq, hp, ih]
    · by_cases hp : p a = true
      · simp [List.filter_cons, hq, hp]; omega
      · simp [List.filter_cons, hq, hp, ih]

theorem filter_length_lt_of_imp {α : Type} (p q : α → Bool) (l : List α)
    (h : ∀ a, q a = true → p a = true) (x : α) (hx : x ∈ l) (hpx : p x = true)
    (hqx : q x = false) : (l.filter q).length + 1 ≤ (l.filter p).length := by
  induction l with
  | nil => cases hx
  | cons a t ih =>
    have hle := filter_length_le_of_imp p q t h
    rcases List.mem_cons.1 hx with rfl | hx'
    · simp [List.filter_cons, hpx, hqx, hle]
    · have := ih hx'
      by_cases hq : q a = true
      · have hp := h a hq
        simp [List.filter_cons, hq, hp, this]
      · by_cases hp : p a = true
        · simp [List.filter_cons, hq, hp]; omega
        · simp [List.filter_cons, hq, hp, this]

theorem unassigned_mapAdd_lt (N : Nat) (levels : List (Nat × Nat)) (x l : Nat)
    (hx : x < N) (hnone : mapFind levels x = none) :
    unassigned N (mapAdd levels x l) + 1 ≤ unassigned N levels := by
  unfold unassigned
  apply filter_length_lt_of_imp _ _ _ _ x (List.mem_range.2 hx)
  · simp [hnone]
  · simp [mapFind_mapAdd_self]
  · intro a ha
    by_cases hax : a = x
    · subst hax; simp [mapFind_mapAdd_self] at ha
    · rw [mapFind_mapAdd_ne _ _ _ _ hax] at ha; exact ha

theorem relaxEdge_assigned {lv : Nat} {st : LevelState} {nxt l : Nat}
    (hb : ∀ v l, mapFind st.levels v = some l → l ≤ lv + 1)
    (h : mapFind st.levels nxt = some l) : relaxEdge lv st nxt = st := by
  have := hb nxt l h
  unfold relaxEdge
  simp only [h]
  rw [if_neg (by omega)]

theorem relaxEdge_unassigned {lv : Nat} {st : LevelState} {nxt : Nat}
    (h : mapFind st.levels nxt = none) :
    relaxEdge lv st nxt =
      { levels := mapAdd st.levels nxt (lv + 1), queue := st.queue ++ [nxt] } := by
  unfold relaxEdge
  simp only [h]

theorem lvl_mapAdd_ne (levels : List (Nat × Nat)) (x l v : Nat) (h : v ≠ x) :
    lvl (mapAdd levels x l) v = lvl levels v := by
  unfold lvl
  rw [mapFind_mapAdd_ne _ _ _ _ h]

theorem RelaxInv.relax_step {out : List (Nat × List Nat)} {N init cur lv : Nat}
    {st : LevelState} (inv : RelaxInv out init cur lv st) {nxt : Nat}
    (hedge : nxt ∈ succs out cur) (hN : nxt < N) :
    RelaxInv out init cur lv (relaxEdge lv st nxt) ∧
    loopMeasure N (relaxEdge lv st nxt) ≤ loopMeasure N st ∧
    (∃ l, mapFind (relaxEdge lv st nxt).levels nxt = some l) ∧
    (∀ v l, mapFind st.levels v = some l → mapFind (relaxEdge lv st nxt).levels v = some l) := by
  cases hfind : mapFind st.levels nxt with
  | some l =>
    rw [relaxEdge_assigned inv.bound hfind]
    exact ⟨inv, le_refl _, ⟨l, hfind⟩, fun _ _ h => h⟩
  | none =>
    rw [relaxEdge_unassigned hfind]
    have hmono : ∀ v l, mapFind st.levels v = some l →
        mapFind (mapAdd st.levels nxt (lv + 1)) v = some l := by
      intro v l hv
      have hne : v ≠ nxt := by
        rintro rfl
        rw [hfind] at hv; cases hv
      rw [mapFind_mapAdd_ne _ _ _ _ hne]; exact hv
    have hcases : ∀ v l, mapFind (mapAdd st.levels nxt (lv + 1)) v = some l →
        (v = nxt ∧ l = lv + 1) ∨ (v ≠ nxt ∧ mapFind st.levels v = some l) := by
      intro v l hv
      by_cases hvn : v = nxt
      · subst hvn
        rw [mapFind_mapAdd_self] at hv
        simp only [Option.some.injEq] at hv
        exact Or.inl ⟨rfl, hv.symm⟩
      · rw [mapFind_mapAdd_ne _ _ _ _ hvn] at hv
        exact Or.inr ⟨hvn, hv⟩
    have hq_ne : ∀ q ∈ st.queue, q ≠ nxt := by
      intro q hq
      rintro rfl
      obtain ⟨l, hl, _⟩ := inv.queued q hq
      rw [hfind] at hl; cases hl
    refine ⟨?_, ?_, ⟨lv + 1, mapFind_mapAdd_self _ _ _⟩, hmono⟩
    · constructor
      · exact hmono _ _ inv.init0
      · intro v l hv
        rcases hcases v l hv with ⟨rfl, rfl⟩ | ⟨_, hv'⟩
        · exact Walk.step (inv.sound _ _ inv.current) hedge
        · exact inv.sound v l hv'
      · intro q hq
        rcases List.mem_append.1 hq with hq | hq
        · obtain ⟨l, hl, hle⟩ := inv.queued q hq
          exact ⟨l, hmono _ _ hl, hle⟩
        · simp only [List.mem_singleton] at hq
          subst hq
          exact ⟨lv + 1, mapFind_mapAdd_self _ _ _, Nat.le_succ _⟩
      · show List.Pairwise _ (st.queue ++ [nxt])
        rw [List.pairwise_append]
        refine ⟨?_, List.pairwise_singleton _ _, ?_⟩
        · refine List.Pairwise.imp_of_mem ?_ inv.sorted
          intro a b ha hb hab
          show lvl (mapAdd st.levels nxt (lv + 1)) a ≤ lvl (mapAdd st.levels nxt (lv + 1)) b
          rw [lvl_mapAdd_ne _ _ _ _ (hq_ne a ha), lvl_mapAdd_ne _ _ _ _ (hq_ne b hb)]
          exact hab
        · intro a ha b hb
          simp only [List.mem_singleton] at hb
          rw [hb]
          show lvl (mapAdd st.levels nxt (lv + 1)) a ≤ lvl (mapAdd st.levels nxt (lv + 1)) nxt
          rw [lvl_mapAdd_ne _ _ _ _ (hq_ne a ha)]
          obtain ⟨l, hl, _⟩ := inv.queued a ha
          have := inv.bound a l hl
          simp only [lvl, hl, mapFind_mapAdd_self, Option.getD_some]
          exact this
      · intro v l hv
        rcases hcases v l hv with ⟨_, rfl⟩ | ⟨_, hv'⟩
        · exact le_refl _
        · exact inv.bound v l hv'
      · intro u lu hu hnq hne v hv
        have hunq : u ∉ st.queue := fun h => hnq (List.mem_append.2 (Or.inl h))
        have hun : u ≠ nxt := fun h => hnq (List.mem_append.2 (Or.inr (by simp [h])))
        have hu' : mapFind st.levels u = some lu := by
          rcases hcases u lu hu with ⟨h, _⟩ | ⟨_, h⟩
          · exact absurd h hun
          · exact h
        obtain ⟨l, hl, hle⟩ := inv.closed u lu hu' hunq hne v hv
        exact ⟨l, hmono _ _ hl, hle⟩
      · exact hmono _ _ inv.current
    · have := unassigned_mapAdd_lt N st.levels nxt (lv + 1) hN hfind
      simp only [loopMeasure, List.length_append, List.length_singleton]
      omega

theorem RelaxInv.fold {out : List (Nat × List Nat)} {N init cur lv : Nat}
    (ns : List Nat) {st : LevelState} (inv : RelaxInv out init cur lv st)
    (hns : ∀ v ∈ ns, v ∈ succs out cur ∧ v < N) :
    RelaxInv out init cur lv (ns.foldl (relaxEdge lv) st) ∧
    loopMeasure N (ns.foldl (relaxEdge lv) st) ≤ loopMeasure N st ∧
    (∀ v ∈ ns, ∃ l, mapFind (ns.foldl (relaxEdge lv) st).levels v = some l) ∧
    (∀ v l, mapFind st.levels v = some l →
      mapFind (ns.foldl (relaxEdge lv) st).levels v = some l) := by
  induction ns generalizing st with
  | nil => exact ⟨inv, le_refl _, fun _ h => absurd h (List.not_mem_nil _), fun _ _ h => h⟩
  | cons a t ih =>
    obtain ⟨ha1, ha2⟩ := hns a (List.mem_cons_self _ _)
    obtain ⟨inv1, hm1, ⟨la, hla⟩, hmono1⟩ := inv.relax_step (N := N) ha1 ha2
    obtain ⟨inv2, hm2, hall, hmono2⟩ :=
      ih inv1 (fun v hv => hns v (List.mem_cons_of_mem _ hv))
    refine ⟨inv2, le_trans hm2 hm1, ?_, fun v l h => hmono2 v l (hmono1 v l h)⟩
    intro v hv
    rcases List.mem_cons.1 hv with rfl | hv
    · exact ⟨la, hmono2 _ _ hla⟩
    · exact hall v hv

theorem processNode_eq (out : List (Nat × List Nat)) (levels : List (Nat × Nat))
    (cur : Nat) (rest : List Nat) :
    processNode out levels cur rest =
      (succs out cur).foldl (relaxEdge (lvl levels cur)) { levels := levels, queue := rest } := by
  unfold processNode succs lvl
  cases mapFind out cur <;> rfl

theorem LevelInv.process_step {out : List (Nat × List Nat)} {N init : Nat}
    (hout : ∀ u v, v ∈ succs out u → v < N)
    {st : LevelState} (inv : LevelInv out init st) {cur : Nat} {rest : List Nat}
    (hq : st.queue = cur :: rest) :
    LevelInv out init (processNode out st.levels cur rest) ∧
    loopMeasure N (processNode out st.levels cur rest) + 1 ≤ loopMeasure N st := by
  obtain ⟨lv, hlv⟩ := inv.queued cur (by rw [hq]; exact List.mem_cons_self _ _)
  have hlvl : lvl st.levels cur = lv := by simp [lvl, hlv]
  have hsorted := inv.sorted
  rw [hq, List.pairwise_cons] at hsorted
  have start : RelaxInv out init cur lv { levels := st.levels, queue := rest } := by
    constructor
    · exact inv.init0
    · exact inv.sound
    · intro q hqr
      obtain ⟨l, hl⟩ := inv.queued q (by rw [hq]; exact List.mem_cons_of_mem _ hqr)
      refine ⟨l, hl, ?_⟩
      have := hsorted.1 q hqr
      simp only [lvl, hlv, hl, Option.getD_some] at this
      exact this
    · exact hsorted.2
    · intro v l hv
      have := inv.bound cur rest hq v l hv
      rw [hlvl] at this
      exact this
    · intro u lu hu hnq hne v hv
      refine inv.closed u lu hu ?_ v hv
      rw [hq]
      simp only [List.mem_cons, not_or]
      exact ⟨hne, hnq⟩
    · exact hlv
  rw [processNode_eq, hlvl]
  obtain ⟨fin, hm, hall, hmono⟩ :=
    start.fold (N := N) (succs out cur) (fun v hv => ⟨hv, hout cur v hv⟩)
  refine ⟨?_, ?_⟩
  · constructor
    · exact fin.init0
    · exact fin.sound
    · intro q hqf
      obtain ⟨l, hl, _⟩ := fin.queued q hqf
      exact ⟨l, hl⟩
    · exact fin.sorted
    · intro q r hqr v l hv
      obtain ⟨lq, hlq, hle⟩ := fin.queued q (by rw [hqr]; exact List.mem_cons_self _ _)
      have := fin.bound v l hv
      simp only [lvl, hlq, Option.getD_some]
      omega
    · intro u lu hu hnq v hv
      by_cases huc : u = cur
      · subst huc
        obtain ⟨l, hl⟩ := hall v hv
        have h1 := fin.bound v l hl
        have h2 := fin.current
        rw [hu] at h2
        simp only [Option.some.injEq] at h2
        subst h2
        exact ⟨l, hl, h1⟩
      · exact fin.closed u lu hu hnq huc v hv
  · have : loopMeasure N st =
        loopMeasure N { levels := st.levels, queue := rest } + 1 := by
      simp only [loopMeasure, hq, List.length_cons]
      omega
    omega

theorem LevelInv.loop_ends {out : List (Nat × List Nat)} {N init : Nat}
    (hout : ∀ u v, v ∈ succs out u → v < N) (fuel : Nat) {st : LevelState}
    (inv : LevelInv out init st) (hfuel : loopMeasure N st ≤ fuel) :
    LevelInv out init (levelLoop out fuel st) ∧ (levelLoop out fuel st).queue = [] := by
  induction fuel generalizing st with
  | zero =>
    have : st.queue.length = 0 := by
      unfold loopMeasure at hfuel
      omega
    exact ⟨inv, List.length_eq_zero.1 this⟩
  | succ n ih =>
    unfold JsonAsAsset.levelLoop
    split
    · rename_i h
      exact ⟨inv, h⟩
    · rename_i cur rest h
      obtain ⟨inv', hm⟩ := inv.process_step hout h
      exact ih inv' (by omega)

theorem LevelInv.level_start (out : List (Nat × List Nat)) (init : Nat) :
    LevelInv out init { levels := [(init, 0)], queue := [init] } := by
  constructor
  · simp [mapFind]
  · intro v l h
    simp only [mapFind] at h
    split at h
    · rename_i hv
      simp only [Option.some.injEq] at h
      subst hv h
      exact Walk.refl
    · cases h
  · intro q hq
    simp only [List.mem_singleton] at hq
    subst hq
    exact ⟨0, by simp [mapFind]⟩
  · exact List.pairwise_singleton _ _
  · intro q rest hq v l h
    simp only [mapFind] at h
    split at h
    · simp only [Option.some.injEq] at h
      omega
    · cases h
  · intro u lu h hnq
    simp only [mapFind] at h
    split at h
    · rename_i hu
      subst hu
      simp at hnq
    · cases h

theorem unassigned_le (N : Nat) (levels : List (Nat × Nat)) : unassigned N levels ≤ N := by
  unfold unassigned
  calc ((List.range N).filter _).length ≤ (List.range N).length := List.length_filter_le _ _
    _ = N := List.length_range N

/-- The loop of `assignLevels` ends with an empty queue, in a state satisfying the invariant. -/
theorem assignLevels_inv (g : Graph) (init : Nat) :
    LevelInv (buildOutgoing g) init (assignLevels g init) ∧ (assignLevels g init).queue = [] := by
  unfold assignLevels
  apply LevelInv.loop_ends (N := g.Nodes.length)
  · intro u v h
    exact ((mem_succs_buildOutgoing g u v).1 h).lt.2
  · exact LevelInv.level_start _ _
  · have := unassigned_le g.Nodes.length [(init, 0)]
    simp only [loopMeasure, List.length_singleton]
    omega

theorem LevelInv.complete {out : List (Nat × List Nat)} {init : Nat} {st : LevelState}
    (inv : LevelInv out init st) (hq : st.queue = []) {v n : Nat}
    (w : Walk (fun a b => b ∈ succs out a) init v n) :
    ∃ l, mapFind st.levels v = some l ∧ l ≤ n := by
  induction w with
  | refl => exact ⟨0, inv.init0, le_refl _⟩
  | step _ e ih =>
    obtain ⟨lu, hlu, hle⟩ := ih
    obtain ⟨l, hl, hle'⟩ := inv.closed _ lu hlu (by rw [hq]; simp) _ e
    exact ⟨l, hl, by omega⟩

theorem walk_succs_iff (g : Graph) (init v n : Nat) :
    Walk (fun a b => b ∈ succs (buildOutgoing g) a) init v n ↔ Walk (Edge g) init v n :=
  ⟨Walk.mono_rel (fun a b h => (mem_succs_buildOutgoing g a b).1 h),
   Walk.mono_rel (fun a b h => (mem_succs_buildOutgoing g a b).2 h)⟩

/-- Levels at the end of the loop are exactly the shortest hop counts. -/
theorem assignLevels_spec (g : Graph) (init v : Nat) :
    ((∃ l, mapFind (assignLevels g init).levels v = some l) ↔ Reachable g init v) ∧
    (∀ l, mapFind (assignLevels g init).levels v = some l →
      Walk (Edge g) init v l ∧ ∀ n, Walk (Edge g) init v n → l ≤ n) := by
  obtain ⟨inv, hq⟩ := assignLevels_inv g init
  have hmin : ∀ l, mapFind (assignLevels g init).levels v = some l →
      Walk (Edge g) init v l ∧ ∀ n, Walk (Edge g) init v n → l ≤ n := by
    intro l hl
    refine ⟨(walk_succs_iff g init v l).1 (inv.sound v l hl), ?_⟩
    intro n w
    obtain ⟨l', hl', hle⟩ := inv.complete hq ((walk_succs_iff g init v n).2 w)
    rw [hl] at hl'
    simp only [Option.some.injEq] at hl'
    omega
  refine ⟨⟨?_, ?_⟩, hmin⟩
  · rintro ⟨l, hl⟩
    exact ⟨l, (hmin l hl).1⟩
  · rintro ⟨n, w⟩
    obtain ⟨l, hl, _⟩ := inv.complete hq ((walk_succs_iff g init v n).2 w)
    exact ⟨l, hl⟩

/-- Once the queue is empty, further iterations change nothing. -/
theorem levelLoop_stable (out : List (Nat × List Nat)) (n k : Nat) (st : LevelState)
    (h : (levelLoop out n st).queue = []) : levelLoop out (n + k) st = levelLoop out n st := by
  induction n generalizing st with
  | zero =>
    simp only [levelLoop] at h
    cases k with
    | zero => rfl
    | succ k => simp [levelLoop, h]
  | succ n ih =>
    rw [Nat.succ_add]
    unfold levelLoop
    split
    · rfl
    · rename_i cur rest hq
      apply ih
      simpa [levelLoop, hq] using h

/-! ## Position assignments as plans -/

theorem updateNode_entry (g : Graph) (i : Nat) (f : Node → Node) :
    (updateNode g i f).EntryNode = g.EntryNode := by
  unfold updateNode
  cases g.Nodes[i]? <;> rfl

theorem updateNode_get (g : Graph) (i j : Nat) (f : Node → Node) :
    (updateNode g i f).Nodes[j]? = if j = i then (g.Nodes[j]?).map f else g.Nodes[j]? := by
  unfold updateNode
  by_cases hji : j = i
  · subst hji
    cases hn : g.Nodes[j]? with
    | none => simp [hn]
    | some n =>
      have hlt : j < g.Nodes.length := by
        by_contra hlt
        rw [List.getElem?_eq_none (by omega)] at hn
        cases hn
      simp [hn, List.getElem?_set, hlt]
  · cases hn : g.Nodes[i]? with
    | none => simp [hji]
    | some n =>
      have : i ≠ j := fun e => hji e.symm
      simp [hji, List.getElem?_set_ne this]

theorem updateNode_length (g : Graph) (i : Nat) (f : Node → Node) :
    (updateNode g i f).Nodes.length = g.Nodes.length := by
  unfold updateNode
  cases g.Nodes[i]? <;> simp

theorem Graph.ext_get {g h : Graph} (he : g.EntryNode = h.EntryNode)
    (hn : ∀ i : Nat, g.Nodes[i]? = h.Nodes[i]?) : g = h := by
  cases g; cases h
  simp only [Graph.mk.injEq]
  exact ⟨List.ext_getElem? hn, he⟩

theorem setPos_get (g : Graph) (i j : Nat) (x y : Int) :
    (setPos g i x y).Nodes[j]? =
      (g.Nodes[j]?).map (overridePos (if i = j then some (x, y) else none)) := by
  unfold setPos
  rw [updateNode_get]
  by_cases h : j = i
  · subst h
    simp only [if_true]
    rfl
  · have : ¬ i = j := fun e => h e.symm
    simp only [h, this, if_false]
    cases g.Nodes[j]? <;> rfl

theorem overridePos_overridePos (a b : Option (Int × Int)) (n : Node) :
    overridePos a (overridePos b n) = overridePos (a.orElse (fun _ => b)) n := by
  cases a <;> cases b <;> rfl

theorem applyPlan_entry (P : List (Nat × Int × Int)) (g : Graph) :
    (applyPlan P g).EntryNode = g.EntryNode := by
  unfold applyPlan
  induction P generalizing g with
  | nil => rfl
  | cons p t ih =>
    simp only [List.foldl_cons]
    rw [ih]
    exact updateNode_entry _ _ _

theorem applyPlan_cons (p : Nat × Int × Int) (P : List (Nat × Int × Int)) (g : Graph) :
    applyPlan (p :: P) g = applyPlan P (setPos g p.1 p.2.1 p.2.2) := rfl

theorem applyPlan_append (P Q : List (Nat × Int × Int)) (g : Graph) :
    applyPlan (P ++ Q) g = applyPlan Q (applyPlan P g) := by
  unfold applyPlan
  rw [List.foldl_append]

theorem applyPlan_get (P : List (Nat × Int × Int)) (g : Graph) (j : Nat) :
    (applyPlan P g).Nodes[j]? = (g.Nodes[j]?).map (overridePos (lastPos P j)) := by
  induction P generalizing g with
  | nil =>
    simp only [applyPlan, List.foldl_nil, lastPos]
    cases g.Nodes[j]? <;> rfl
  | cons p t ih =>
    rw [applyPlan_cons, ih, setPos_get, Option.map_map]
    congr 1
    funext n
    simp only [Function.comp, overridePos_overridePos, lastPos]
    cases lastPos t j <;> rfl

theorem applyPlan_length (P : List (Nat × Int × Int)) (g : Graph) :
    (applyPlan P g).Nodes.length = g.Nodes.length := by
  unfold applyPlan
  induction P generalizing g with
  | nil => rfl
  | cons p t ih =>
    simp only [List.foldl_cons]
    rw [ih]
    exact updateNode_length _ _ _

theorem placeNodes_eq (x startY : Int) (i : Nat) (l : List Nat) (g : Graph) :
    placeNodes x startY i l g = applyPlan (nodesPlan x startY i l) g := by
  induction l generalizing i g with
  | nil => rfl
  | cons a t ih =>
    simp only [placeNodes, nodesPlan, applyPlan_cons]
    exact ih _ _

/-! ## The layout reads the topology only -/

theorem topo_get (g : Graph) (i : Nat) : (topo g).Nodes[i]? = (g.Nodes[i]?).map strip := by
  simp [topo]

theorem strip_overridePos (p : Option (Int × Int)) (n : Node) :
    strip (overridePos p n) = strip n := by
  cases p <;> rfl

theorem topo_applyPlan (P : List (Nat × Int × Int)) (g : Graph) :
    topo (applyPlan P g) = topo g := by
  apply Graph.ext_get
  · simp only [topo]
    exact applyPlan_entry P g
  · intro i
    rw [topo_get, topo_get, applyPlan_get, Option.map_map]
    congr 1
    funext n
    exact strip_overridePos _ n

theorem castState_topo (g : Graph) (i : Nat) : castState (topo g) i = castState g i := by
  unfold castState
  rw [topo_get]
  cases g.Nodes[i]? <;> rfl

theorem transitionEndpoints_topo (g : Graph) (n : Node) :
    transitionEndpoints (topo g) (strip n) = transitionEndpoints g n := by
  unfold transitionEndpoints
  simp only [castState_topo, strip]

theorem findInitialState_topo (g : Graph) : findInitialState (topo g) = findInitialState g := by
  unfold findInitialState
  cases he : g.EntryNode with
  | none => simp [topo, he]
  | some e =>
    have : (topo g).EntryNode = some e := by simp [topo, he]
    simp only [this, topo_get]
    cases g.Nodes[e]? with
    | none => rfl
    | some en =>
      simp only [findPin, castState_topo]
      rfl

theorem buildOutgoing_topo (g : Graph) : buildOutgoing (topo g) = buildOutgoing g := by
  rw [buildOutgoing_eq, buildOutgoing_eq]
  congr 1
  simp only [topo, List.filterMap_map]
  congr 1
  funext n
  exact transitionEndpoints_topo g n

theorem assignLevels_topo (g : Graph) (init : Nat) :
    assignLevels (topo g) init = assignLevels g init := by
  unfold assignLevels
  rw [buildOutgoing_topo]
  simp [topo]

theorem nodeName_topo (g : Graph) : nodeName (topo g) = nodeName g := by
  funext i
  unfold nodeName
  rw [topo_get]
  cases g.Nodes[i]? <;> rfl

theorem sortByName_topo (g : Graph) : sortByName (topo g) = sortByName g := by
  funext l
  unfold sortByName
  simp only [nodeName_topo]

theorem statePlan_topo (g : Graph) (levels : List (Nat × Nat)) :
    statePlan (topo g) levels = statePlan g levels := by
  unfold statePlan levelPlan
  simp only [sortByName_topo]

theorem sortByName_congr {g h : Graph} (e : topo g = topo h) : sortByName g = sortByName h := by
  rw [← sortByName_topo g, e, sortByName_topo]

theorem placeLevel_eq (g : Graph) (level : Nat) (ns : List Nat) :
    placeLevel g level ns = applyPlan (levelPlan g level ns) g := by
  unfold placeLevel levelPlan
  exact placeNodes_eq _ _ _ _ _

theorem placeStates_eq (g : Graph) (levels : List (Nat × Nat)) :
    placeStates g levels = applyPlan (statePlan g levels) g := by
  unfold placeStates statePlan
  generalize groupByLevel levels = groups
  have key : ∀ (groups : List (Nat × List Nat)) (acc : Graph), topo acc = topo g →
      groups.foldl (fun acc grp => placeLevel acc grp.1 grp.2) acc =
        applyPlan (groups.flatMap (fun grp => levelPlan g grp.1 grp.2)) acc := by
    intro groups
    induction groups with
    | nil => intro acc _; rfl
    | cons grp t ih =>
      intro acc hacc
      simp only [List.foldl_cons, List.flatMap_cons, applyPlan_append]
      have hl : levelPlan acc grp.1 grp.2 = levelPlan g grp.1 grp.2 := by
        unfold levelPlan
        rw [sortByName_congr hacc]
      rw [placeLevel_eq, hl]
      apply ih
      rw [topo_applyPlan, hacc]
  exact key groups g rfl

/-! ## The transition loop of the layout as a plan -/

theorem castState_eq_some {g : Graph} {a b : Nat} (h : castState g a = some b) :
    b = a ∧ ∃ n, g.Nodes[a]? = some n ∧ n.cls = NodeClass.state := by
  unfold castState at h
  cases hn : g.Nodes[a]? with
  | none => simp [hn] at h
  | some n =>
    simp only [hn] at h
    split at h
    · rename_i hc
      simp only [Option.some.injEq] at h
      exact ⟨h.symm, n, rfl, hc⟩
    · cases h

theorem castState_of_state {g : Graph} {s : Nat} {n : Node} (hn : g.Nodes[s]? = some n)
    (hc : n.cls = NodeClass.state) : castState g s = some s := by
  unfold castState
  simp [hn, hc]

theorem transitionEndpoints_some {g : Graph} {n : Node} {u v : Nat}
    (h : transitionEndpoints g n = some (u, v)) :
    n.cls = NodeClass.transition ∧ castState g u = some u ∧ castState g v = some v := by
  unfold transitionEndpoints at h
  split at h
  · rename_i hc
    split at h
    · split at h
      · split at h
        · rename_i f t hf ht
          simp only [Option.some.injEq, Prod.mk.injEq] at h
          obtain ⟨h1, h2⟩ := h
          subst h1 h2
          have e1 := (castState_eq_some hf).1
          have e2 := (castState_eq_some ht).1
          rw [e1] at hf
          rw [e2] at ht
          rw [e1, e2]
          exact ⟨hc, hf, ht⟩
        · cases h
      · cases h
    · cases h
  · cases h

theorem transitionEndpoints_congr {g h : Graph} {n m : Node} (e : topo g = topo h)
    (en : strip n = strip m) : transitionEndpoints g n = transitionEndpoints h m := by
  rw [← transitionEndpoints_topo g n, ← transitionEndpoints_topo h m, e, en]

theorem topo_get_eq {g h : Graph} (e : topo g = topo h) (i : Nat) :
    (g.Nodes[i]?).map strip = (h.Nodes[i]?).map strip := by
  rw [← topo_get, ← topo_get, e]

theorem posX_congr {g h : Graph} {s : Nat} (e : g.Nodes[s]? = h.Nodes[s]?) :
    posX g s = posX h s := by
  unfold posX
  rw [e]

theorem posY_congr {g h : Graph} {s : Nat} (e : g.Nodes[s]? = h.Nodes[s]?) :
    posY g s = posY h s := by
  unfold posY
  rw [e]

theorem placeTransition_eq {acc h : Graph} (ht : topo acc = topo h)
    (hs : ∀ s, castState h s = some s → acc.Nodes[s]? = h.Nodes[s]?) (i : Nat) :
    placeTransition acc i = applyPlan (transitionPos h i).toList acc := by
  have hi := topo_get_eq ht i
  unfold placeTransition transitionPos
  cases hn : h.Nodes[i]? with
  | none =>
    rw [hn] at hi
    cases hm : acc.Nodes[i]? with
    | none => rfl
    | some m => rw [hm] at hi; cases hi
  | some n =>
    rw [hn] at hi
    cases hm : acc.Nodes[i]? with
    | none => rw [hm] at hi; cases hi
    | some m =>
      rw [hm] at hi
      simp only [Option.map_some', Option.some.injEq] at hi
      have hte := transitionEndpoints_congr ht hi
      simp only [hte]
      cases hend : transitionEndpoints h n with
      | none => rfl
      | some p =>
        obtain ⟨f, t⟩ := p
        obtain ⟨_, hf, htt⟩ := transitionEndpoints_some hend
        simp only [Option.toList, applyPlan, List.foldl_cons, List.foldl_nil]
        rw [posX_congr (hs f hf), posX_congr (hs t htt), posY_congr (hs f hf),
          posY_congr (hs t htt)]

theorem transitionPos_fst {h : Graph} {i : Nat} {p : Nat × Int × Int}
    (hp : transitionPos h i = some p) :
    p.1 = i ∧ ∃ n, h.Nodes[i]? = some n ∧ n.cls = NodeClass.transition := by
  unfold transitionPos at hp
  cases hn : h.Nodes[i]? with
  | none => simp [hn] at hp
  | some n =>
    simp only [hn] at hp
    cases hend : transitionEndpoints h n with
    | none => simp [hend] at hp
    | some q =>
      obtain ⟨f, t⟩ := q
      simp only [hend, Option.some.injEq] at hp
      subst hp
      exact ⟨rfl, n, rfl, (transitionEndpoints_some hend).1⟩

theorem placeTransitions_fold (h : Graph) (l : List Nat) (acc : Graph)
    (ht : topo acc = topo h)
    (hs : ∀ s, castState h s = some s → acc.Nodes[s]? = h.Nodes[s]?) :
    l.foldl placeTransition acc = applyPlan (l.filterMap (transitionPos h)) acc := by
  induction l generalizing acc with
  | nil => rfl
  | cons i t ih =>
    simp only [List.foldl_cons]
    rw [placeTransition_eq ht hs i]
    have happ : applyPlan ((i :: t).filterMap (transitionPos h)) acc =
        applyPlan (t.filterMap (transitionPos h)) (applyPlan (transitionPos h i).toList acc) := by
      rw [← applyPlan_append]
      congr 1
      cases hp : transitionPos h i <;> simp [List.filterMap_cons, hp]
    rw [happ]
    apply ih
    · rw [topo_applyPlan, ht]
    · intro s hsc
      rw [applyPlan_get, ← hs s hsc]
      cases hp : transitionPos h i with
      | none =>
        simp only [Option.toList, lastPos]
        cases acc.Nodes[s]? <;> rfl
      | some p =>
        obtain ⟨hp1, n, hn, hc⟩ := transitionPos_fst hp
        obtain ⟨_, m, hm, hmc⟩ := castState_eq_some hsc
        have hne : ¬ p.1 = s := by
          rw [hp1]
          rintro rfl
          rw [hn] at hm
          simp only [Option.some.injEq] at hm
          subst hm
          rw [hc] at hmc
          cases hmc
        simp only [Option.toList, lastPos, hne, if_false]
        cases acc.Nodes[s]? <;> rfl

theorem placeTransitions_eq (h : Graph) :
    placeTransitions h = applyPlan (transitionPlan h) h :=
  placeTransitions_fold h _ h rfl (fun _ _ => rfl)

theorem AutoLayout_eq_of_initial {g : Graph} {init : Nat} (hi : findInitialState g = some init) :
    AutoLayoutStateMachineGraph g =
      applyPlan (transitionPlan (applyPlan (statePlan g (assignLevels g init).levels) g))
        (applyPlan (statePlan g (assignLevels g init).levels) g) := by
  unfold AutoLayoutStateMachineGraph
  simp only [hi]
  rw [placeStates_eq, placeTransitions_eq]

theorem AutoLayout_eq_of_no_initial {g : Graph} (hi : findInitialState g = none) :
    AutoLayoutStateMachineGraph g = g := by
  unfold AutoLayoutStateMachineGraph
  simp only [hi]

/-! ## Idempotence of the layout -/

theorem lastPos_eq_none {P : List (Nat × Int × Int)} {s : Nat} (h : ∀ p ∈ P, p.1 ≠ s) :
    lastPos P s = none := by
  induction P with
  | nil => rfl
  | cons p t ih =>
    have h1 := ih (fun q hq => h q (List.mem_cons_of_mem _ hq))
    have h2 := h p (List.mem_cons_self _ _)
    simp [lastPos, h1, h2]

theorem lastPos_transitionPlan_state {h : Graph} {s : Nat} (hs : castState h s = some s) :
    lastPos (transitionPlan h) s = none := by
  apply lastPos_eq_none
  intro p hp
  unfold transitionPlan at hp
  rw [List.mem_filterMap] at hp
  obtain ⟨i, _, hpi⟩ := hp
  obtain ⟨hp1, n, hn, hc⟩ := transitionPos_fst hpi
  obtain ⟨_, m, hm, hmc⟩ := castState_eq_some hs
  rw [hp1]
  rintro rfl
  rw [hn] at hm
  simp only [Option.some.injEq] at hm
  subst hm
  rw [hc] at hmc
  cases hmc

theorem topo_length {g h : Graph} (e : topo g = topo h) : g.Nodes.length = h.Nodes.length := by
  have := congrArg (fun k => k.Nodes.length) e
  simpa [topo] using this

theorem castState_congr {g h : Graph} (e : topo g = topo h) (s : Nat) :
    castState g s = castState h s := by
  rw [← castState_topo g, e, castState_topo]

theorem transitionPos_congr {g h : Graph} (e : topo g = topo h)
    (hs : ∀ s, castState h s = some s → g.Nodes[s]? = h.Nodes[s]?) (i : Nat) :
    transitionPos g i = transitionPos h i := by
  have hi := topo_get_eq e i
  unfold transitionPos
  cases hn : h.Nodes[i]? with
  | none =>
    rw [hn] at hi
    cases hm : g.Nodes[i]? with
    | none => rfl
    | some m => rw [hm] at hi; cases hi
  | some n =>
    rw [hn] at hi
    cases hm : g.Nodes[i]? with
    | none => rw [hm] at hi; cases hi
    | some m =>
      rw [hm] at hi
      simp only [Option.map_some', Option.some.injEq] at hi
      have hte := transitionEndpoints_congr e hi
      simp only [hte]
      cases hend : transitionEndpoints h n with
      | none => rfl
      | some p =>
        obtain ⟨f, t⟩ := p
        obtain ⟨_, hf, htt⟩ := transitionEndpoints_some hend
        simp only
        rw [posX_congr (hs f hf), posX_congr (hs t htt), posY_congr (hs f hf),
          posY_congr (hs t htt)]

theorem transitionPlan_congr {g h : Graph} (e : topo g = topo h)
    (hs : ∀ s, castState h s = some s → g.Nodes[s]? = h.Nodes[s]?) :
    transitionPlan g = transitionPlan h := by
  unfold transitionPlan
  rw [topo_length e]
  congr 1
  funext i
  exact transitionPos_congr e hs i

theorem overridePos_idem (p : Option (Int × Int)) (n : Node) :
    overridePos p (overridePos p n) = overridePos p n := by
  cases p <;> rfl

theorem overridePos_none (n : Node) : overridePos none n = n := rfl

/-- Layout is idempotent: a second run returns the graph of the first run unchanged. -/
theorem AutoLayout_idempotent (g : Graph) :
    AutoLayoutStateMachineGraph (AutoLayoutStateMachineGraph g) =
      AutoLayoutStateMachineGraph g := by
  cases hi : findInitialState g with
  | none => rw [AutoLayout_eq_of_no_initial hi, AutoLayout_eq_of_no_initial hi]
  | some init =>
    rw [AutoLayout_eq_of_initial hi]
    generalize hP : statePlan g (assignLevels g init).levels = P
    generalize hh : applyPlan P g = h
    generalize hT : transitionPlan h = T
    have htopo : topo (applyPlan T h) = topo g := by
      rw [topo_applyPlan, ← hh, topo_applyPlan]
    have hi2 : findInitialState (applyPlan T h) = some init := by
      rw [← findInitialState_topo, htopo, findInitialState_topo, hi]
    have hL : assignLevels (applyPlan T h) init = assignLevels g init := by
      rw [← assignLevels_topo, htopo, assignLevels_topo]
    have hP2 : statePlan (applyPlan T h) (assignLevels g init).levels = P := by
      rw [← statePlan_topo, htopo, statePlan_topo, hP]
    rw [AutoLayout_eq_of_initial hi2, hL, hP2]
    have hstate : ∀ s, castState h s = some s →
        (applyPlan P (applyPlan T h)).Nodes[s]? = h.Nodes[s]? := by
      intro s hs
      rw [applyPlan_get, applyPlan_get, ← hT, lastPos_transitionPlan_state hs, ← hh,
        applyPlan_get, Option.map_map, Option.map_map]
      congr 1
      funext n
      simp only [Function.comp, overridePos_none, overridePos_idem]
    have hT2 : transitionPlan (applyPlan P (applyPlan T h)) = T := by
      rw [← hT]
      apply transitionPlan_congr
      · rw [topo_applyPlan, hT, topo_applyPlan]
      · rw [hT]; exact hstate
    rw [hT2]
    apply Graph.ext_get
    · simp only [applyPlan_entry]
    · intro i
      rw [applyPlan_get, applyPlan_get, applyPlan_get, ← hh, applyPlan_get]
      simp only [Option.map_map]
      congr 1
      funext n
      simp only [Function.comp, overridePos_overridePos]
      cases lastPos T i <;> cases lastPos P i <;> rfl

/-! ## Keys of the level map, grouping by level -/

theorem mapAdd_keys {β : Type} (m : List (Nat × β)) (k : Nat) (v : β) :
    (mapAdd m k v).map (fun p => p.1) =
      if k ∈ m.map (fun p => p.1) then m.map (fun p => p.1) else m.map (fun p => p.1) ++ [k] := by
  induction m with
  | nil => simp [mapAdd]
  | cons p t ih =>
    obtain ⟨k', v'⟩ := p
    by_cases h : k' = k
    · subst h
      simp [mapAdd]
    · have hne : ¬ k = k' := fun e => h e.symm
      simp only [mapAdd, h, if_false, List.map_cons, ih, List.mem_cons, hne, false_or]
      split <;> simp

theorem mapAdd_keys_nodup {β : Type} (m : List (Nat × β)) (k : Nat) (v : β)
    (h : (m.map (fun p => p.1)).Nodup) : ((mapAdd m k v).map (fun p => p.1)).Nodup := by
  rw [mapAdd_keys]
  split
  · exact h
  · rename_i hk
    rw [List.nodup_append]
    refine ⟨h, List.nodup_singleton _, ?_⟩
    intro a ha hb
    simp only [List.mem_singleton] at hb
    subst hb
    exact hk ha

theorem mapFind_eq_some_of_mem {β : Type} {m : List (Nat × β)} {k : Nat} {v : β}
    (hnd : (m.map (fun p => p.1)).Nodup) (h : (k, v) ∈ m) : mapFind m k = some v := by
  induction m with
  | nil => cases h
  | cons p t ih =>
    obtain ⟨k', v'⟩ := p
    simp only [List.map_cons, List.nodup_cons] at hnd
    rcases List.mem_cons.1 h with e | h'
    · simp only [Prod.mk.injEq] at e
      obtain ⟨rfl, rfl⟩ := e
      simp [mapFind]
    · have hne : ¬ k' = k := by
        rintro rfl
        exact hnd.1 (List.mem_map.2 ⟨(k', v), h', rfl⟩)
      simp only [mapFind, hne, if_false]
      exact ih hnd.2 h'

theorem mem_of_mapFind_eq_some {β : Type} {m : List (Nat × β)} {k : Nat} {v : β}
    (h : mapFind m k = some v) : (k, v) ∈ m := by
  induction m with
  | nil => cases h
  | cons p t ih =>
    obtain ⟨k', v'⟩ := p
    simp only [mapFind] at h
    split at h
    · rename_i hk
      simp only [Option.some.injEq] at h
      subst hk h
      exact List.mem_cons_self _ _
    · exact List.mem_cons_of_mem _ (ih h)

theorem relaxEdge_keys_nodup (lv : Nat) (st : LevelState) (nxt : Nat)
    (h : (st.levels.map (fun p => p.1)).Nodup) :
    ((relaxEdge lv st nxt).levels.map (fun p => p.1)).Nodup := by
  unfold relaxEdge
  split
  · exact mapAdd_keys_nodup _ _ _ h
  · simp only
    split
    · exact mapAdd_keys_nodup _ _ _ h
    · exact h

theorem foldl_relaxEdge_keys_nodup (lv : Nat) (ns : List Nat) (st : LevelState)
    (h : (st.levels.map (fun p => p.1)).Nodup) :
    ((ns.foldl (relaxEdge lv) st).levels.map (fun p => p.1)).Nodup := by
  induction ns generalizing st with
  | nil => exact h
  | cons a t ih => exact ih _ (relaxEdge_keys_nodup lv st a h)

theorem levelLoop_keys_nodup (out : List (Nat × List Nat)) (fuel : Nat) (st : LevelState)
    (h : (st.levels.map (fun p => p.1)).Nodup) :
    ((levelLoop out fuel st).levels.map (fun p => p.1)).Nodup := by
  induction fuel generalizing st with
  | zero => exact h
  | succ n ih =>
    unfold levelLoop
    split
    · exact h
    · apply ih
      rw [processNode_eq]
      exact foldl_relaxEdge_keys_nodup _ _ _ h

theorem assignLevels_keys_nodup (g : Graph) (init : Nat) :
    ((assignLevels g init).levels.map (fun p => p.1)).Nodup := by
  unfold assignLevels
  apply levelLoop_keys_nodup
  simp

theorem levelMembers_append (l₁ l₂ : List (Nat × Nat)) (L : Nat) :
    levelMembers (l₁ ++ l₂) L = levelMembers l₁ L ++ levelMembers l₂ L := by
  simp [levelMembers]

theorem groupByLevel_spec (levels : List (Nat × Nat)) :
    ((groupByLevel levels).map (fun p => p.1)).Nodup ∧
    ∀ L, succs (groupByLevel levels) L = levelMembers levels L := by
  unfold groupByLevel
  induction levels using List.reverseRecOn with
  | nil => exact ⟨by simp, fun L => by simp [succs, mapFind, levelMembers]⟩
  | append_singleton pre p ih =>
    obtain ⟨ih1, ih2⟩ := ih
    rw [List.foldl_append]
    simp only [List.foldl_cons, List.foldl_nil]
    refine ⟨mapAdd_keys_nodup _ _ _ ih1, ?_⟩
    intro L
    rw [levelMembers_append, ← ih2 L]
    unfold succs
    by_cases h : L = p.2
    · subst h
      rw [mapFind_mapAdd_self]
      simp [levelMembers]
    · rw [mapFind_mapAdd_ne _ _ _ _ h]
      have : ¬ p.2 = L := fun e => h e.symm
      simp [levelMembers, this]

theorem groupByLevel_nonempty (levels : List (Nat × Nat)) :
    ∀ grp ∈ groupByLevel levels, grp.2 ≠ [] := by
  unfold groupByLevel
  induction levels using List.reverseRecOn with
  | nil => intro grp h; cases h
  | append_singleton pre p ih =>
    rw [List.foldl_append]
    simp only [List.foldl_cons, List.foldl_nil]
    generalize List.foldl _ _ pre = m at ih ⊢
    generalize hv : (mapFind m p.2).getD [] ++ [p.1] = v
    have hvne : v ≠ [] := by rw [← hv]; simp
    clear hv
    induction m with
    | nil =>
      intro grp h
      simp only [mapAdd, List.mem_singleton] at h
      subst h
      exact hvne
    | cons q t iht =>
      obtain ⟨k', v'⟩ := q
      intro grp h
      simp only [mapAdd] at h
      split at h
      · rcases List.mem_cons.1 h with e | h'
        · subst e; exact hvne
        · exact ih grp (List.mem_cons_of_mem _ h')
      · rcases List.mem_cons.1 h with e | h'
        · subst e; exact ih _ (List.mem_cons_self _ _)
        · exact iht (fun g' hg' => ih g' (List.mem_cons_of_mem _ hg')) grp h'

theorem mem_levelMembers {levels : List (Nat × Nat)} {L s : Nat} :
    s ∈ levelMembers levels L ↔ (s, L) ∈ levels := by
  unfold levelMembers
  simp only [List.mem_map, List.mem_filter, decide_eq_true_eq]
  constructor
  · rintro ⟨p, ⟨hp, rfl⟩, rfl⟩
    exact hp
  · intro h
    exact ⟨(s, L), ⟨h, rfl⟩, rfl⟩

theorem levelMembers_nodup {levels : List (Nat × Nat)} (L : Nat)
    (h : (levels.map (fun p => p.1)).Nodup) : (levelMembers levels L).Nodup := by
  unfold levelMembers
  exact List.Nodup.sublist (List.Sublist.map _ (List.filter_sublist _)) h

theorem group_eq_levelMembers {levels : List (Nat × Nat)} {grp : Nat × List Nat}
    (h : grp ∈ groupByLevel levels) : grp.2 = levelMembers levels grp.1 := by
  obtain ⟨hnd, hs⟩ := groupByLevel_spec levels
  have := mapFind_eq_some_of_mem hnd (show (grp.1, grp.2) ∈ groupByLevel levels from h)
  rw [← hs grp.1]
  simp [succs, this]

theorem levelMembers_group {levels : List (Nat × Nat)} {L : Nat}
    (h : levelMembers levels L ≠ []) : (L, levelMembers levels L) ∈ groupByLevel levels := by
  obtain ⟨_, hs⟩ := groupByLevel_spec levels
  have hL := hs L
  unfold succs at hL
  cases hf : mapFind (groupByLevel levels) L with
  | none =>
    rw [hf] at hL
    exact absurd hL.symm h
  | some ns =>
    rw [hf] at hL
    simp only [Option.getD_some] at hL
    rw [← hL]
    exact mem_of_mapFind_eq_some hf

/-! ## Final positions of the levelled states -/

theorem nodesPlan_map_fst (x startY : Int) (j : Nat) (l : List Nat) :
    (nodesPlan x startY j l).map (fun p => p.1) = l := by
  induction l generalizing j with
  | nil => rfl
  | cons a t ih => simp [nodesPlan, ih]

theorem nodesPlan_get (x startY : Int) (j : Nat) (l : List Nat) (i : Nat) :
    (nodesPlan x startY j l)[i]? =
      (l[i]?).map (fun s => (s, x, startY + ((j + i : Nat) : Int) * 200)) := by
  induction l generalizing j i with
  | nil => simp [nodesPlan]
  | cons a t ih =>
    cases i with
    | zero => simp [nodesPlan]
    | succ i =>
      simp only [nodesPlan, List.getElem?_cons_succ, ih]
      have : j + 1 + i = j + (i + 1) := by omega
      rw [this]

theorem sortByName_perm (g : Graph) (l : List Nat) : (sortByName g l).Perm l :=
  List.perm_insertionSort _ l

theorem mem_sortByName {g : Graph} {l : List Nat} {s : Nat} : s ∈ sortByName g l ↔ s ∈ l :=
  (sortByName_perm g l).mem_iff

theorem statePlan_map_fst (g : Graph) (levels : List (Nat × Nat)) :
    (statePlan g levels).map (fun p => p.1) =
      (groupByLevel levels).flatMap (fun grp => sortByName g grp.2) := by
  unfold statePlan levelPlan
  rw [List.map_flatMap]
  congr 1
  funext grp
  exact nodesPlan_map_fst _ _ _ _

theorem statePlan_nodup (g : Graph) {levels : List (Nat × Nat)}
    (h : (levels.map (fun p => p.1)).Nodup) :
    ((statePlan g levels).map (fun p => p.1)).Nodup := by
  rw [statePlan_map_fst, List.nodup_flatMap]
  obtain ⟨hnd, _⟩ := groupByLevel_spec levels
  constructor
  · intro grp hgrp
    rw [(sortByName_perm g grp.2).nodup_iff, group_eq_levelMembers hgrp]
    exact levelMembers_nodup _ h
  · have hp : List.Pairwise (fun a b : Nat × List Nat => a.1 ≠ b.1) (groupByLevel levels) := by
      rw [List.Nodup, List.pairwise_map] at hnd
      exact hnd
    refine List.Pairwise.imp_of_mem ?_ hp
    intro a b ha hb hab
    show List.Disjoint (sortByName g a.2) (sortByName g b.2)
    intro s hsa hsb
    rw [mem_sortByName, group_eq_levelMembers ha, mem_levelMembers] at hsa
    rw [mem_sortByName, group_eq_levelMembers hb, mem_levelMembers] at hsb
    have h1 := mapFind_eq_some_of_mem h hsa
    have h2 := mapFind_eq_some_of_mem h hsb
    rw [h1] at h2
    simp only [Option.some.injEq] at h2
    exact hab h2

theorem lastPos_of_mem {P : List (Nat × Int × Int)} {s : Nat} {q : Int × Int}
    (hnd : (P.map (fun p => p.1)).Nodup) (h : (s, q) ∈ P) : lastPos P s = some q := by
  induction P with
  | nil => cases h
  | cons p t ih =>
    simp only [List.map_cons, List.nodup_cons] at hnd
    rcases List.mem_cons.1 h with e | h'
    · subst e
      have : lastPos t s = none := by
        apply lastPos_eq_none
        intro r hr hrs
        exact hnd.1 (List.mem_map.2 ⟨r, hr, hrs⟩)
      simp [lastPos, this]
    · simp [lastPos, ih hnd.2 h']

theorem findInitialState_state {g : Graph} {init : Nat} (h : findInitialState g = some init) :
    castState g init = some init := by
  unfold findInitialState at h
  split at h
  · cases h
  · split at h
    · cases h
    · split at h
      · cases h
      · split at h
        · cases h
        · have e := (castState_eq_some h).1
          rw [← e] at h
          exact h

theorem Edge.endpoints_state {g : Graph} {u v : Nat} (h : Edge g u v) :
    castState g u = some u ∧ castState g v = some v := by
  obtain ⟨n, _, hn⟩ := h
  exact (transitionEndpoints_some hn).2

theorem Walk.target_state {g : Graph} {init v n : Nat} (hi : castState g init = some init)
    (w : Walk (Edge g) init v n) : castState g v = some v := by
  cases w with
  | refl => exact hi
  | step _ e => exact e.endpoints_state.2

theorem levelled_state {g : Graph} {init s l : Nat} (hi : findInitialState g = some init)
    (h : mapFind (assignLevels g init).levels s = some l) : castState g s = some s :=
  ((assignLevels_spec g init s).2 l h).1.target_state (findInitialState_state hi)

theorem AutoLayout_state_get {g : Graph} {init s : Nat} (hi : findInitialState g = some init)
    (hs : castState g s = some s) :
    (AutoLayoutStateMachineGraph g).Nodes[s]? =
      (g.Nodes[s]?).map
        (overridePos (lastPos (statePlan g (assignLevels g init).levels) s)) := by
  rw [AutoLayout_eq_of_initial hi, applyPlan_get, applyPlan_get]
  have hs' : castState (applyPlan (statePlan g (assignLevels g init).levels) g) s = some s := by
    rw [castState_congr (topo_applyPlan _ g)]
    exact hs
  rw [lastPos_transitionPlan_state hs', Option.map_map]
  congr 1

theorem levelPlan_mem (g : Graph) (levels : List (Nat × Nat)) (L i s : Nat)
    (h : (sortByName g (levelMembers levels L))[i]? = some s) :
    (s, ((L : Int) * 400,
      -((((sortByName g (levelMembers levels L)).length : Int) - 1) * 200) / 2 + (i : Int) * 200))
      ∈ statePlan g levels := by
  have hmem : s ∈ levelMembers levels L :=
    mem_sortByName.1 (List.mem_iff_getElem?.2 ⟨i, h⟩)
  have hne : levelMembers levels L ≠ [] := List.ne_nil_of_mem hmem
  unfold statePlan
  rw [List.mem_flatMap]
  refine ⟨(L, levelMembers levels L), levelMembers_group hne, ?_⟩
  rw [List.mem_iff_getElem?]
  refine ⟨i, ?_⟩
  unfold levelPlan
  rw [nodesPlan_get]
  simp [h]

/-- Position of the state at rank `i` of level `L` after the layout. -/
theorem state_position {g : Graph} {init : Nat} (hi : findInitialState g = some init)
    {L i s : Nat}
    (h : (sortByName g (levelMembers (assignLevels g init).levels L))[i]? = some s) :
    posX (AutoLayoutStateMachineGraph g) s = (L : Int) * 400 ∧
    posY (AutoLayoutStateMachineGraph g) s =
      -((((sortByName g (levelMembers (assignLevels g init).levels L)).length : Int) - 1) * 200)
        / 2 + (i : Int) * 200 := by
  have hmem : (s, L) ∈ (assignLevels g init).levels :=
    mem_levelMembers.1 (mem_sortByName.1 (List.mem_iff_getElem?.2 ⟨i, h⟩))
  have hnd := assignLevels_keys_nodup g init
  have hlev := mapFind_eq_some_of_mem hnd hmem
  have hs := levelled_state hi hlev
  obtain ⟨_, n, hn, _⟩ := castState_eq_some hs
  have hlast := lastPos_of_mem (statePlan_nodup g hnd) (levelPlan_mem g _ L i s h)
  have hget := AutoLayout_state_get hi hs
  rw [hlast, hn] at hget
  simp [posX, posY, hget, overridePos]

/-! ## Final positions of the transition nodes -/

theorem lastPos_filterMap (f : Nat → Option (Nat × Int × Int))
    (hf : ∀ i p, f i = some p → p.1 = i) (l : List Nat) (hnd : l.Nodup) (i : Nat)
    (hi : i ∈ l) : lastPos (l.filterMap f) i = (f i).map (fun p => p.2) := by
  induction l with
  | nil => cases hi
  | cons a t ih =>
    rw [List.nodup_cons] at hnd
    have hnone : ∀ j, j ∉ t → lastPos (t.filterMap f) j = none := by
      intro j hj
      apply lastPos_eq_none
      intro p hp
      rw [List.mem_filterMap] at hp
      obtain ⟨k, hk, hkp⟩ := hp
      rw [hf k p hkp]
      rintro rfl
      exact hj hk
    rcases List.mem_cons.1 hi with e | hi'
    · subst e
      cases hfa : f i with
      | none => simp [List.filterMap_cons, hfa, hnone i hnd.1]
      | some p => simp [List.filterMap_cons, hfa, lastPos, hnone i hnd.1, hf i p hfa]
    · have hne : a ≠ i := by
        rintro rfl
        exact hnd.1 hi'
      have ih' := ih hnd.2 hi'
      cases hfa : f a with
      | none => simp [List.filterMap_cons, hfa, ih']
      | some p =>
        have hp : ¬ p.1 = i := by rw [hf a p hfa]; exact hne
        simp only [List.filterMap_cons, hfa, lastPos, ih', hp, if_false]
        cases f i <;> rfl

theorem lastPos_transitionPlan (h : Graph) (i : Nat) (hi : i < h.Nodes.length) :
    lastPos (transitionPlan h) i = (transitionPos h i).map (fun p => p.2) := by
  unfold transitionPlan
  exact lastPos_filterMap _ (fun j p hp => (transitionPos_fst hp).1) _ (List.nodup_range _) i
    (List.mem_range.2 hi)

theorem posX_applyPlan_state {h : Graph} {s : Nat} (hs : castState h s = some s) :
    posX (applyPlan (transitionPlan h) h) s = posX h s ∧
    posY (applyPlan (transitionPlan h) h) s = posY h s := by
  unfold posX posY
  rw [applyPlan_get, lastPos_transitionPlan_state hs]
  cases h.Nodes[s]? <;> exact ⟨rfl, rfl⟩

/-- Every linked transition node ends at the truncated midpoint of its two states. -/
theorem transition_position {g : Graph} {init : Nat} (hi : findInitialState g = some init)
    {i : Nat} {n : Node} {F T : Nat} (hn : g.Nodes[i]? = some n)
    (hend : transitionEndpoints g n = some (F, T)) :
    posX (AutoLayoutStateMachineGraph g) i =
      midpoint (posX (AutoLayoutStateMachineGraph g) F) (posX (AutoLayoutStateMachineGraph g) T) ∧
    posY (AutoLayoutStateMachineGraph g) i =
      midpoint (posY (AutoLayoutStateMachineGraph g) F)
        (posY (AutoLayoutStateMachineGraph g) T) := by
  rw [AutoLayout_eq_of_initial hi]
  generalize hh : applyPlan (statePlan g (assignLevels g init).levels) g = h
  have ht : topo h = topo g := by rw [← hh, topo_applyPlan]
  obtain ⟨_, hF, hT⟩ := transitionEndpoints_some hend
  rw [← castState_congr ht] at hF hT
  rw [(posX_applyPlan_state hF).1, (posX_applyPlan_state hT).1, (posX_applyPlan_state hF).2,
    (posX_applyPlan_state hT).2]
  have hlt : i < h.Nodes.length := by
    rw [topo_length ht]
    by_contra hlt
    rw [List.getElem?_eq_none (by omega)] at hn
    cases hn
  have hi' := topo_get_eq ht i
  rw [hn] at hi'
  cases hm : h.Nodes[i]? with
  | none => rw [hm] at hi'; cases hi'
  | some m =>
    rw [hm] at hi'
    simp only [Option.map_some', Option.some.injEq] at hi'
    have hte : transitionEndpoints h m = some (F, T) := by
      rw [transitionEndpoints_congr ht hi', hend]
    have hpos : transitionPos h i = some (i, midpoint (posX h F) (posX h T),
        midpoint (posY h F) (posY h T)) := by
      unfold transitionPos
      simp only [hm, hte]
    unfold posX posY
    rw [applyPlan_get, lastPos_transitionPlan h i hlt, hpos, hm]
    exact ⟨rfl, rfl⟩

theorem midpoint_exact {a b : Int} (ha : a % 2 = 0) (hb : b % 2 = 0) :
    midpoint a b = (a + b) / 2 ∧ 2 * midpoint a b = a + b := by
  unfold midpoint
  obtain ⟨m, hm⟩ : ∃ m, a + b = 2 * m := ⟨(a + b) / 2, by omega⟩
  rw [hm, Int.mul_tdiv_cancel_left _ (by norm_num)]
  omega

theorem reachable_rank {g : Graph} {init s : Nat} (h : Reachable g init s) :
    ∃ L i : Nat, (sortByName g (levelMembers (assignLevels g init).levels L))[i]? = some s := by
  obtain ⟨l, hl⟩ := (assignLevels_spec g init s).1.2 h
  have := (mem_sortByName (g := g)).2 (mem_levelMembers.2 (mem_of_mapFind_eq_some hl))
  obtain ⟨i, hi⟩ := List.mem_iff_getElem?.1 this
  exact ⟨l, i, hi⟩

theorem reachable_even {g : Graph} {init s : Nat} (hi : findInitialState g = some init)
    (h : Reachable g init s) :
    posX (AutoLayoutStateMachineGraph g) s % 2 = 0 ∧
    posY (AutoLayoutStateMachineGraph g) s % 2 = 0 := by
  obtain ⟨L, i, hr⟩ := reachable_rank h
  obtain ⟨hx, hy⟩ := state_position hi hr
  constructor <;> omega

/-! ## Claims about `AutoLayoutStateMachineGraph` -/

/-- C1: for every graph whose entry node is linked to an initial state, the work-queue loop
ends (empty queue, and a larger iteration budget gives the same state); the level map then
contains a state iff it is reachable from the initial state along directed transition edges,
the initial state has level 0, and every level is the length of a walk from the initial
state and at most the length of every such walk (the shortest hop count). -/
theorem C1_levels_are_shortest_hop_counts (g : Graph) (init : Nat)
    (hinit : findInitialState g = some init) :
    (assignLevels g init).queue = [] ∧
    (∀ k, levelLoop (buildOutgoing g) (g.Nodes.length + 1 + k)
        { levels := [(init, 0)], queue := [init] } = assignLevels g init) ∧
    mapFind (assignLevels g init).levels init = some 0 ∧
    (∀ v, (∃ l, mapFind (assignLevels g init).levels v = some l) ↔ Reachable g init v) ∧
    (∀ v l, mapFind (assignLevels g init).levels v = some l →
      Walk (Edge g) init v l ∧ ∀ n, Walk (Edge g) init v n → l ≤ n) := by
  have _ := hinit
  obtain ⟨inv, hq⟩ := assignLevels_inv g init
  exact ⟨hq, fun k => levelLoop_stable _ _ k _ hq, inv.init0,
    fun v => (assignLevels_spec g init v).1, fun v => (assignLevels_spec g init v).2⟩

/-- Witness of C1 on `exampleGraph`, whose entry node is linked to state 1: state 3 is
reached by the walks 1 → 2 → 3 and 1 → 3 and has level 1. -/
theorem C1_levels_are_shortest_hop_counts_witness :
    findInitialState exampleGraph = some 1 ∧
    mapFind (assignLevels exampleGraph 1).levels 3 = some 1 ∧
    (Walk (Edge exampleGraph) 1 3 1 ∧ ∀ n, Walk (Edge exampleGraph) 1 3 n → 1 ≤ n) :=
  ⟨by decide, by decide,
    (C1_levels_are_shortest_hop_counts exampleGraph 1 (by decide)).2.2.2.2 3 1 (by decide)⟩

/-- C2: after level assignment the initial state has level 0 and, for every edge `u → v`
recorded in the adjacency map whose source `u` has a level, `v` has a level and
`level v ≤ level u + 1`. -/
theorem C2_level_edge_invariant (g : Graph) (init : Nat)
    (hinit : findInitialState g = some init) :
    mapFind (assignLevels g init).levels init = some 0 ∧
    ∀ u v lu, v ∈ succs (buildOutgoing g) u →
      mapFind (assignLevels g init).levels u = some lu →
      ∃ lv, mapFind (assignLevels g init).levels v = some lv ∧ lv ≤ lu + 1 := by
  have _ := hinit
  obtain ⟨inv, hq⟩ := assignLevels_inv g init
  refine ⟨inv.init0, ?_⟩
  intro u v lu hv hu
  exact inv.closed u lu hu (by rw [hq]; exact List.not_mem_nil _) v hv

/-- Witness of C2 on `exampleGraph`: the recorded edge 2 → 3, with level 1 at its source. -/
theorem C2_level_edge_invariant_witness :
    findInitialState exampleGraph = some 1 ∧
    3 ∈ succs (buildOutgoing exampleGraph) 2 ∧
    ∃ lv, mapFind (assignLevels exampleGraph 1).levels 3 = some lv ∧ lv ≤ 1 + 1 :=
  ⟨by decide, by decide,
    (C2_level_edge_invariant exampleGraph 1 (by decide)).2 2 3 1 (by decide) (by decide)⟩

/-- C3: layout is idempotent: for every graph, a second run of the layout returns the graph
of the first run, so every node (state or transition) keeps exactly the position the first
run gave it. -/
theorem C3_layout_idempotent (g : Graph) :
    AutoLayoutStateMachineGraph (AutoLayoutStateMachineGraph g) =
      AutoLayoutStateMachineGraph g ∧
    ∀ id,
      posX (AutoLayoutStateMachineGraph (AutoLayoutStateMachineGraph g)) id =
        posX (AutoLayoutStateMachineGraph g) id ∧
      posY (AutoLayoutStateMachineGraph (AutoLayoutStateMachineGraph g)) id =
        posY (AutoLayoutStateMachineGraph g) id := by
  have h := AutoLayout_idempotent g
  refine ⟨h, fun id => ?_⟩
  rw [h]
  exact ⟨rfl, rfl⟩

/-- C9: after the layout, the states of level `L` are exactly the members of the level's
sorted order; the state `s` at 0-based rank `i` of the `k` states of level `L` has
`x = L * 400` and `y = -((k - 1) * 200) / 2 + i * 200`, and the `y` values of ranks `i` and
`k - 1 - i` add up to 0. -/
theorem C9_state_positioning_formula (g : Graph) (init : Nat)
    (hinit : findInitialState g = some init) (L i s : Nat)
    (hrank : (sortByName g (levelMembers (assignLevels g init).levels L))[i]? = some s) :
    (∀ v, v ∈ sortByName g (levelMembers (assignLevels g init).levels L) ↔
      mapFind (assignLevels g init).levels v = some L) ∧
    posX (AutoLayoutStateMachineGraph g) s = (L : Int) * 400 ∧
    posY (AutoLayoutStateMachineGraph g) s =
      -((((sortByName g (levelMembers (assignLevels g init).levels L)).length : Int) - 1)
        * 200) / 2 + (i : Int) * 200 ∧
    ∀ s', (sortByName g (levelMembers (assignLevels g init).levels L))[
        (sortByName g (levelMembers (assignLevels g init).levels L)).length - 1 - i]? = some s' →
      posY (AutoLayoutStateMachineGraph g) s + posY (AutoLayoutStateMachineGraph g) s' = 0 := by
  obtain ⟨hx, hy⟩ := state_position hinit hrank
  refine ⟨?_, hx, hy, ?_⟩
  · intro v
    rw [mem_sortByName, mem_levelMembers]
    exact ⟨mapFind_eq_some_of_mem (assignLevels_keys_nodup g init), mem_of_mapFind_eq_some⟩
  · intro s' hs'
    obtain ⟨_, hy'⟩ := state_position hinit hs'
    have hlt : i < (sortByName g (levelMembers (assignLevels g init).levels L)).length := by
      by_contra hlt
      rw [List.getElem?_eq_none (by omega)] at hrank
      cases hrank
    rw [hy, hy']
    generalize (sortByName g (levelMembers (assignLevels g init).levels L)).length = k at hlt ⊢
    omega

/-- Witness of C9 on `exampleGraph`: level 1 holds the states 3 ("B") and 2 ("c"); rank 1
is state 2. -/
theorem C9_state_positioning_formula_witness :
    findInitialState exampleGraph = some 1 ∧
    (sortByName exampleGraph (levelMembers (assignLevels exampleGraph 1).levels 1))[1]? = some 2 ∧
    posX (AutoLayoutStateMachineGraph exampleGraph) 2 = 400 ∧
    posY (AutoLayoutStateMachineGraph exampleGraph) 2 = 100 :=
  ⟨by decide, by decide,
    (C9_state_positioning_formula exampleGraph 1 (by decide) 1 1 2 (by decide)).2.1,
    by decide⟩

/-- C10: after the layout, a transition node whose input is linked from a state `F` and
whose output is linked to a state `T`, both reachable from the initial state, sits at the
arithmetic midpoint of the final positions of `F` and `T`; the midpoint is exact. -/
theorem C10_transition_midpoint (g : Graph) (init : Nat)
    (hinit : findInitialState g = some init) (i : Nat) (n : Node) (F T : Nat)
    (hn : g.Nodes[i]? = some n) (hend : transitionEndpoints g n = some (F, T))
    (hF : Reachable g init F) (hT : Reachable g init T) :
    posX (AutoLayoutStateMachineGraph g) i =
      (posX (AutoLayoutStateMachineGraph g) F + posX (AutoLayoutStateMachineGraph g) T) / 2 ∧
    posY (AutoLayoutStateMachineGraph g) i =
      (posY (AutoLayoutStateMachineGraph g) F + posY (AutoLayoutStateMachineGraph g) T) / 2 ∧
    2 * posX (AutoLayoutStateMachineGraph g) i =
      posX (AutoLayoutStateMachineGraph g) F + posX (AutoLayoutStateMachineGraph g) T ∧
    2 * posY (AutoLayoutStateMachineGraph g) i =
      posY (AutoLayoutStateMachineGraph g) F + posY (AutoLayoutStateMachineGraph g) T := by
  obtain ⟨hx, hy⟩ := transition_position hinit hn hend
  obtain ⟨hFx, hFy⟩ := reachable_even hinit hF
  obtain ⟨hTx, hTy⟩ := reachable_even hinit hT
  rw [hx, hy]
  exact ⟨(midpoint_exact hFx hTx).1, (midpoint_exact hFy hTy).1, (midpoint_exact hFx hTx).2,
    (midpoint_exact hFy hTy).2⟩

/-- Witness of C10 on `exampleGraph`: node 5 is the transition from state 1 to state 2. -/
theorem C10_transition_midpoint_witness :
    findInitialState exampleGraph = some 1 ∧
    Reachable exampleGraph 1 1 ∧ Reachable exampleGraph 1 2 ∧
    2 * posX (AutoLayoutStateMachineGraph exampleGraph) 5 =
      posX (AutoLayoutStateMachineGraph exampleGraph) 1 +
        posX (AutoLayoutStateMachineGraph exampleGraph) 2 :=
  ⟨by decide, ⟨0, Walk.refl⟩,
    ⟨1, Walk.step Walk.refl ⟨_, List.getElem?_mem (show exampleGraph.Nodes[5]? = some _ from rfl), by decide⟩⟩,
    (C10_transition_midpoint exampleGraph 1 (by decide) 5 _ 1 2
      (show exampleGraph.Nodes[5]? = some _ from rfl) (by decide) ⟨0, Walk.refl⟩
      ⟨1, Walk.step Walk.refl
        ⟨_, List.getElem?_mem (show exampleGraph.Nodes[5]? = some _ from rfl),
          by decide⟩⟩).2.2.1⟩

/-! ## State creation -/

theorem createStates_eq (E : Engine) (states : List StateJson) (g : Graph)
    (c : List FUObjectExport) :
    createStates E states g c =
      ({ g with Nodes := g.Nodes ++ stateNodes E g.Nodes.length states },
        c ++ stateExports g.Nodes.length states) := by
  induction states generalizing g c with
  | nil => simp [createStates, stateNodes, stateExports]
  | cons s rest ih =>
    simp only [createStates, createState, ih, stateNodes, stateExports, List.length_append,
      List.length_singleton, List.append_assoc, List.singleton_append]
    rfl

theorem stateNodes_get (E : Engine) (base : Nat) (l : List StateJson) (i : Nat) :
    (stateNodes E base l)[i]? = (l[i]?).map (stateNode E (base + i)) := by
  induction l generalizing base i with
  | nil => simp [stateNodes]
  | cons a t ih =>
    cases i with
    | zero => simp [stateNodes]
    | succ i =>
      simp only [stateNodes, List.getElem?_cons_succ, ih]
      have : base + 1 + i = base + (i + 1) := by omega
      rw [this]

theorem stateExports_get (base : Nat) (l : List StateJson) (i : Nat) :
    (stateExports base l)[i]? = (l[i]?).map (stateExport (base + i)) := by
  induction l generalizing base i with
  | nil => simp [stateExports]
  | cons a t ih =>
    cases i with
    | zero => simp [stateExports]
    | succ i =>
      simp only [stateExports, List.getElem?_cons_succ, ih]
      have : base + 1 + i = base + (i + 1) := by omega
      rw [this]

theorem stateNodes_length (E : Engine) (base : Nat) (l : List StateJson) :
    (stateNodes E base l).length = l.length := by
  induction l generalizing base with
  | nil => rfl
  | cons a t ih => simp [stateNodes, ih]

theorem stateExports_length (base : Nat) (l : List StateJson) :
    (stateExports base l).length = l.length := by
  induction l generalizing base with
  | nil => rfl
  | cons a t ih => simp [stateExports, ih]

/-- C6: state creation is positional and complete: after the state creation loop on a
"States" list of length `N` the container holds exactly `N` entries; the entry at every
index `i < N` carries the name and the source record of `States[i]` and points to the node
spawned for it, a state node named after `States[i]`. -/
theorem C6_state_creation_positional (E : Engine) (g0 : Graph) (states : List StateJson) :
    (createStates E states g0 []).2.length = states.length ∧
    (createStates E states g0 []).1.Nodes.length = g0.Nodes.length + states.length ∧
    (∀ i, i < states.length → ∃ e, (createStates E states g0 []).2[i]? = some e) ∧
    ∀ i s, states[i]? = some s →
      (createStates E states g0 []).2[i]? =
        some { Name := s.StateName, JsonObject := s, Object := some (g0.Nodes.length + i) } ∧
      ∃ n, (createStates E states g0 []).1.Nodes[g0.Nodes.length + i]? = some n ∧
        n.cls = NodeClass.state ∧ n.name = s.StateName := by
  rw [createStates_eq]
  simp only [List.nil_append, List.length_append, stateNodes_length, stateExports_length,
    true_and]
  refine ⟨?_, ?_⟩
  · intro i hi
    rw [stateExports_get, List.getElem?_eq_getElem hi]
    exact ⟨_, rfl⟩
  · intro i s hs
    constructor
    · rw [stateExports_get, hs]
      rfl
    · refine ⟨stateNode E (g0.Nodes.length + i) s, ?_, rfl, rfl⟩
      rw [List.getElem?_append_right (by omega), stateNodes_get]
      simp [hs]

/-! ## Fields that wiring and layout leave alone -/

theorem fields_modifyPin (n : Node) (i : Nat) (f : Pin → Pin) :
    fields (modifyPin n i f) = fields n := by
  unfold modifyPin
  cases n.pins[i]? <;> rfl

theorem map_fields_updateNode (g : Graph) (i : Nat) (f : Node → Node)
    (hf : ∀ n, fields (f n) = fields n) :
    (updateNode g i f).Nodes.map fields = g.Nodes.map fields := by
  apply List.ext_getElem?
  intro j
  rw [List.getElem?_map, List.getElem?_map, updateNode_get]
  split
  · rw [Option.map_map]
    congr 1
    funext n
    exact hf n
  · rfl

theorem map_fields_makeLinkTo (g : Graph) (a b : PinRef) :
    (makeLinkTo g a b).Nodes.map fields = g.Nodes.map fields := by
  unfold makeLinkTo
  split
  · rfl
  · split
    · rfl
    · rw [map_fields_updateNode _ _ _ (fun n => fields_modifyPin n _ _),
        map_fields_updateNode _ _ _ (fun n => fields_modifyPin n _ _)]

theorem map_fields_breakFold (a : PinRef) (l : List PinRef) (g : Graph) :
    (l.foldl (fun acc b =>
        updateNode acc b.node
          (fun n => modifyPin n b.pin
            (fun p => { p with linkedTo := p.linkedTo.filter (fun r => r ≠ a) }))) g).Nodes.map
      fields = g.Nodes.map fields := by
  induction l generalizing g with
  | nil => rfl
  | cons b t ih =>
    simp only [List.foldl_cons]
    rw [ih, map_fields_updateNode _ _ _ (fun n => fields_modifyPin n _ _)]

theorem map_fields_breakAllPinLinks (g : Graph) (a : PinRef) :
    (breakAllPinLinks g a).Nodes.map fields = g.Nodes.map fields := by
  unfold breakAllPinLinks
  split
  · rfl
  · rw [map_fields_updateNode _ _ _ (fun n => fields_modifyPin n _ _), map_fields_breakFold]

theorem map_fields_tryCreateConnection (g : Graph) (a b : PinRef) :
    (tryCreateConnection g a b).Nodes.map fields = g.Nodes.map fields := by
  unfold tryCreateConnection
  split
  · rfl
  · rw [map_fields_makeLinkTo, map_fields_breakAllPinLinks]

theorem map_fields_allocateDefaultPins (E : Engine) (g : Graph) (id : Nat) :
    (allocateDefaultPins E g id).Nodes.map fields = g.Nodes.map fields :=
  map_fields_updateNode _ _ _ (fun _ => rfl)

theorem map_fields_wireTransition (g : Graph) (a b c : Nat) :
    (wireTransition g a b c).Nodes.map fields = g.Nodes.map fields := by
  unfold wireTransition
  simp only
  split
  · split
    · rw [map_fields_makeLinkTo, map_fields_makeLinkTo]
    · rw [map_fields_makeLinkTo]
  · split
    · rw [map_fields_makeLinkTo]
    · rfl

theorem map_fields_wireEntry {E : Engine} {json : StateMachineJson}
    {c : List FUObjectExport} {g g' : Graph} (h : wireEntry E json c g = some g') :
    g'.Nodes.map fields = g.Nodes.map fields := by
  unfold wireEntry at h
  split at h
  · cases h
  · split at h
    · cases h
    · split at h
      · cases h
      · simp only at h
        split at h
        · split at h
          · simp only [Option.some.injEq] at h
            rw [← h, map_fields_tryCreateConnection, map_fields_allocateDefaultPins]
          · simp only [Option.some.injEq] at h
            rw [← h, map_fields_allocateDefaultPins]
        · simp only [Option.some.injEq] at h
          rw [← h, map_fields_allocateDefaultPins]

theorem fields_strip (n : Node) : fields (strip n) = fields n := rfl

theorem map_fields_of_topo {g h : Graph} (e : topo g = topo h) :
    g.Nodes.map fields = h.Nodes.map fields := by
  have := congrArg (fun k => k.Nodes.map fields) e
  simpa [topo, List.map_map, Function.comp, fields_strip] using this

theorem topo_AutoLayout (g : Graph) : topo (AutoLayoutStateMachineGraph g) = topo g := by
  cases hi : findInitialState g with
  | none => rw [AutoLayout_eq_of_no_initial hi]
  | some init => rw [AutoLayout_eq_of_initial hi, topo_applyPlan, topo_applyPlan]

theorem map_fields_AutoLayout (g : Graph) :
    (AutoLayoutStateMachineGraph g).Nodes.map fields = g.Nodes.map fields :=
  map_fields_of_topo (topo_AutoLayout g)

/-! ## The transition loop -/

theorem castState_of_fields {g : Graph} {i : Nat} {nd : Node}
    (h : (g.Nodes[i]?).map fields = some (fields nd)) (hc : nd.cls = NodeClass.state) :
    castState g i = some i := by
  cases hn : g.Nodes[i]? with
  | none => rw [hn] at h; cases h
  | some n =>
    rw [hn] at h
    simp only [Option.map_some', Option.some.injEq] at h
    have : (fields n).cls = (fields nd).cls := congrArg Node.cls h
    exact castState_of_state hn (this.trans hc)

theorem arrayGet_eq_some {α : Type} {l : List α} {i : Int} {a : α}
    (h : arrayGet l i = some a) : 0 ≤ i ∧ l[i.toNat]? = some a := by
  unfold arrayGet at h
  split at h
  · rename_i h0
    exact ⟨h0, h⟩
  · cases h

theorem arrayGet_stateExports (n0 : Nat) (states : List StateJson) (i : Int) :
    arrayGet (stateExports n0 states) i =
      (arrayGet states i).map (stateExport (n0 + i.toNat)) := by
  unfold arrayGet
  split
  · rw [stateExports_get]
  · rfl

theorem updateNode_append_last (g : Graph) (n : Node) (f : Node → Node) :
    updateNode { g with Nodes := g.Nodes ++ [n] } g.Nodes.length f =
      { g with Nodes := g.Nodes ++ [f n] } := by
  unfold updateNode
  simp

theorem createTransition_eq {E : Engine} {n0 : Nat} {states : List StateJson}
    {c : List FUObjectExport} {g : Graph} (ok : ContainerOk E n0 states c g) (k : Nat)
    (t : TransitionJson) :
    createTransition c g k t = transitionStep n0 states g k t := by
  unfold createTransition transitionStep
  rw [ok.container, arrayGet_stateExports, arrayGet_stateExports]
  cases hp : arrayGet states t.PreviousState with
  | none => rfl
  | some sp =>
    cases hn : arrayGet states t.NextState with
    | none => rfl
    | some sn =>
      have h1 := castState_of_fields (ok.nodes _ sp (arrayGet_eq_some hp).2) rfl
      have h2 := castState_of_fields (ok.nodes _ sn (arrayGet_eq_some hn).2) rfl
      simp only [Option.map_some', stateExport, h1, h2]
      cases transitionStateObject sp k with
      | none => rfl
      | some m =>
        simp only [updateNode_append_last]
        rfl

theorem transitionStep_fields {n0 : Nat} {states : List StateJson} {g g' : Graph} {k : Nat}
    {t : TransitionJson} (h : transitionStep n0 states g k t = some g') :
    ∃ m, reconciled states k t = some m ∧
      g'.Nodes.map fields = g.Nodes.map fields ++ [fields (transitionNode t m)] := by
  unfold transitionStep at h
  unfold reconciled
  cases hp : arrayGet states t.PreviousState with
  | none => simp [hp] at h
  | some sp =>
    cases hn : arrayGet states t.NextState with
    | none => simp [hp, hn] at h
    | some sn =>
      simp only [hp, hn] at h
      cases hm : transitionStateObject sp k with
      | none => simp [hm] at h
      | some m =>
        simp only [hm, Option.some.injEq] at h
        refine ⟨m, hm, ?_⟩
        rw [← h, map_fields_wireTransition]
        simp

theorem ContainerOk.of_fields {E : Engine} {n0 : Nat} {states : List StateJson}
    {c : List FUObjectExport} {g g' : Graph} (ok : ContainerOk E n0 states c g)
    (h : ∀ i, i < g.Nodes.length → (g'.Nodes.map fields)[i]? = (g.Nodes.map fields)[i]?) :
    ContainerOk E n0 states c g' := by
  refine ⟨ok.container, ?_⟩
  intro i s hs
  have hn := ok.nodes i s hs
  have hlt : n0 + i < g.Nodes.length := by
    by_contra hlt
    rw [List.getElem?_eq_none (by omega)] at hn
    cases hn
  have := h (n0 + i) hlt
  rw [List.getElem?_map, List.getElem?_map] at this
  rw [this, hn]

/-- Nodes of the graph after the transition loop, as far as their fields go. -/
theorem createTransitions_fields {E : Engine} {n0 : Nat} {states : List StateJson}
    {c : List FUObjectExport} (ts : List TransitionJson) {g g' : Graph} {k : Nat}
    (ok : ContainerOk E n0 states c g) (h : createTransitions c k ts g = some g') :
    ContainerOk E n0 states c g' ∧
    g'.Nodes.length = g.Nodes.length + ts.length ∧
    (∀ i, i < g.Nodes.length → (g'.Nodes.map fields)[i]? = (g.Nodes.map fields)[i]?) ∧
    ∀ j t, ts[j]? = some t → ∃ m, reconciled states (k + j) t = some m ∧
      (g'.Nodes.map fields)[g.Nodes.length + j]? = some (fields (transitionNode t m)) := by
  induction ts generalizing g k with
  | nil =>
    simp only [createTransitions, Option.some.injEq] at h
    subst h
    exact ⟨ok, rfl, fun _ _ => rfl, fun j t hj => by simp at hj⟩
  | cons t rest ih =>
    simp only [createTransitions] at h
    cases hstep : createTransition c g k t with
    | none => simp [hstep] at h
    | some g1 =>
      simp only [hstep] at h
      rw [createTransition_eq ok] at hstep
      obtain ⟨m, hm, hf⟩ := transitionStep_fields hstep
      have hlen : g1.Nodes.length = g.Nodes.length + 1 := by
        have := congrArg List.length hf
        simpa using this
      have hpre : ∀ i, i < g.Nodes.length →
          (g1.Nodes.map fields)[i]? = (g.Nodes.map fields)[i]? := by
        intro i hi
        rw [hf, List.getElem?_append_left (by simpa using hi)]
      have ok1 := ok.of_fields hpre
      obtain ⟨ok', hlen', hpre', hnew⟩ := ih ok1 h
      refine ⟨ok', ?_, ?_, ?_⟩
      · rw [hlen', hlen, List.length_cons]; omega
      · intro i hi
        rw [hpre' i (by omega), hpre i hi]
      · intro j t' hj
        cases j with
        | zero =>
          simp only [List.getElem?_cons_zero, Option.some.injEq] at hj
          subst hj
          refine ⟨m, hm, ?_⟩
          rw [Nat.add_zero, hpre' _ (by omega), hf,
            List.getElem?_append_right (by simp)]
          simp
        | succ j =>
          simp only [List.getElem?_cons_succ] at hj
          obtain ⟨m', hm', hget⟩ := hnew j t' hj
          refine ⟨m', ?_, ?_⟩
          · have : k + (j + 1) = k + 1 + j := by omega
            rw [this]; exact hm'
          · have : g.Nodes.length + (j + 1) = g1.Nodes.length + j := by omega
            rw [this]; exact hget

theorem ContainerOk.container_start (E : Engine) (g0 : Graph) (states : List StateJson) :
    ContainerOk E g0.Nodes.length states (createStates E states g0 []).2
      (createStates E states g0 []).1 := by
  rw [createStates_eq]
  refine ⟨by simp, ?_⟩
  intro i s hs
  simp only
  rw [List.getElem?_append_right (by omega), stateNodes_get]
  simp [hs]

/-- Fields of the nodes of a completed build: the nodes of the input graph, then one state
node per "States" entry, then one transition node per "Transitions" entry, in list order. -/
theorem Create_fields {E : Engine} {g0 gF : Graph} {json : StateMachineJson}
    (h : CreateStateMachineGraph E g0 json = some gF) :
    gF.Nodes.length = g0.Nodes.length + json.States.length + json.Transitions.length ∧
    (∀ i, i < g0.Nodes.length → (gF.Nodes.map fields)[i]? = (g0.Nodes.map fields)[i]?) ∧
    (∀ i s, json.States[i]? = some s →
      (gF.Nodes.map fields)[g0.Nodes.length + i]? =
        some (fields (stateNode E (g0.Nodes.length + i) s))) ∧
    ∀ j t, json.Transitions[j]? = some t → ∃ m, reconciled json.States j t = some m ∧
      (gF.Nodes.map fields)[g0.Nodes.length + json.States.length + j]? =
        some (fields (transitionNode t m)) := by
  unfold CreateStateMachineGraph at h
  simp only at h
  cases hloop : createTransitions (createStates E json.States g0 []).2 0 json.Transitions
      (createStates E json.States g0 []).1 with
  | none => simp [hloop] at h
  | some g2 =>
    simp only [hloop] at h
    have hF : gF.Nodes.map fields = g2.Nodes.map fields := by
      cases hw : wireEntry E json (createStates E json.States g0 []).2 g2 with
      | none =>
        simp only [hw, Option.some.injEq] at h
        rw [h]
      | some g3 =>
        simp only [hw, Option.some.injEq] at h
        rw [← h, map_fields_AutoLayout, map_fields_wireEntry hw]
    obtain ⟨ok', hlen, hpre, hnew⟩ :=
      createTransitions_fields json.Transitions (ContainerOk.container_start E g0 json.States) hloop
    have hlen1 : (createStates E json.States g0 []).1.Nodes.length =
        g0.Nodes.length + json.States.length := by
      rw [createStates_eq]
      simp [stateNodes_length]
    have hlenF : gF.Nodes.length = g2.Nodes.length := by
      have := congrArg List.length hF
      simpa using this
    rw [hF]
    refine ⟨by rw [hlenF, hlen, hlen1], ?_, ?_, ?_⟩
    · intro i hi
      rw [hpre i (by omega), createStates_eq]
      simp only [List.map_append]
      rw [List.getElem?_append_left (by simpa using hi)]
    · intro i s hs
      have := ok'.nodes i s hs
      rw [List.getElem?_map]
      exact this
    · intro j t hj
      obtain ⟨m, hm, hget⟩ := hnew j t hj
      refine ⟨m, by simpa using hm, ?_⟩
      rw [← hlen1]
      exact hget

/-! ## Pins and links -/

theorem findOutputPin_eq_dirs (n : Node) :
    findOutputPin n = (dirs n).findIdx? (fun d => d = EPinDirection.EGPD_Output) := by
  unfold findOutputPin dirs
  rw [List.findIdx?_map]
  rfl

theorem findInputPin_eq_dirs (n : Node) :
    findInputPin n = (dirs n).findIdx? (fun d => d = EPinDirection.EGPD_Input) := by
  unfold findInputPin dirs
  rw [List.findIdx?_map]
  rfl

theorem dirs_modifyPin (n : Node) (i : Nat) (f : Pin → Pin)
    (hf : ∀ p, (f p).direction = p.direction) : dirs (modifyPin n i f) = dirs n := by
  unfold modifyPin dirs
  cases hp : n.pins[i]? with
  | none => rfl
  | some p =>
    simp only
    apply List.ext_getElem?
    intro j
    rw [List.getElem?_map, List.getElem?_map, List.getElem?_set]
    by_cases hij : i = j
    · subst hij
      have hlt : i < n.pins.length := by
        by_contra hlt
        rw [List.getElem?_eq_none (by omega)] at hp
        cases hp
      simp [hlt, hp, hf]
    · simp [hij]

theorem dirs_linkAppend (r : PinRef) (i : Nat) (n : Node) : dirs (linkAppend r i n) = dirs n :=
  dirs_modifyPin n i _ (fun _ => rfl)

theorem fields_linkAppend (r : PinRef) (i : Nat) (n : Node) :
    fields (linkAppend r i n) = fields n :=
  fields_modifyPin n i _

theorem LinksBelow.after_linkAppend {bound : Nat} {n : Node} (h : LinksBelow bound n) (r : PinRef)
    (i : Nat) (hr : r.node < bound) : LinksBelow bound (linkAppend r i n) := by
  unfold JsonAsAsset.linkAppend modifyPin
  cases hp : n.pins[i]? with
  | none => exact h
  | some p =>
    intro q hq x hx
    simp only at hq
    rcases List.mem_or_eq_of_mem_set hq with hq' | hq'
    · exact h q hq' x hx
    · subst hq'
      simp only [List.mem_append, List.mem_singleton] at hx
      rcases hx with hx | hx
      · exact h p (List.getElem?_mem hp) x hx
      · subst hx; exact hr

theorem LinksBelow.mono_bound {a b : Nat} {n : Node} (h : LinksBelow a n) (hab : a ≤ b) :
    LinksBelow b n :=
  fun p hp r hr => Nat.lt_of_lt_of_le (h p hp r hr) hab

/-- The `MakeLinkTo` of two pins that exist and are not linked yet. -/
theorem makeLinkTo_fresh {g : Graph} {a b : PinRef} {pa : Pin} (hpa : pinAt g a = some pa)
    (hb : b ∉ pa.linkedTo) :
    makeLinkTo g a b =
      updateNode (updateNode g a.node (linkAppend b a.pin)) b.node (linkAppend a b.pin) := by
  unfold makeLinkTo
  simp only [hpa, hb, if_false]
  rfl

theorem pinAt_of_get {g : Graph} {r : PinRef} {n : Node} (hn : g.Nodes[r.node]? = some n) :
    pinAt g r = n.pins[r.pin]? := by
  unfold pinAt
  rw [hn]

theorem findOutputPin_lt {n : Node} {o : Nat} (h : findOutputPin n = some o) :
    ∃ p, n.pins[o]? = some p := by
  unfold findOutputPin at h
  rw [List.findIdx?_eq_some_iff_getElem] at h
  obtain ⟨hlt, _⟩ := h
  exact ⟨_, List.getElem?_eq_getElem hlt⟩

theorem findOutputPin_congr {n m : Node} (h : dirs n = dirs m) :
    findOutputPin n = findOutputPin m := by
  rw [findOutputPin_eq_dirs, findOutputPin_eq_dirs, h]

theorem findInputPin_congr {n m : Node} (h : dirs n = dirs m) :
    findInputPin n = findInputPin m := by
  rw [findInputPin_eq_dirs, findInputPin_eq_dirs, h]

theorem makeLinkTo_frame (g : Graph) (a b : PinRef) (j : Nat) (ha : j ≠ a.node)
    (hb : j ≠ b.node) : (makeLinkTo g a b).Nodes[j]? = g.Nodes[j]? := by
  unfold makeLinkTo
  split
  · rfl
  · split
    · rfl
    · rw [updateNode_get, if_neg hb, updateNode_get, if_neg ha]

theorem makeLinkTo_length (g : Graph) (a b : PinRef) :
    (makeLinkTo g a b).Nodes.length = g.Nodes.length := by
  have := congrArg List.length (map_fields_makeLinkTo g a b)
  simpa using this

theorem makeLinkTo_entry (g : Graph) (a b : PinRef) :
    (makeLinkTo g a b).EntryNode = g.EntryNode := by
  unfold makeLinkTo
  split
  · rfl
  · split
    · rfl
    · rw [updateNode_entry, updateNode_entry]

/-! ## Wiring of the transition nodes -/

theorem get_lt {α : Type} {l : List α} {i : Nat} {a : α} (h : l[i]? = some a) :
    i < l.length := by
  by_contra hlt
  rw [List.getElem?_eq_none (by omega)] at h
  cases h

theorem wireTransition_get {g : Graph} {t : TransitionJson} {m : StateTransitionJson}
    {from_ to_ o i : Nat} {nf nt : Node}
    (hf : g.Nodes[from_]? = some nf) (ht : g.Nodes[to_]? = some nt)
    (hfo : findOutputPin nf = some o) (hti : findInputPin nt = some i)
    (hlinks : LinksBelow g.Nodes.length nf) (j : Nat) :
    (wireTransition { g with Nodes := g.Nodes ++ [transitionNode t m] } from_ to_
        g.Nodes.length).Nodes[j]? =
      if j = g.Nodes.length then
        some (wiredTransition t m { node := from_, pin := o } { node := to_, pin := i })
      else
        (g.Nodes[j]?).map (fun n =>
          (if j = to_ then linkAppend { node := g.Nodes.length, pin := 1 } i else id)
            ((if j = from_ then linkAppend { node := g.Nodes.length, pin := 0 } o else id) n)) := by
  have hflt := get_lt hf
  have htlt := get_lt ht
  have hf2 : ({ g with Nodes := g.Nodes ++ [transitionNode t m] } : Graph).Nodes[from_]?
      = some nf := by
    simp only
    rw [List.getElem?_append_left hflt, hf]
  obtain ⟨pa, hpa⟩ := findOutputPin_lt hfo
  have hfresh1 : ({ node := g.Nodes.length, pin := 0 } : PinRef) ∉ pa.linkedTo := by
    intro hmem
    have := hlinks pa (List.getElem?_mem hpa) _ hmem
    simp at this
  have hpinAt1 : pinAt { g with Nodes := g.Nodes ++ [transitionNode t m] }
      { node := from_, pin := o } = some pa := by
    rw [pinAt_of_get (r := { node := from_, pin := o }) hf2]
    exact hpa
  unfold wireTransition
  simp only [hf2, Option.some_bind, hfo]
  rw [makeLinkTo_fresh hpinAt1 hfresh1]
  generalize hg3 : updateNode (updateNode { g with Nodes := g.Nodes ++ [transitionNode t m] }
    from_ (linkAppend { node := g.Nodes.length, pin := 0 } o)) g.Nodes.length
    (linkAppend { node := from_, pin := o } 0) = g3
  have hg3get : ∀ j, g3.Nodes[j]? =
      if j = g.Nodes.length then
        some (linkAppend { node := from_, pin := o } 0 (transitionNode t m))
      else (g.Nodes[j]?).map
        (if j = from_ then linkAppend { node := g.Nodes.length, pin := 0 } o else id) := by
    intro j
    rw [← hg3, updateNode_get, updateNode_get]
    by_cases hj : j = g.Nodes.length
    · subst hj
      have hne : ¬ g.Nodes.length = from_ := by omega
      simp [hne]
    · simp only [hj, if_false]
      by_cases hjf : j = from_
      · subst hjf
        simp only [if_true]
        rw [List.getElem?_append_left hflt]
      · simp only [hjf, if_false]
        by_cases hjl : j < g.Nodes.length
        · rw [List.getElem?_append_left hjl]
          cases g.Nodes[j]? <;> rfl
        · rw [List.getElem?_eq_none (by simp; omega), List.getElem?_eq_none (by omega)]
          rfl
  have hto3 : ∃ nt', g3.Nodes[to_]? = some nt' ∧ findInputPin nt' = some i := by
    rw [hg3get]
    have hne : ¬ to_ = g.Nodes.length := by omega
    simp only [hne, if_false, ht, Option.map_some']
    refine ⟨_, rfl, ?_⟩
    split
    · rw [findInputPin_congr (dirs_linkAppend _ _ _)]; exact hti
    · exact hti
  obtain ⟨nt', hnt', hti'⟩ := hto3
  simp only [hnt', Option.some_bind, hti']
  have hpinAt2 : pinAt g3 { node := g.Nodes.length, pin := 1 } =
      some { pinName := "Out", direction := EPinDirection.EGPD_Output, linkedTo := [] } := by
    unfold pinAt
    rw [hg3get]
    simp only [if_true]
    rfl
  rw [makeLinkTo_fresh hpinAt2 (by simp)]
  rw [updateNode_get, updateNode_get, hg3get]
  by_cases hj : j = g.Nodes.length
  · subst hj
    have hne : ¬ g.Nodes.length = to_ := by omega
    simp only [hne, if_false, if_true, Option.map_some']
    rfl
  · simp only [hj, if_false]
    by_cases hjt : j = to_
    · subst hjt
      simp only [if_true, Option.map_map]
      rfl
    · simp only [hjt, if_false]
      cases g.Nodes[j]? <;> rfl

theorem wireTransition_entry (g : Graph) (a b c : Nat) :
    (wireTransition g a b c).EntryNode = g.EntryNode := by
  unfold wireTransition
  simp only
  split
  · split
    · rw [makeLinkTo_entry, makeLinkTo_entry]
    · rw [makeLinkTo_entry]
  · split
    · rw [makeLinkTo_entry]
    · rfl

theorem defaultOutput_eq (E : Engine) (id : Nat) (s : StateJson) :
    findOutputPin (stateNode E id s) = defaultOutput E id := rfl

theorem defaultInput_eq (E : Engine) (id : Nat) (s : StateJson) :
    findInputPin (stateNode E id s) = defaultInput E id := rfl

theorem WireInv.containerOk {E : Engine} {g0 : Graph} {states : List StateJson}
    {done : List TransitionJson} {g : Graph} (inv : WireInv E g0 states done g) :
    ContainerOk E g0.Nodes.length states (stateExports g0.Nodes.length states) g := by
  refine ⟨rfl, ?_⟩
  intro i s hs
  obtain ⟨n, hn, hf, _, _⟩ := inv.stateNodesOk i s hs
  rw [hn, Option.map_some', hf]

theorem WireInv.wire_step {E : Engine} {g0 : Graph} {states : List StateJson}
    {done : List TransitionJson} {g : Graph} (inv : WireInv E g0 states done g)
    {t : TransitionJson} (hw : Wirable E g0.Nodes.length states done.length t) :
    ∃ g', transitionStep g0.Nodes.length states g done.length t = some g' ∧
      WireInv E g0 states (done ++ [t]) g' := by
  obtain ⟨hp, hn, hm, ho, hi⟩ := hw
  obtain ⟨sp, hsp⟩ := Option.isSome_iff_exists.1 hp
  obtain ⟨sn, hsn⟩ := Option.isSome_iff_exists.1 hn
  obtain ⟨m, hm⟩ := Option.isSome_iff_exists.1 hm
  obtain ⟨o, ho⟩ := Option.isSome_iff_exists.1 ho
  obtain ⟨i, hi⟩ := Option.isSome_iff_exists.1 hi
  have hm' : transitionStateObject sp done.length = some m := by
    unfold reconciled at hm
    rw [hsp] at hm
    exact hm
  obtain ⟨_, hspget⟩ := arrayGet_eq_some hsp
  obtain ⟨_, hsnget⟩ := arrayGet_eq_some hsn
  obtain ⟨nf, hnf, hff, hfd, hfl⟩ := inv.stateNodesOk _ sp hspget
  obtain ⟨nt, hnt, htf, htd, htl⟩ := inv.stateNodesOk _ sn hsnget
  have hplt := get_lt hspget
  have hnlt := get_lt hsnget
  have hfo : findOutputPin nf = some o := by
    rw [findOutputPin_congr hfd, defaultOutput_eq, ho]
  have hti : findInputPin nt = some i := by
    rw [findInputPin_congr htd, defaultInput_eq, hi]
  have hget := wireTransition_get (t := t) (m := m) hnf hnt hfo hti hfl
  have hentry := wireTransition_entry { g with Nodes := g.Nodes ++ [transitionNode t m] }
    (g0.Nodes.length + t.PreviousState.toNat) (g0.Nodes.length + t.NextState.toNat)
    g.Nodes.length
  have hlen : (wireTransition { g with Nodes := g.Nodes ++ [transitionNode t m] }
      (g0.Nodes.length + t.PreviousState.toNat) (g0.Nodes.length + t.NextState.toNat)
      g.Nodes.length).Nodes.length = g.Nodes.length + 1 := by
    have := congrArg List.length (map_fields_wireTransition
      { g with Nodes := g.Nodes ++ [transitionNode t m] }
      (g0.Nodes.length + t.PreviousState.toNat) (g0.Nodes.length + t.NextState.toNat)
      g.Nodes.length)
    simpa using this
  have hstep : transitionStep g0.Nodes.length states g done.length t =
      some (wireTransition { g with Nodes := g.Nodes ++ [transitionNode t m] }
        (g0.Nodes.length + t.PreviousState.toNat) (g0.Nodes.length + t.NextState.toNat)
        g.Nodes.length) := by
    unfold transitionStep
    simp only [hsp, hsn, hm']
  refine ⟨_, hstep, ?_⟩
  clear hstep
  generalize wireTransition { g with Nodes := g.Nodes ++ [transitionNode t m] }
    (g0.Nodes.length + t.PreviousState.toNat) (g0.Nodes.length + t.NextState.toNat)
    g.Nodes.length = g' at hget hentry hlen
  have hglen := inv.len
  constructor
  · rw [hentry]; exact inv.entry
  · rw [hlen, hglen, List.length_append, List.length_singleton]; omega
  · intro j hj
    rw [hget, if_neg (by omega), if_neg (by omega), if_neg (by omega)]
    simp only [id, Option.map_id']
    exact inv.old j hj
  · intro i' s hs
    obtain ⟨n, hn, hf, hd, hl⟩ := inv.stateNodesOk i' s hs
    have hi'lt := get_lt hs
    rw [hget, if_neg (by omega), hn, Option.map_some']
    refine ⟨_, rfl, ?_, ?_, ?_⟩
    · split <;> split <;>
        simp only [id, fields_linkAppend, hf]
    · split <;> split <;>
        simp only [id, dirs_linkAppend, hd]
    · rw [hlen]
      have hl' : LinksBelow (g.Nodes.length + 1) n := hl.mono_bound (Nat.le_succ _)
      split <;> split
      · exact (hl'.after_linkAppend _ _ (by simp)).after_linkAppend _ _ (by simp)
      · exact hl'.after_linkAppend _ _ (by simp)
      · exact hl'.after_linkAppend _ _ (by simp)
      · exact hl'
  · intro k t' hk
    by_cases hkd : k < done.length
    · rw [List.getElem?_append_left hkd] at hk
      obtain ⟨m', o', i'', h1, h2, h3, h4, h5, h6⟩ := inv.wired k t' hk
      refine ⟨m', o', i'', h1, h2, h3, h4, h5, ?_⟩
      rw [hget, if_neg (by omega), if_neg (by omega), if_neg (by omega)]
      simp only [id, Option.map_id']
      exact h6
    · have hkl := get_lt hk
      simp only [List.length_append, List.length_singleton] at hkl
      have hke : k = done.length := by omega
      subst hke
      simp only [List.getElem?_concat_length, Option.some.injEq] at hk
      subst hk
      refine ⟨m, o, i, hm, ho, hi, hplt, hnlt, ?_⟩
      rw [hget, if_pos (by omega)]

theorem WireInv.wire_loop {E : Engine} {g0 : Graph} {states : List StateJson}
    (ts : List TransitionJson) {done : List TransitionJson} {g : Graph}
    (inv : WireInv E g0 states done g)
    (hw : ∀ j t, ts[j]? = some t → Wirable E g0.Nodes.length states (done.length + j) t) :
    ∃ g', createTransitions (stateExports g0.Nodes.length states) done.length ts g = some g' ∧
      WireInv E g0 states (done ++ ts) g' := by
  induction ts generalizing done g with
  | nil => exact ⟨g, rfl, by simpa using inv⟩
  | cons t rest ih =>
    obtain ⟨g1, hstep, inv1⟩ := inv.wire_step (hw 0 t (by simp))
    have hrest : ∀ j t', rest[j]? = some t' →
        Wirable E g0.Nodes.length states ((done ++ [t]).length + j) t' := by
      intro j t' hj
      have := hw (j + 1) t' (by simpa using hj)
      simp only [List.length_append, List.length_singleton]
      have e : done.length + (j + 1) = done.length + 1 + j := by omega
      rw [e] at this
      exact this
    obtain ⟨g', hloop, inv'⟩ := ih inv1 hrest
    refine ⟨g', ?_, by simpa using inv'⟩
    simp only [createTransitions]
    rw [createTransition_eq inv.containerOk, hstep]
    simpa using hloop

theorem WireInv.wire_start (E : Engine) (g0 : Graph) (states : List StateJson) :
    WireInv E g0 states [] (createStates E states g0 []).1 := by
  rw [createStates_eq]
  constructor
  · rfl
  · simp [stateNodes_length]
  · intro i hi
    simp only
    rw [List.getElem?_append_left hi]
  · intro i s hs
    refine ⟨stateNode E (g0.Nodes.length + i) s, ?_, rfl, rfl, ?_⟩
    · simp only
      rw [List.getElem?_append_right (by omega), stateNodes_get]
      simp [hs]
    · intro p hp r hr
      simp only [stateNode, mkPins, List.mem_map] at hp
      obtain ⟨_, _, rfl⟩ := hp
      cases hr
  · intro k t hk
    simp at hk

/-! ## Entry wiring leaves the transition nodes alone -/

theorem breakFold_frame (a : PinRef) (j : Nat) (l : List PinRef) (g : Graph)
    (hl : ∀ b ∈ l, b.node ≠ j) :
    (l.foldl (fun acc b =>
        updateNode acc b.node
          (fun n => modifyPin n b.pin
            (fun p => { p with linkedTo := p.linkedTo.filter (fun r => r ≠ a) }))) g).Nodes[j]?
      = g.Nodes[j]? := by
  induction l generalizing g with
  | nil => rfl
  | cons b t ih =>
    simp only [List.foldl_cons]
    rw [ih _ (fun c hc => hl c (List.mem_cons_of_mem _ hc)), updateNode_get,
      if_neg (fun e => hl b (List.mem_cons_self _ _) e.symm)]

theorem breakAllPinLinks_frame (g : Graph) (a : PinRef) (j : Nat) (ha : j ≠ a.node)
    (hl : ∀ pa, pinAt g a = some pa → ∀ b ∈ pa.linkedTo, b.node ≠ j) :
    (breakAllPinLinks g a).Nodes[j]? = g.Nodes[j]? := by
  unfold breakAllPinLinks
  split
  · rfl
  · rename_i pa hpa
    rw [updateNode_get, if_neg ha]
    exact breakFold_frame a j _ g (hl pa hpa)

theorem mem_stateExports {n0 : Nat} {states : List StateJson} {e : FUObjectExport}
    (h : e ∈ stateExports n0 states) : ∃ i, i < states.length ∧ e.Object = some (n0 + i) := by
  obtain ⟨i, hi⟩ := List.mem_iff_getElem?.1 h
  rw [stateExports_get] at hi
  cases hs : states[i]? with
  | none => rw [hs] at hi; cases hi
  | some s =>
    rw [hs] at hi
    simp only [Option.map_some', Option.some.injEq] at hi
    exact ⟨i, get_lt hs, by rw [← hi]; rfl⟩

theorem wireEntry_frame {E : Engine} {json : StateMachineJson} {g0 : Graph}
    {states : List StateJson} {done : List TransitionJson} {g2 g3 : Graph}
    (inv : WireInv E g0 states done g2) (hwf : EntryInGraph g0)
    (h : wireEntry E json (stateExports g0.Nodes.length states) g2 = some g3) (j : Nat)
    (hj : g0.Nodes.length + states.length ≤ j) : g3.Nodes[j]? = g2.Nodes[j]? := by
  unfold wireEntry at h
  split at h
  · cases h
  · rename_i e he
    rw [inv.entry] at he
    obtain ⟨helt, hlinks⟩ := hwf e he
    split at h
    · cases h
    · split at h
      · cases h
      · rename_i id hid
        have hidr : id < g0.Nodes.length + states.length ∧ g0.Nodes.length ≤ id := by
          cases hf : containerFind (stateExports g0.Nodes.length states) _ with
          | none => rw [hf] at hid; cases hid
          | some ex =>
            rw [hf] at hid
            simp only [Option.some_bind] at hid
            obtain ⟨i, hi, hobj⟩ := mem_stateExports (List.mem_of_find?_eq_some hf)
            rw [hobj] at hid
            simp only [Option.some_bind] at hid
            have := (castState_eq_some hid).1
            omega
        have halloc : (allocateDefaultPins E g2 id).Nodes[j]? = g2.Nodes[j]? := by
          unfold allocateDefaultPins
          rw [updateNode_get, if_neg (by omega)]
        have hconn : ∀ ep ip, (tryCreateConnection (allocateDefaultPins E g2 id)
            { node := e, pin := ep } { node := id, pin := ip }).Nodes[j]? = g2.Nodes[j]? := by
          intro ep ip
          unfold tryCreateConnection
          split
          · exact halloc
          · rw [makeLinkTo_frame _ _ _ _ (by simp; omega) (by simp; omega),
              breakAllPinLinks_frame _ _ _ (by simp; omega), halloc]
            intro pa hpa b hb
            unfold pinAt at hpa
            simp only at hpa
            have hen : (allocateDefaultPins E g2 id).Nodes[e]? = g0.Nodes[e]? := by
              unfold allocateDefaultPins
              rw [updateNode_get, if_neg (by omega), inv.old e helt]
            rw [hen] at hpa
            cases hn : g0.Nodes[e]? with
            | none => rw [hn] at hpa; cases hpa
            | some n =>
              rw [hn] at hpa
              have := hlinks n hn pa (List.getElem?_mem hpa) b hb
              omega
        simp only at h
        split at h
        · split at h
          · simp only [Option.some.injEq] at h
            rw [← h]
            exact hconn _ _
          · simp only [Option.some.injEq] at h
            rw [← h]
            exact halloc
        · simp only [Option.some.injEq] at h
          rw [← h]
          exact halloc

theorem strip_get_of_topo {g h : Graph} (e : topo g = topo h) {j : Nat} {n : Node}
    (hn : h.Nodes[j]? = some n) : ∃ n', g.Nodes[j]? = some n' ∧ strip n' = strip n := by
  have := topo_get_eq e j
  rw [hn] at this
  cases hg : g.Nodes[j]? with
  | none => rw [hg] at this; cases this
  | some n' =>
    rw [hg] at this
    simp only [Option.map_some', Option.some.injEq] at this
    exact ⟨n', rfl, this⟩

/-- A build whose records are all wirable completes, and every record has its wired
transition node in the result. -/
theorem Create_wired {E : Engine} {g0 : Graph} {json : StateMachineJson}
    (hwf : EntryInGraph g0)
    (hw : ∀ k t, json.Transitions[k]? = some t → Wirable E g0.Nodes.length json.States k t) :
    ∃ gF, CreateStateMachineGraph E g0 json = some gF ∧
      ∀ k t, json.Transitions[k]? = some t → ∃ m o i n,
        reconciled json.States k t = some m ∧
        defaultOutput E (g0.Nodes.length + t.PreviousState.toNat) = some o ∧
        defaultInput E (g0.Nodes.length + t.NextState.toNat) = some i ∧
        gF.Nodes[g0.Nodes.length + json.States.length + k]? = some n ∧
        strip n = strip (wiredTransition t m
          { node := g0.Nodes.length + t.PreviousState.toNat, pin := o }
          { node := g0.Nodes.length + t.NextState.toNat, pin := i }) := by
  obtain ⟨g2, hloop, inv⟩ := (WireInv.wire_start E g0 json.States).wire_loop json.Transitions
    (by simpa using hw)
  simp only [List.length_nil, List.nil_append] at hloop inv
  have hc : (createStates E json.States g0 []).2 = stateExports g0.Nodes.length json.States := by
    rw [createStates_eq]; simp
  have key : ∀ gF, topo gF = topo g2 ∨
      (∃ g3, wireEntry E json (stateExports g0.Nodes.length json.States) g2 = some g3 ∧
        topo gF = topo g3) →
      ∀ k t, json.Transitions[k]? = some t → ∃ m o i n,
        reconciled json.States k t = some m ∧
        defaultOutput E (g0.Nodes.length + t.PreviousState.toNat) = some o ∧
        defaultInput E (g0.Nodes.length + t.NextState.toNat) = some i ∧
        gF.Nodes[g0.Nodes.length + json.States.length + k]? = some n ∧
        strip n = strip (wiredTransition t m
          { node := g0.Nodes.length + t.PreviousState.toNat, pin := o }
          { node := g0.Nodes.length + t.NextState.toNat, pin := i }) := by
    intro gF hF k t hk
    obtain ⟨m, o, i, h1, h2, h3, _, _, h6⟩ := inv.wired k t hk
    rcases hF with hF | ⟨g3, hw3, hF⟩
    · obtain ⟨n, hn, hs⟩ := strip_get_of_topo hF h6
      exact ⟨m, o, i, n, h1, h2, h3, hn, hs⟩
    · have h3get := wireEntry_frame inv hwf hw3
        (g0.Nodes.length + json.States.length + k) (by omega)
      rw [h6] at h3get
      obtain ⟨n, hn, hs⟩ := strip_get_of_topo hF h3get
      exact ⟨m, o, i, n, h1, h2, h3, hn, hs⟩
  unfold CreateStateMachineGraph
  simp only [hc, hloop]
  cases hw3 : wireEntry E json (stateExports g0.Nodes.length json.States) g2 with
  | none => exact ⟨g2, rfl, key g2 (Or.inl rfl)⟩
  | some g3 =>
    exact ⟨AutoLayoutStateMachineGraph g3, rfl,
      key _ (Or.inr ⟨g3, hw3, topo_AutoLayout g3⟩)⟩

/-! ## Claims about `CreateStateMachineGraph` -/

theorem findStateTransition_eq (t : Int) (l : List (Option StateTransitionJson)) :
    findStateTransition t l = firstWithIndex l t := by
  unfold firstWithIndex
  induction l with
  | nil => rfl
  | cons a rest ih =>
    cases a with
    | none => simpa [findStateTransition] using ih
    | some m =>
      by_cases h : t = m.TransitionIndex
      · simp [findStateTransition, h]
      · have h' : ¬ m.TransitionIndex = t := fun e => h e.symm
        simp [findStateTransition, h, h', ih]

/-- Witness of C6: three records, the second is recorded at index 1 and names node 2. -/
theorem C6_state_creation_positional_witness :
    (createStates stockEngine outOfOrderJson.States freshGraph []).2.length = 3 ∧
    ∃ n, (createStates stockEngine outOfOrderJson.States freshGraph []).1.Nodes[1 + 1]? =
        some n ∧ n.cls = NodeClass.state ∧ n.name = "B" :=
  ⟨(C6_state_creation_positional stockEngine freshGraph outOfOrderJson.States).1,
    ((C6_state_creation_positional stockEngine freshGraph outOfOrderJson.States).2.2.2 1
      { StateName := "B", Transitions := none } rfl).2⟩

/-- C4 (the code does not do this): on 3 states and the transition list
`[(0 → 1), (1 → 5)]` the build does not complete with 1 transition; the unchecked
`Container.Exports[5]` of line 193 is a failed range check, the build is aborted. -/
theorem C4_out_of_range_transition_aborts :
    CreateStateMachineGraph stockEngine freshGraph outOfRangeJson = none := by
  decide

theorem fields_flag {n : Node} {t : TransitionJson} {m : StateTransitionJson}
    (h : fields n = fields (transitionNode t m)) :
    n.cls = NodeClass.transition ∧
    n.bAutomaticRuleBasedOnSequencePlayerInState = m.bAutomaticRemainingTimeRule :=
  ⟨congrArg Node.cls h, congrArg Node.bAutomaticRuleBasedOnSequencePlayerInState h⟩

theorem reconciled_eq {states : List StateJson} {t : Nat} {r : TransitionJson}
    {s : StateJson} {nested : List (Option StateTransitionJson)}
    (hs : arrayGet states r.PreviousState = some s) (hnested : s.Transitions = some nested) :
    reconciled states t r = firstWithIndex nested t := by
  unfold reconciled
  rw [hs]
  simp only [transitionStateObject, hnested, findStateTransition_eq]

/-- C5: reconciliation is by ordinal value: the transition node created for position `t` of
the flat list carries as automatic-rule flag the `bAutomaticRemainingTimeRule` of the first
entry of the from-state's nested list whose `TransitionIndex` equals `t`, wherever that
entry sits in the nested list; this holds as soon as the transition loop has completed its
iterations `0 .. t`, and in the result of every completed build. -/
theorem C5_reconciliation_by_ordinal (E : Engine) (g0 : Graph) (json : StateMachineJson)
    (t : Nat) (r : TransitionJson) (s : StateJson)
    (nested : List (Option StateTransitionJson)) (m : StateTransitionJson)
    (hr : json.Transitions[t]? = some r)
    (hs : arrayGet json.States r.PreviousState = some s)
    (hnested : s.Transitions = some nested)
    (hm : firstWithIndex nested t = some m) :
    (∀ g', createTransitions (createStates E json.States g0 []).2 0
        (json.Transitions.take (t + 1)) (createStates E json.States g0 []).1 = some g' →
      ∃ n, g'.Nodes[g0.Nodes.length + json.States.length + t]? = some n ∧
        n.cls = NodeClass.transition ∧
        n.bAutomaticRuleBasedOnSequencePlayerInState = m.bAutomaticRemainingTimeRule) ∧
    (∀ gF, CreateStateMachineGraph E g0 json = some gF →
      ∃ n, gF.Nodes[g0.Nodes.length + json.States.length + t]? = some n ∧
        n.cls = NodeClass.transition ∧
        n.bAutomaticRuleBasedOnSequencePlayerInState = m.bAutomaticRemainingTimeRule) := by
  have hrec : ∀ m', reconciled json.States t r = some m' → m' = m := by
    intro m' hm'
    rw [reconciled_eq hs hnested, hm] at hm'
    exact (Option.some.inj hm').symm
  constructor
  · intro g' hloop
    obtain ⟨_, _, _, hnew⟩ :=
      createTransitions_fields _ (ContainerOk.container_start E g0 json.States) hloop
    have hlen1 : (createStates E json.States g0 []).1.Nodes.length =
        g0.Nodes.length + json.States.length := by
      rw [createStates_eq]
      simp [stateNodes_length]
    have htake : (json.Transitions.take (t + 1))[t]? = some r := by
      rw [List.getElem?_take_of_lt (by omega)]
      exact hr
    obtain ⟨m', hm', hget⟩ := hnew t r htake
    rw [Nat.zero_add] at hm'
    rw [hrec m' hm', hlen1, List.getElem?_map] at hget
    cases hn : g'.Nodes[g0.Nodes.length + json.States.length + t]? with
    | none => rw [hn] at hget; cases hget
    | some n =>
      rw [hn] at hget
      simp only [Option.map_some', Option.some.injEq] at hget
      exact ⟨n, rfl, fields_flag hget⟩
  · intro gF hbuild
    obtain ⟨_, _, _, hnew⟩ := Create_fields hbuild
    obtain ⟨m', hm', hget⟩ := hnew t r hr
    rw [hrec m' hm', List.getElem?_map] at hget
    cases hn : gF.Nodes[g0.Nodes.length + json.States.length + t]? with
    | none => rw [hn] at hget; cases hget
    | some n =>
      rw [hn] at hget
      simp only [Option.map_some', Option.some.injEq] at hget
      exact ⟨n, rfl, fields_flag hget⟩

/-- Witness of C5 on `outOfOrderJson`: transition 0 starts at state "A", whose nested list
holds the entry of ordinal 0 (flag `true`) in second place; the node of transition 0 is
node 4 and carries `true`. -/
theorem C5_reconciliation_by_ordinal_witness :
    ∃ gF, CreateStateMachineGraph stockEngine freshGraph outOfOrderJson = some gF ∧
      firstWithIndex [some ⟨1, false⟩, some ⟨0, true⟩] 0 = some ⟨0, true⟩ ∧
      ∃ n, gF.Nodes[1 + 3 + 0]? = some n ∧ n.cls = NodeClass.transition ∧
        n.bAutomaticRuleBasedOnSequencePlayerInState = true :=
  ⟨(CreateStateMachineGraph stockEngine freshGraph outOfOrderJson).get (by decide),
    by simp, by decide,
    (C5_reconciliation_by_ordinal stockEngine freshGraph outOfOrderJson 0
      ⟨0, 1, true⟩ { StateName := "A", Transitions := some [some ⟨1, false⟩, some ⟨0, true⟩] }
      [some ⟨1, false⟩, some ⟨0, true⟩] ⟨0, true⟩ rfl rfl rfl (by decide)).2 _ (by simp)⟩

theorem arrayGet_isSome {α : Type} (l : List α) (i : Int) (h0 : 0 ≤ i)
    (h1 : i < (l.length : Int)) : (arrayGet l i).isSome := by
  unfold arrayGet
  rw [if_pos h0]
  have : i.toNat < l.length := by omega
  rw [List.getElem?_eq_getElem this]
  rfl

/-- C7: topology is reproduced: when the entry node of the input graph has no dangling
links, all `PreviousState` / `NextState` indices are in range, every transition has a
matching nested metadata entry and every state has its two connection points, the build
completes; the result holds the nodes of the input graph, then one state node per "States"
entry, then exactly one transition node per flat record, in list order; the input pin of
the `k`-th transition node is linked to the output connection point of the state created
from `States[PreviousState_k]`, its output pin to the input connection point of the state
created from `States[NextState_k]`, and these two states are the endpoints the layout
reads. -/
theorem C7_topology_reproduced (E : Engine) (g0 : Graph) (json : StateMachineJson)
    (hwf : EntryInGraph g0)
    (hrange : ∀ t ∈ json.Transitions,
      0 ≤ t.PreviousState ∧ t.PreviousState < (json.States.length : Int) ∧
      0 ≤ t.NextState ∧ t.NextState < (json.States.length : Int))
    (hmeta : ∀ k t, json.Transitions[k]? = some t → (reconciled json.States k t).isSome)
    (hpins : ∀ i, i < json.States.length →
      (defaultOutput E (g0.Nodes.length + i)).isSome ∧
      (defaultInput E (g0.Nodes.length + i)).isSome) :
    ∃ gF, CreateStateMachineGraph E g0 json = some gF ∧
      gF.Nodes.length = g0.Nodes.length + json.States.length + json.Transitions.length ∧
      (∀ i s, json.States[i]? = some s →
        ∃ n, gF.Nodes[g0.Nodes.length + i]? = some n ∧
          n.cls = NodeClass.state ∧ n.name = s.StateName) ∧
      ∀ k t, json.Transitions[k]? = some t → ∃ n o i,
        gF.Nodes[g0.Nodes.length + json.States.length + k]? = some n ∧
        n.cls = NodeClass.transition ∧
        n.bCanEnterTransition = t.bDesiredTransitionReturnValue ∧
        defaultOutput E (g0.Nodes.length + t.PreviousState.toNat) = some o ∧
        defaultInput E (g0.Nodes.length + t.NextState.toNat) = some i ∧
        n.pins =
          [ { pinName := "In", direction := EPinDirection.EGPD_Input,
              linkedTo := [{ node := g0.Nodes.length + t.PreviousState.toNat, pin := o }] },
            { pinName := "Out", direction := EPinDirection.EGPD_Output,
              linkedTo := [{ node := g0.Nodes.length + t.NextState.toNat, pin := i }] } ] ∧
        transitionEndpoints gF n =
          some (g0.Nodes.length + t.PreviousState.toNat,
            g0.Nodes.length + t.NextState.toNat) := by
  have hw : ∀ k t, json.Transitions[k]? = some t →
      Wirable E g0.Nodes.length json.States k t := by
    intro k t hk
    obtain ⟨h1, h2, h3, h4⟩ := hrange t (List.getElem?_mem hk)
    exact ⟨arrayGet_isSome _ _ h1 h2, arrayGet_isSome _ _ h3 h4, hmeta k t hk,
      (hpins _ (by omega)).1, (hpins _ (by omega)).2⟩
  obtain ⟨gF, hF, hwired⟩ := Create_wired hwf hw
  obtain ⟨hlen, _, hstates, _⟩ := Create_fields hF
  have hstate : ∀ i s, json.States[i]? = some s →
      ∃ n, gF.Nodes[g0.Nodes.length + i]? = some n ∧
        n.cls = NodeClass.state ∧ n.name = s.StateName := by
    intro i s hs
    have := hstates i s hs
    rw [List.getElem?_map] at this
    cases hn : gF.Nodes[g0.Nodes.length + i]? with
    | none => rw [hn] at this; cases this
    | some n =>
      rw [hn] at this
      simp only [Option.map_some', Option.some.injEq] at this
      exact ⟨n, rfl, congrArg Node.cls this, congrArg Node.name this⟩
  refine ⟨gF, hF, hlen, hstate, ?_⟩
  intro k t hk
  obtain ⟨m, o, i, n, _, ho, hi, hn, hs⟩ := hwired k t hk
  obtain ⟨h1, h2, h3, h4⟩ := hrange t (List.getElem?_mem hk)
  have hcls : n.cls = NodeClass.transition := congrArg Node.cls hs
  have hpins' : n.pins = (wiredTransition t m
      { node := g0.Nodes.length + t.PreviousState.toNat, pin := o }
      { node := g0.Nodes.length + t.NextState.toNat, pin := i }).pins := by
    have := congrArg Node.pins hs
    exact this
  refine ⟨n, o, i, hn, hcls, congrArg Node.bCanEnterTransition hs, ho, hi, hpins', ?_⟩
  have hsp : ∃ s, json.States[t.PreviousState.toNat]? = some s :=
    ⟨_, List.getElem?_eq_getElem (by omega)⟩
  have hsn : ∃ s, json.States[t.NextState.toNat]? = some s :=
    ⟨_, List.getElem?_eq_getElem (by omega)⟩
  obtain ⟨sp, hsp⟩ := hsp
  obtain ⟨sn, hsn⟩ := hsn
  obtain ⟨np, hnp, hpc, _⟩ := hstate _ sp hsp
  obtain ⟨nn, hnn, hnc, _⟩ := hstate _ sn hsn
  unfold transitionEndpoints
  rw [if_pos hcls, hpins']
  simp only [wiredTransition, castState_of_state hnp hpc, castState_of_state hnn hnc]

/-- Witness of C7 on the end-to-end scenario document, the stock engine and a fresh graph. -/
theorem C7_topology_reproduced_witness :
    ∃ gF, CreateStateMachineGraph stockEngine freshGraph (scenarioJson true false) = some gF ∧
      gF.Nodes.length = 1 + 3 + 2 := by
  obtain ⟨gF, h1, h2, _⟩ := C7_topology_reproduced stockEngine freshGraph
    (scenarioJson true false)
    (by
      intro e he
      simp only [freshGraph, Option.some.injEq] at he
      subst he
      refine ⟨by decide, ?_⟩
      intro n hn
      simp only [freshGraph, List.getElem?_cons_zero, Option.some.injEq] at hn
      subst hn
      intro p hp r hr
      simp only [mkPins, List.map_cons, List.map_nil, List.mem_singleton] at hp
      subst hp
      cases hr)
    (by decide)
    (by
      intro k t hk
      have hlt := get_lt hk
      have : k = 0 ∨ k = 1 := by
        simp only [scenarioJson, List.length_cons, List.length_nil] at hlt
        omega
      rcases this with rfl | rfl <;>
        · simp only [scenarioJson, List.getElem?_cons_zero, List.getElem?_cons_succ,
            Option.some.injEq] at hk
          subst hk
          decide)
    (by decide)
  exact ⟨gF, h1, h2⟩

/-- C8: the end-to-end scenario: states `A`, `B`, `C` (nodes 1, 2, 3 after the entry node
0), transitions `A → B` with `canEnter = true` (node 4) and `B → C` with `canEnter = false`
(node 5), initial state 0, whatever the automatic-rule flags of the two nested metadata
entries.  The build completes; levels are `A:0, B:1, C:2`; the states sit at `(0, 0)`,
`(400, 0)`, `(800, 0)`, the transition nodes at `(200, 0)` and `(600, 0)`. -/
theorem C8_end_to_end_scenario (a0 a1 : Bool) :
    ∃ gF, CreateStateMachineGraph stockEngine freshGraph (scenarioJson a0 a1) = some gF ∧
      gF.Nodes.map (fun n => n.name) =
        ["Entry", "A", "B", "C", "AnimStateTransitionNode", "AnimStateTransitionNode"] ∧
      findInitialState gF = some 1 ∧
      (assignLevels gF 1).levels = [(1, 0), (2, 1), (3, 2)] ∧
      (List.range 6).map (fun id => (posX gF id, posY gF id)) =
        [(0, 0), (0, 0), (400, 0), (800, 0), (200, 0), (600, 0)] ∧
      gF.Nodes.map (fun n => transitionEndpoints gF n) =
        [none, none, none, none, some (1, 2), some (2, 3)] ∧
      (gF.Nodes.drop 4).map (fun n => n.bCanEnterTransition) = [true, false] := by
  cases a0 <;> cases a1
  · exact ⟨(CreateStateMachineGraph stockEngine freshGraph (scenarioJson false false)).get
        (by decide),
      by simp, by decide, by decide, by decide, by decide, by decide, by decide⟩
  · exact ⟨(CreateStateMachineGraph stockEngine freshGraph (scenarioJson false true)).get
        (by decide),
      by simp, by decide, by decide, by decide, by decide, by decide, by decide⟩
  · exact ⟨(CreateStateMachineGraph stockEngine freshGraph (scenarioJson true false)).get
        (by decide),
      by simp, by decide, by decide, by decide, by decide, by decide, by decide⟩
  · exact ⟨(CreateStateMachineGraph stockEngine freshGraph (scenarioJson true true)).get
        (by decide),
      by simp, by decide, by decide, by decide, by decide, by decide, by decide⟩

/-! ## Nodes the layout leaves alone -/

theorem mapFind_isSome_of_mem {β : Type} {m : List (Nat × β)} {k : Nat} {v : β}
    (h : (k, v) ∈ m) : ∃ v', mapFind m k = some v' := by
  induction m with
  | nil => cases h
  | cons p t ih =>
    obtain ⟨k', w⟩ := p
    by_cases hk : k' = k
    · exact ⟨w, by simp [mapFind, hk]⟩
    · rcases List.mem_cons.1 h with e | h'
      · simp only [Prod.mk.injEq] at e
        exact absurd e.1.symm hk
      · obtain ⟨v', hv'⟩ := ih h'
        exact ⟨v', by simp [mapFind, hk, hv']⟩

theorem statePlan_key_levelled {g : Graph} {levels : List (Nat × Nat)} {p : Nat × Int × Int}
    (h : p ∈ statePlan g levels) : ∃ L, mapFind levels p.1 = some L := by
  have hk : p.1 ∈ (statePlan g levels).map (fun q => q.1) := List.mem_map.2 ⟨p, h, rfl⟩
  rw [statePlan_map_fst, List.mem_flatMap] at hk
  obtain ⟨grp, hgrp, hmem⟩ := hk
  rw [mem_sortByName, group_eq_levelMembers hgrp, mem_levelMembers] at hmem
  exact mapFind_isSome_of_mem hmem

theorem lastPos_statePlan_none {g : Graph} {levels : List (Nat × Nat)} {s : Nat}
    (h : mapFind levels s = none) : lastPos (statePlan g levels) s = none := by
  apply lastPos_eq_none
  intro p hp hps
  obtain ⟨L, hL⟩ := statePlan_key_levelled hp
  rw [hps, h] at hL
  cases hL

/-- A node without a level that is not a linked transition node is not touched by the
layout. -/
theorem AutoLayout_unchanged {g : Graph} {init i : Nat} (hi : findInitialState g = some init)
    (hlev : mapFind (assignLevels g init).levels i = none)
    (hend : ∀ n, g.Nodes[i]? = some n → transitionEndpoints g n = none) :
    (AutoLayoutStateMachineGraph g).Nodes[i]? = g.Nodes[i]? := by
  rw [AutoLayout_eq_of_initial hi]
  generalize hh : applyPlan (statePlan g (assignLevels g init).levels) g = h
  have ht : topo h = topo g := by rw [← hh, topo_applyPlan]
  have hhi : h.Nodes[i]? = g.Nodes[i]? := by
    rw [← hh, applyPlan_get, lastPos_statePlan_none hlev]
    cases g.Nodes[i]? <;> rfl
  cases hn : g.Nodes[i]? with
  | none =>
    rw [applyPlan_get, hhi, hn]
    rfl
  | some n =>
    have hlt : i < h.Nodes.length := by
      rw [topo_length ht]
      exact get_lt hn
    have hpos : transitionPos h i = none := by
      unfold transitionPos
      rw [hhi, hn]
      simp only
      rw [transitionEndpoints_congr ht rfl, hend n hn]
    rw [applyPlan_get, lastPos_transitionPlan h i hlt, hpos, hhi, hn]
    rfl

theorem transitionEndpoints_of_not_transition {g : Graph} {n : Node}
    (h : n.cls ≠ NodeClass.transition) : transitionEndpoints g n = none := by
  unfold transitionEndpoints
  rw [if_neg h]

theorem unreachable_no_level {g : Graph} {init s : Nat} (h : ¬ Reachable g init s) :
    mapFind (assignLevels g init).levels s = none := by
  cases hl : mapFind (assignLevels g init).levels s with
  | none => rfl
  | some l => exact absurd ((assignLevels_spec g init s).1.1 ⟨l, hl⟩) h

/-- A state that is not reachable from the initial state is not touched by the layout. -/
theorem unreachable_state_unchanged {g : Graph} {s : Nat} {n : Node}
    (hn : g.Nodes[s]? = some n) (hc : n.cls = NodeClass.state)
    (hun : ∀ init, findInitialState g = some init → ¬ Reachable g init s) :
    (AutoLayoutStateMachineGraph g).Nodes[s]? = some n := by
  cases hi : findInitialState g with
  | none => rw [AutoLayout_eq_of_no_initial hi, hn]
  | some init =>
    rw [AutoLayout_unchanged hi (unreachable_no_level (hun init hi)), hn]
    intro m hm
    rw [hn] at hm
    simp only [Option.some.injEq] at hm
    subst hm
    apply transitionEndpoints_of_not_transition
    rw [hc]
    decide

/-- In the exact range the machine arithmetic of lines 126-127 is the exact truncated
midpoint. -/
theorem midpointCode_eq_midpoint {a b : Int} (ha : InExactRange a) (hb : InExactRange b) :
    midpointCode a b = midpoint a b := by
  obtain ⟨ha1, ha2⟩ := ha
  obtain ⟨hb1, hb2⟩ := hb
  have hw : wrapInt32 (a + b) = a + b := by
    unfold wrapInt32
    omega
  have hr : roundBinary32 (a + b) = a + b := by
    unfold roundBinary32
    have : (a + b).natAbs ≤ 16777216 := by omega
    simp only [this, if_true]
  unfold midpointCode midpoint
  rw [hw, hr]

/-- The machine arithmetic outside the exact range: the binary32 conversion rounds and the
`int32` sum wraps. -/
theorem midpointCode_inexact :
    midpointCode 33554435 0 = 16777218 ∧ midpoint 33554435 0 = 16777217 ∧
    midpointCode 1610612736 1610612736 = -536870912 ∧
    midpoint 1610612736 1610612736 = 1610612736 := by
  decide

/-! ## Claims about what the layout leaves alone -/

/-- C11 (the code does not do this): in `exampleGraph` node 8 is the transition from state 4
to state 1; state 4 has no level; the layout moves node 8 from `(3, 4)` to `(15, -2)`. -/
theorem C11_unreachable_transition_moved :
    findInitialState exampleGraph = some 1 ∧
    (exampleGraph.Nodes[8]?).bind (transitionEndpoints exampleGraph) = some (4, 1) ∧
    mapFind (assignLevels exampleGraph 1).levels 4 = none ∧
    (posX exampleGraph 8, posY exampleGraph 8) = (3, 4) ∧
    (posX (AutoLayoutStateMachineGraph exampleGraph) 8,
      posY (AutoLayoutStateMachineGraph exampleGraph) 8) = (15, -2) ∧
    ¬ (posX (AutoLayoutStateMachineGraph exampleGraph) 8 = posX exampleGraph 8 ∧
      posY (AutoLayoutStateMachineGraph exampleGraph) 8 = posY exampleGraph 8) := by
  decide

/-- C11 as amended: on a graph whose entry node is linked to an initial state, a transition
node whose two pins are linked to states `F` and `T` is placed whether or not `F` and `T`
have a level: a state without a level keeps the position it had before the layout, and the
transition node gets `(F + T) * 0.5f` of the positions of `F` and `T` after the state pass,
which for coordinates within `±2 ^ 23` (no `int32` wrap, exact binary32 arithmetic) is their
midpoint truncated towards zero.  A transition node whose pins are not both linked to a
state keeps its position. -/
theorem C11_transition_position_amended (g : Graph) (init i : Nat) (n : Node)
    (hinit : findInitialState g = some init) (hn : g.Nodes[i]? = some n)
    (hcls : n.cls = NodeClass.transition) :
    (∀ F T, transitionEndpoints g n = some (F, T) →
      (∀ s, (s = F ∨ s = T) → mapFind (assignLevels g init).levels s = none →
        posX (AutoLayoutStateMachineGraph g) s = posX g s ∧
        posY (AutoLayoutStateMachineGraph g) s = posY g s) ∧
      (InExactRange (posX (AutoLayoutStateMachineGraph g) F) →
        InExactRange (posX (AutoLayoutStateMachineGraph g) T) →
        posX (AutoLayoutStateMachineGraph g) i =
          midpointCode (posX (AutoLayoutStateMachineGraph g) F)
            (posX (AutoLayoutStateMachineGraph g) T) ∧
        posX (AutoLayoutStateMachineGraph g) i =
          Int.tdiv (posX (AutoLayoutStateMachineGraph g) F +
            posX (AutoLayoutStateMachineGraph g) T) 2) ∧
      (InExactRange (posY (AutoLayoutStateMachineGraph g) F) →
        InExactRange (posY (AutoLayoutStateMachineGraph g) T) →
        posY (AutoLayoutStateMachineGraph g) i =
          midpointCode (posY (AutoLayoutStateMachineGraph g) F)
            (posY (AutoLayoutStateMachineGraph g) T) ∧
        posY (AutoLayoutStateMachineGraph g) i =
          Int.tdiv (posY (AutoLayoutStateMachineGraph g) F +
            posY (AutoLayoutStateMachineGraph g) T) 2)) ∧
    (transitionEndpoints g n = none →
      posX (AutoLayoutStateMachineGraph g) i = posX g i ∧
      posY (AutoLayoutStateMachineGraph g) i = posY g i) := by
  constructor
  · intro F T hend
    obtain ⟨hx, hy⟩ := transition_position hinit hn hend
    refine ⟨?_, ?_, ?_⟩
    · intro s hs hlev
      obtain ⟨_, hF, hT⟩ := transitionEndpoints_some hend
      have hstate : castState g s = some s := by
        rcases hs with rfl | rfl
        · exact hF
        · exact hT
      obtain ⟨_, m, hm, hmc⟩ := castState_eq_some hstate
      have hsame : (AutoLayoutStateMachineGraph g).Nodes[s]? = g.Nodes[s]? := by
        apply AutoLayout_unchanged hinit hlev
        intro m' hm'
        rw [hm] at hm'
        simp only [Option.some.injEq] at hm'
        subst hm'
        apply transitionEndpoints_of_not_transition
        rw [hmc]
        decide
      exact ⟨posX_congr hsame, posY_congr hsame⟩
    · intro hF hT
      exact ⟨by rw [midpointCode_eq_midpoint hF hT]; exact hx, hx⟩
    · intro hF hT
      exact ⟨by rw [midpointCode_eq_midpoint hF hT]; exact hy, hy⟩
  · intro hend
    have hlev : mapFind (assignLevels g init).levels i = none := by
      cases hl : mapFind (assignLevels g init).levels i with
      | none => rfl
      | some l =>
        obtain ⟨_, m, hm, hmc⟩ := castState_eq_some (levelled_state hinit hl)
        rw [hn] at hm
        simp only [Option.some.injEq] at hm
        subst hm
        rw [hcls] at hmc
        cases hmc
    have hsame : (AutoLayoutStateMachineGraph g).Nodes[i]? = g.Nodes[i]? := by
      apply AutoLayout_unchanged hinit hlev
      intro m hm
      rw [hn] at hm
      simp only [Option.some.injEq] at hm
      subst hm
      exact hend
    exact ⟨posX_congr hsame, posY_congr hsame⟩

/-- Witness of C11 as amended on `exampleGraph`: node 8, the transition from the unlevelled
state 4 (which stays at `x = 31`) to state 1 (at `x = 0`), is put at `x = 15`. -/
theorem C11_transition_position_amended_witness :
    findInitialState exampleGraph = some 1 ∧
    posX (AutoLayoutStateMachineGraph exampleGraph) 4 = posX exampleGraph 4 ∧
    posX (AutoLayoutStateMachineGraph exampleGraph) 8 =
      midpointCode (posX (AutoLayoutStateMachineGraph exampleGraph) 4)
        (posX (AutoLayoutStateMachineGraph exampleGraph) 1) ∧
    midpointCode (posX (AutoLayoutStateMachineGraph exampleGraph) 4)
        (posX (AutoLayoutStateMachineGraph exampleGraph) 1) = 15 :=
  ⟨by decide,
    (((C11_transition_position_amended exampleGraph 1 8 _ (by decide)
      (show exampleGraph.Nodes[8]? = some _ from rfl) (by decide)).1 4 1
        (by decide)).1 4 (Or.inl rfl) (by decide)).1,
    (((C11_transition_position_amended exampleGraph 1 8 _ (by decide)
      (show exampleGraph.Nodes[8]? = some _ from rfl) (by decide)).1 4 1
        (by decide)).2.1 ⟨by decide, by decide⟩ ⟨by decide, by decide⟩).1,
    by decide⟩

/-- C12: a state node that is not reachable from the initial state along directed
transition edges gets no level, and the layout leaves the node, hence its position, exactly
as it was before the call. -/
theorem C12_unreachable_state_untouched (g : Graph) (s : Nat) (n : Node)
    (hn : g.Nodes[s]? = some n) (hcls : n.cls = NodeClass.state)
    (hun : ∀ init, findInitialState g = some init → ¬ Reachable g init s) :
    (∀ init, findInitialState g = some init →
      mapFind (assignLevels g init).levels s = none) ∧
    (AutoLayoutStateMachineGraph g).Nodes[s]? = some n ∧
    posX (AutoLayoutStateMachineGraph g) s = n.NodePosX ∧
    posY (AutoLayoutStateMachineGraph g) s = n.NodePosY := by
  have h := unreachable_state_unchanged hn hcls hun
  refine ⟨fun init hi => unreachable_no_level (hun init hi), h, ?_, ?_⟩
  · simp [posX, h]
  · simp [posY, h]

/-- Witness of C12 on `exampleGraph`: state 4 ("D") is not reachable from state 1 and stays
at `(31, -5)`. -/
theorem C12_unreachable_state_untouched_witness :
    (∀ init, findInitialState exampleGraph = some init → ¬ Reachable exampleGraph init 4) ∧
    posX (AutoLayoutStateMachineGraph exampleGraph) 4 = 31 ∧
    posY (AutoLayoutStateMachineGraph exampleGraph) 4 = -5 :=
  have hun : ∀ init, findInitialState exampleGraph = some init →
      ¬ Reachable exampleGraph init 4 := by
    intro init hi hr
    have h1 : init = 1 := by
      have : findInitialState exampleGraph = some 1 := by decide
      rw [this] at hi
      exact (Option.some.inj hi).symm
    subst h1
    obtain ⟨l, hl⟩ := (assignLevels_spec exampleGraph 1 4).1.2 hr
    have : mapFind (assignLevels exampleGraph 1).levels 4 = none := by decide
    rw [this] at hl
    cases hl
  ⟨hun,
    (C12_unreachable_state_untouched exampleGraph 4 _
      (show exampleGraph.Nodes[4]? = some _ from rfl) (by decide) hun).2.2.1,
    (C12_unreachable_state_untouched exampleGraph 4 _
      (show exampleGraph.Nodes[4]? = some _ from rfl) (by decide) hun).2.2.2⟩

/-! ## Reachable states do not overlap -/

theorem levelled_rank {g : Graph} {init s L : Nat}
    (h : mapFind (assignLevels g init).levels s = some L) :
    ∃ i : Nat, (sortByName g (levelMembers (assignLevels g init).levels L))[i]? = some s := by
  have := (mem_sortByName (g := g)).2 (mem_levelMembers.2 (mem_of_mapFind_eq_some h))
  exact List.mem_iff_getElem?.1 this

/-- C20: two distinct state nodes that are reachable from the initial state end at
different positions: if their levels differ, their `x` differ by a non-zero multiple of 400;
if their levels are equal, their `x` are equal and their `y` differ by a non-zero multiple
of 200. -/
theorem C20_reachable_states_do_not_overlap (g : Graph) (init a b : Nat)
    (hinit : findInitialState g = some init)
    (ha : Reachable g init a) (hb : Reachable g init b) (hab : a ≠ b) :
    ∃ La Lb, mapFind (assignLevels g init).levels a = some La ∧
      mapFind (assignLevels g init).levels b = some Lb ∧
      (La ≠ Lb → ∃ d : Int, d ≠ 0 ∧
        posX (AutoLayoutStateMachineGraph g) a - posX (AutoLayoutStateMachineGraph g) b
          = 400 * d) ∧
      (La = Lb →
        posX (AutoLayoutStateMachineGraph g) a = posX (AutoLayoutStateMachineGraph g) b ∧
        ∃ d : Int, d ≠ 0 ∧
          posY (AutoLayoutStateMachineGraph g) a - posY (AutoLayoutStateMachineGraph g) b
            = 200 * d) ∧
      (posX (AutoLayoutStateMachineGraph g) a, posY (AutoLayoutStateMachineGraph g) a) ≠
        (posX (AutoLayoutStateMachineGraph g) b, posY (AutoLayoutStateMachineGraph g) b) := by
  obtain ⟨La, hLa⟩ := (assignLevels_spec g init a).1.2 ha
  obtain ⟨Lb, hLb⟩ := (assignLevels_spec g init b).1.2 hb
  obtain ⟨i, hi⟩ := levelled_rank hLa
  obtain ⟨j, hj⟩ := levelled_rank hLb
  obtain ⟨hxa, hya⟩ := state_position hinit hi
  obtain ⟨hxb, hyb⟩ := state_position hinit hj
  have hdiff : La ≠ Lb → ∃ d : Int, d ≠ 0 ∧
      posX (AutoLayoutStateMachineGraph g) a - posX (AutoLayoutStateMachineGraph g) b
        = 400 * d := by
    intro hne
    refine ⟨(La : Int) - (Lb : Int), ?_, ?_⟩
    · omega
    · rw [hxa, hxb]; ring
  have hsame : La = Lb →
      posX (AutoLayoutStateMachineGraph g) a = posX (AutoLayoutStateMachineGraph g) b ∧
      ∃ d : Int, d ≠ 0 ∧
        posY (AutoLayoutStateMachineGraph g) a - posY (AutoLayoutStateMachineGraph g) b
          = 200 * d := by
    intro he
    subst he
    have hij : i ≠ j := by
      rintro rfl
      rw [hi] at hj
      exact hab (Option.some.inj hj)
    refine ⟨by rw [hxa, hxb], (i : Int) - (j : Int), by omega, ?_⟩
    rw [hya, hyb]
    ring
  refine ⟨La, Lb, hLa, hLb, hdiff, hsame, ?_⟩
  intro heq
  simp only [Prod.mk.injEq] at heq
  by_cases hL : La = Lb
  · obtain ⟨_, d, hd, hyd⟩ := hsame hL
    rw [heq.2] at hyd
    omega
  · obtain ⟨d, hd, hxd⟩ := hdiff hL
    rw [heq.1] at hxd
    omega

/-- Witness of C20 on `exampleGraph`: the states 2 and 3, both reachable from state 1. -/
theorem C20_reachable_states_do_not_overlap_witness :
    findInitialState exampleGraph = some 1 ∧
    Reachable exampleGraph 1 2 ∧ Reachable exampleGraph 1 3 ∧
    (posX (AutoLayoutStateMachineGraph exampleGraph) 2,
      posY (AutoLayoutStateMachineGraph exampleGraph) 2) ≠
    (posX (AutoLayoutStateMachineGraph exampleGraph) 3,
      posY (AutoLayoutStateMachineGraph exampleGraph) 3) :=
  have h2 : Reachable exampleGraph 1 2 :=
    (assignLevels_spec exampleGraph 1 2).1.1 ⟨1, by decide⟩
  have h3 : Reachable exampleGraph 1 3 :=
    (assignLevels_spec exampleGraph 1 3).1.1 ⟨1, by decide⟩
  ⟨by decide, h2, h3,
    by
      obtain ⟨_, _, _, _, _, _, h⟩ :=
        C20_reachable_states_do_not_overlap exampleGraph 1 2 3 (by decide) h2 h3 (by decide)
      exact h⟩

/-! ## Order within a level -/

theorem sortByName_sorted (g : Graph) (l : List Nat) :
    List.Pairwise (fun u v => ¬ nameLt (nodeName g v) (nodeName g u)) (sortByName g l) := by
  haveI : IsTotal Nat (fun u v => ¬ nameLt (nodeName g v) (nodeName g u)) :=
    ⟨fun u v => by
      unfold nameLt
      rcases lt_trichotomy (nameKey (nodeName g u)) (nameKey (nodeName g v)) with h | h | h
      · exact Or.inl (not_lt.2 (le_of_lt h))
      · exact Or.inl (not_lt.2 (le_of_eq h))
      · exact Or.inr (not_lt.2 (le_of_lt h))⟩
  haveI : IsTrans Nat (fun u v => ¬ nameLt (nodeName g v) (nodeName g u)) :=
    ⟨fun u v w huv hvw => by
      unfold nameLt at *
      exact not_lt.2 (le_trans (not_lt.1 huv) (not_lt.1 hvw))⟩
  exact List.sorted_insertionSort _ l

theorem rank_lt_of_nameLt {g : Graph} {l : List Nat} {i j a b : Nat}
    (hi : (sortByName g l)[i]? = some a) (hj : (sortByName g l)[j]? = some b)
    (hlt : nameLt (nodeName g a) (nodeName g b)) : i < j := by
  obtain ⟨hil, hia⟩ := List.getElem?_eq_some.1 hi
  obtain ⟨hjl, hjb⟩ := List.getElem?_eq_some.1 hj
  by_contra hnot
  rcases Nat.lt_or_ge j i with hji | hji
  · have := List.pairwise_iff_getElem.1 (sortByName_sorted g l) j i hjl hil hji
    rw [hia, hjb] at this
    exact this hlt
  · have hij : i = j := by omega
    subst hij
    rw [hi] at hj
    have hab := Option.some.inj hj
    subst hab
    unfold nameLt at hlt
    exact lt_irrefl _ hlt

theorem nameKey_caseFree {s : String} (h : CaseFree s) : nameKey s = plainKey s := by
  unfold nameKey plainKey
  unfold CaseFree at h
  generalize s.toList = l at h
  induction l with
  | nil => rfl
  | cons c t ih =>
    have hc := h c (List.mem_cons_self _ _)
    have ht := ih (fun d hd => h d (List.mem_cons_of_mem _ hd))
    simp only [List.flatMap_cons, List.map_cons, ht, charUnits, hc.1, hc.2, if_false, if_true,
      List.singleton_append]

/-- C18: within a level the order is by name: for two states `a` and `b` of the same level,
if the name of `a` is smaller than the name of `b` in the comparison of the sort predicate
(`FString::operator<`, lexicographic on code units with ASCII letters compared without
case), then `a` is placed above `b`, `a.y < b.y`; the level's order is ascending in that
comparison and `y` grows strictly along it.  For names without upper-case ASCII letters the
comparison is the plain lexicographic order of the code points. -/
theorem C18_order_within_level_by_name (g : Graph) (init L a b : Nat)
    (hinit : findInitialState g = some init)
    (ha : mapFind (assignLevels g init).levels a = some L)
    (hb : mapFind (assignLevels g init).levels b = some L) :
    (nameLt (nodeName g a) (nodeName g b) →
      posY (AutoLayoutStateMachineGraph g) a < posY (AutoLayoutStateMachineGraph g) b) ∧
    (CaseFree (nodeName g a) → CaseFree (nodeName g b) →
      plainKey (nodeName g a) < plainKey (nodeName g b) →
      posY (AutoLayoutStateMachineGraph g) a < posY (AutoLayoutStateMachineGraph g) b) ∧
    List.Pairwise (fun u v => ¬ nameLt (nodeName g v) (nodeName g u))
      (sortByName g (levelMembers (assignLevels g init).levels L)) ∧
    ∀ i j u v : Nat, (sortByName g (levelMembers (assignLevels g init).levels L))[i]? = some u →
      (sortByName g (levelMembers (assignLevels g init).levels L))[j]? = some v → i < j →
      posY (AutoLayoutStateMachineGraph g) u < posY (AutoLayoutStateMachineGraph g) v := by
  have hgrow : ∀ i j u v : Nat,
      (sortByName g (levelMembers (assignLevels g init).levels L))[i]? = some u →
      (sortByName g (levelMembers (assignLevels g init).levels L))[j]? = some v → i < j →
      posY (AutoLayoutStateMachineGraph g) u < posY (AutoLayoutStateMachineGraph g) v := by
    intro i j u v hi hj hij
    rw [(state_position hinit hi).2, (state_position hinit hj).2]
    omega
  have hmain : nameLt (nodeName g a) (nodeName g b) →
      posY (AutoLayoutStateMachineGraph g) a < posY (AutoLayoutStateMachineGraph g) b := by
    intro hlt
    obtain ⟨i, hi⟩ := levelled_rank ha
    obtain ⟨j, hj⟩ := levelled_rank hb
    exact hgrow i j a b hi hj (rank_lt_of_nameLt hi hj hlt)
  refine ⟨hmain, ?_, sortByName_sorted g _, hgrow⟩
  intro hca hcb hlt
  apply hmain
  unfold nameLt
  rw [nameKey_caseFree hca, nameKey_caseFree hcb]
  exact hlt

/-- Witness of C18 on `exampleGraph`: the states 3 ("B") and 2 ("c") of level 1. -/
theorem C18_order_within_level_by_name_witness :
    findInitialState exampleGraph = some 1 ∧
    mapFind (assignLevels exampleGraph 1).levels 3 = some 1 ∧
    mapFind (assignLevels exampleGraph 1).levels 2 = some 1 ∧
    nameLt (nodeName exampleGraph 3) (nodeName exampleGraph 2) ∧
    posY (AutoLayoutStateMachineGraph exampleGraph) 3 <
      posY (AutoLayoutStateMachineGraph exampleGraph) 2 :=
  ⟨by decide, by decide, by decide, by decide,
    (C18_order_within_level_by_name exampleGraph 1 1 3 2 (by decide) (by decide)
      (by decide)).1 (by decide)⟩

/-! ## Termination of the level assignment and bound of the levels -/

theorem unassignedIn_mapAdd_lt (univ : List Nat) (levels : List (Nat × Nat)) (x l : Nat)
    (hx : x ∈ univ) (hnone : mapFind levels x = none) :
    unassignedIn univ (mapAdd levels x l) + 1 ≤ unassignedIn univ levels := by
  unfold unassignedIn
  apply filter_length_lt_of_imp _ _ _ _ x hx
  · simp [hnone]
  · simp [mapFind_mapAdd_self]
  · intro a ha
    by_cases hax : a = x
    · subst hax; simp [mapFind_mapAdd_self] at ha
    · rw [mapFind_mapAdd_ne _ _ _ _ hax] at ha; exact ha

theorem LevelBound.relax {univ : List Nat} {S : Nat} {out : List (Nat × List Nat)}
    {init cur lv : Nat} {st : LevelState} (hb : LevelBound univ S st.levels)
    (inv : RelaxInv out init cur lv st) {nxt : Nat} (hnxt : nxt ∈ univ) :
    LevelBound univ S (relaxEdge lv st nxt).levels := by
  cases hfind : mapFind st.levels nxt with
  | some l =>
    rw [relaxEdge_assigned inv.bound hfind]
    exact hb
  | none =>
    rw [relaxEdge_unassigned hfind]
    have hU := unassignedIn_mapAdd_lt univ st.levels nxt (lv + 1) hnxt hfind
    have hcur := hb cur lv inv.current
    intro v l hv
    simp only at hv
    by_cases hvn : v = nxt
    · subst hvn
      rw [mapFind_mapAdd_self] at hv
      simp only [Option.some.injEq] at hv
      simp only
      omega
    · rw [mapFind_mapAdd_ne _ _ _ _ hvn] at hv
      have := hb v l hv
      simp only
      omega

theorem LevelBound.relax_fold {univ : List Nat} {S N : Nat} {out : List (Nat × List Nat)}
    {init cur lv : Nat} (ns : List Nat) {st : LevelState}
    (hb : LevelBound univ S st.levels) (inv : RelaxInv out init cur lv st)
    (hns : ∀ v ∈ ns, v ∈ succs out cur ∧ v < N ∧ v ∈ univ) :
    LevelBound univ S (ns.foldl (relaxEdge lv) st).levels := by
  induction ns generalizing st with
  | nil => exact hb
  | cons a t ih =>
    obtain ⟨h1, h2, h3⟩ := hns a (List.mem_cons_self _ _)
    obtain ⟨inv1, _, _, _⟩ := inv.relax_step (N := N) h1 h2
    exact ih (hb.relax inv h3) inv1 (fun v hv => hns v (List.mem_cons_of_mem _ hv))

theorem LevelInv.relax_start {out : List (Nat × List Nat)} {init : Nat} {st : LevelState}
    (inv : LevelInv out init st) {cur lv : Nat} {rest : List Nat}
    (hq : st.queue = cur :: rest) (hlv : mapFind st.levels cur = some lv) :
    RelaxInv out init cur lv { levels := st.levels, queue := rest } := by
  have hlvl : lvl st.levels cur = lv := by simp [lvl, hlv]
  have hsorted := inv.sorted
  rw [hq, List.pairwise_cons] at hsorted
  constructor
  · exact inv.init0
  · exact inv.sound
  · intro q hqr
    obtain ⟨l, hl⟩ := inv.queued q (by rw [hq]; exact List.mem_cons_of_mem _ hqr)
    refine ⟨l, hl, ?_⟩
    have := hsorted.1 q hqr
    simp only [lvl, hlv, hl, Option.getD_some] at this
    exact this
  · exact hsorted.2
  · intro v l hv
    have := inv.bound cur rest hq v l hv
    rw [hlvl] at this
    exact this
  · intro u lu hu hnq hne v hv
    refine inv.closed u lu hu ?_ v hv
    rw [hq]
    simp only [List.mem_cons, not_or]
    exact ⟨hne, hnq⟩
  · exact hlv

theorem LevelBound.loop_bound {univ : List Nat} {S N : Nat} {out : List (Nat × List Nat)}
    {init : Nat} (hout : ∀ u v, v ∈ succs out u → v < N ∧ v ∈ univ) (fuel : Nat)
    {st : LevelState} (inv : LevelInv out init st) (hb : LevelBound univ S st.levels) :
    LevelBound univ S (levelLoop out fuel st).levels := by
  induction fuel generalizing st with
  | zero => exact hb
  | succ n ih =>
    unfold levelLoop
    split
    · exact hb
    · rename_i cur rest hq
      obtain ⟨lv, hlv⟩ := inv.queued cur (by rw [hq]; exact List.mem_cons_self _ _)
      have hlvl : lvl st.levels cur = lv := by simp [lvl, hlv]
      obtain ⟨inv', _⟩ := inv.process_step (N := N) (fun u v h => (hout u v h).1) hq
      apply ih inv'
      rw [processNode_eq, hlvl]
      have hb' : LevelBound univ S (LevelState.mk st.levels rest).levels := hb
      exact hb'.relax_fold (N := N) _ (inv.relax_start hq hlv)
        (fun v hv => ⟨hv, (hout cur v hv).1, (hout cur v hv).2⟩)

theorem mem_stateIds {g : Graph} {v : Nat} : v ∈ stateIds g ↔ castState g v = some v := by
  unfold stateIds
  rw [List.mem_filter, List.mem_range]
  constructor
  · rintro ⟨_, h⟩
    obtain ⟨w, hw⟩ := Option.isSome_iff_exists.1 h
    rw [hw, (castState_eq_some hw).1]
  · intro h
    exact ⟨(castState_lt h).2, by rw [h]; rfl⟩

theorem LevelBound.start {g : Graph} {init : Nat} (h : castState g init = some init) :
    LevelBound (stateIds g) (stateCount g) [(init, 0)] := by
  intro v l hv
  have hl : l = 0 := by
    simp only [mapFind] at hv
    split at hv
    · exact (Option.some.inj hv).symm
    · cases hv
  subst hl
  have := filter_length_lt_of_imp (fun _ => true)
    (fun v => (mapFind [(init, 0)] v).isNone) (stateIds g) (fun _ _ => rfl) init
    (mem_stateIds.2 h) rfl (by simp [mapFind])
  simp only [List.filter_true] at this
  unfold unassignedIn stateCount
  omega

/-- Levels of every state of the loop are below the number of state nodes. -/
theorem level_lt_stateCount {g : Graph} {init : Nat} (hi : findInitialState g = some init)
    (fuel v l : Nat)
    (h : mapFind (levelLoop (buildOutgoing g) fuel
      { levels := [(init, 0)], queue := [init] }).levels v = some l) :
    l + 1 ≤ stateCount g := by
  have hout : ∀ u v, v ∈ succs (buildOutgoing g) u → v < g.Nodes.length ∧ v ∈ stateIds g := by
    intro u v h
    have he := (mem_succs_buildOutgoing g u v).1 h
    exact ⟨he.lt.2, mem_stateIds.2 he.endpoints_state.2⟩
  have hstart : LevelBound (stateIds g) (stateCount g)
      (LevelState.mk [(init, 0)] [init]).levels :=
    LevelBound.start (findInitialState_state hi)
  have hb := LevelBound.loop_bound hout fuel (LevelInv.level_start (buildOutgoing g) init)
    hstart
  have := hb v l h
  omega

theorem relaxEdge_enqueue (lv : Nat) (st : LevelState) (nxt : Nat) :
    relaxEdge lv st nxt = st ∨
    ((relaxEdge lv st nxt).queue = st.queue ++ [nxt] ∧
      mapFind (relaxEdge lv st nxt).levels nxt = some (lv + 1) ∧
      (mapFind st.levels nxt = none ∨ ∃ l, mapFind st.levels nxt = some l ∧ lv + 1 < l)) := by
  cases hfind : mapFind st.levels nxt with
  | none =>
    right
    rw [relaxEdge_unassigned hfind]
    exact ⟨rfl, mapFind_mapAdd_self _ _ _, Or.inl rfl⟩
  | some l =>
    by_cases hlt : lv + 1 < l
    · right
      have he : relaxEdge lv st nxt =
          { levels := mapAdd st.levels nxt (lv + 1), queue := st.queue ++ [nxt] } := by
        unfold relaxEdge
        simp only [hfind, hlt, if_true]
      rw [he]
      exact ⟨rfl, mapFind_mapAdd_self _ _ _, Or.inr ⟨l, rfl, hlt⟩⟩
    · left
      unfold relaxEdge
      simp only [hfind, hlt, if_false]

/-- C17: the level assignment loop terminates on every graph, cycles, self-loops and
parallel transitions included: after at most `Nodes.Num() + 1` iterations the queue is empty
and further iterations change nothing; an edge relaxation enqueues the neighbour only when
its level is newly assigned or strictly decreases; every level held in any state of the
loop is a natural number below the number of state nodes. -/
theorem C17_level_loop_terminates (g : Graph) (init : Nat)
    (hinit : findInitialState g = some init) :
    (assignLevels g init).queue = [] ∧
    (∀ k, levelLoop (buildOutgoing g) (g.Nodes.length + 1 + k)
        { levels := [(init, 0)], queue := [init] } = assignLevels g init) ∧
    (∀ lv st nxt, relaxEdge lv st nxt = st ∨
      ((relaxEdge lv st nxt).queue = st.queue ++ [nxt] ∧
        mapFind (relaxEdge lv st nxt).levels nxt = some (lv + 1) ∧
        (mapFind st.levels nxt = none ∨
          ∃ l, mapFind st.levels nxt = some l ∧ lv + 1 < l))) ∧
    (∀ fuel v l, mapFind (levelLoop (buildOutgoing g) fuel
        { levels := [(init, 0)], queue := [init] }).levels v = some l →
      0 ≤ l ∧ l + 1 ≤ stateCount g) := by
  obtain ⟨_, hq⟩ := assignLevels_inv g init
  exact ⟨hq, fun k => levelLoop_stable _ _ k _ hq, relaxEdge_enqueue,
    fun fuel v l h => ⟨Nat.zero_le l, level_lt_stateCount hinit fuel v l h⟩⟩

/-- Witness of C17 on `cyclicGraph` (cycle, self-loop and parallel transitions). -/
theorem C17_level_loop_terminates_witness :
    findInitialState cyclicGraph = some 1 ∧
    buildOutgoing cyclicGraph = [(1, [2, 1]), (2, [1])] ∧
    (assignLevels cyclicGraph 1).levels = [(1, 0), (2, 1)] ∧
    (assignLevels cyclicGraph 1).queue = [] :=
  ⟨by decide, by decide, by decide,
    (C17_level_loop_terminates cyclicGraph 1 (by decide)).1⟩

/-! ## Claims about the reconciled metadata -/

/-- C15 (the code does not do this): in the build of `outOfOrderJson` the node of
transition 0 (node 4) is reconciled with the nested entry of ordinal 0, but the document
handed to the property deserializer is the flat record of the transition, not that nested
entry. -/
theorem C15_deserializer_gets_flat_record :
    ∃ gF n, CreateStateMachineGraph stockEngine freshGraph outOfOrderJson = some gF ∧
      reconciled outOfOrderJson.States 0 ⟨0, 1, true⟩ = some ⟨0, true⟩ ∧
      gF.Nodes[4]? = some n ∧
      n.deserialized = some (JsonDoc.flat ⟨0, 1, true⟩) ∧
      n.deserialized ≠ some (JsonDoc.nested ⟨0, true⟩) :=
  ⟨(CreateStateMachineGraph stockEngine freshGraph outOfOrderJson).get (by decide),
    ((CreateStateMachineGraph stockEngine freshGraph outOfOrderJson).get (by decide)).Nodes[4],
    by simp, by decide, by decide, by decide, by decide⟩

/-- C15 as amended: in every completed build, the document handed to
`DeserializeObjectProperties` for the transition node of position `t` is the record of
position `t` of the flat "Transitions" list; of the nested metadata entry the transition is
reconciled with, only `bAutomaticRemainingTimeRule` reaches the node. -/
theorem C15_deserializer_document_amended (E : Engine) (g0 gF : Graph)
    (json : StateMachineJson) (t : Nat) (r : TransitionJson)
    (hbuild : CreateStateMachineGraph E g0 json = some gF)
    (hr : json.Transitions[t]? = some r) :
    ∃ n m, gF.Nodes[g0.Nodes.length + json.States.length + t]? = some n ∧
      reconciled json.States t r = some m ∧
      n.deserialized = some (JsonDoc.flat r) ∧
      n.bAutomaticRuleBasedOnSequencePlayerInState = m.bAutomaticRemainingTimeRule := by
  obtain ⟨_, _, _, hnew⟩ := Create_fields hbuild
  obtain ⟨m, hm, hget⟩ := hnew t r hr
  rw [List.getElem?_map] at hget
  cases hn : gF.Nodes[g0.Nodes.length + json.States.length + t]? with
  | none => rw [hn] at hget; cases hget
  | some n =>
    rw [hn] at hget
    simp only [Option.map_some', Option.some.injEq] at hget
    exact ⟨n, m, rfl, hm, congrArg Node.deserialized hget,
      congrArg Node.bAutomaticRuleBasedOnSequencePlayerInState hget⟩

/-- Witness of C15 as amended on `outOfOrderJson`, transition 1 (node 5). -/
theorem C15_deserializer_document_amended_witness :
    ∃ gF, CreateStateMachineGraph stockEngine freshGraph outOfOrderJson = some gF ∧
      ∃ n m, gF.Nodes[1 + 3 + 1]? = some n ∧
        reconciled outOfOrderJson.States 1 ⟨0, 2, true⟩ = some m ∧
        n.deserialized = some (JsonDoc.flat ⟨0, 2, true⟩) ∧
        n.bAutomaticRuleBasedOnSequencePlayerInState = m.bAutomaticRemainingTimeRule :=
  ⟨(CreateStateMachineGraph stockEngine freshGraph outOfOrderJson).get (by decide), by simp,
    C15_deserializer_document_amended stockEngine freshGraph _ outOfOrderJson 1 ⟨0, 2, true⟩
      (by simp) rfl⟩

/-- C16 (the code does not do this): a transition in range whose from-state record has no
nested "Transitions" field, or no nested entry of its ordinal, leaves
`TransitionStateObject` null; line 246 dereferences it and the build is aborted. -/
theorem C16_reconciliation_miss_aborts :
    reconciled missingNestedJson.States 0 ⟨0, 1, true⟩ = none ∧
    CreateStateMachineGraph stockEngine freshGraph missingNestedJson = none ∧
    reconciled missingOrdinalJson.States 0 ⟨0, 1, true⟩ = none ∧
    CreateStateMachineGraph stockEngine freshGraph missingOrdinalJson = none := by
  decide

/-! ## Wiring of a transition, whatever pins the states have -/

theorem wireTransition_eq (g : Graph) (a b c : Nat) :
    wireTransition g a b c = linkInto (linkFrom g a c) b c := rfl

theorem fields_linkAt (j node : Nat) (r : PinRef) (pin : Option Nat) (n : Node) :
    fields (linkAt j node r pin n) = fields n := by
  unfold linkAt
  split
  · split
    · exact fields_linkAppend _ _ _
    · rfl
  · rfl

theorem dirs_linkAt (j node : Nat) (r : PinRef) (pin : Option Nat) (n : Node) :
    dirs (linkAt j node r pin n) = dirs n := by
  unfold linkAt
  split
  · split
    · exact dirs_linkAppend _ _ _
    · rfl
  · rfl

theorem LinksBelow.after_linkAt {bound : Nat} {n : Node} (h : LinksBelow bound n)
    (j node : Nat) (r : PinRef) (pin : Option Nat) (hr : r.node < bound) :
    LinksBelow bound (linkAt j node r pin n) := by
  unfold JsonAsAsset.linkAt
  split
  · split
    · exact h.after_linkAppend _ _ hr
    · exact h
  · exact h

theorem linkAt_of_ne {j node : Nat} (hj : j ≠ node) (r : PinRef) (pin : Option Nat)
    (n : Node) : linkAt j node r pin n = n := by
  unfold linkAt
  split
  · rw [if_neg hj]
  · rfl

theorem linkAt_self (j : Nat) (r : PinRef) (p : Nat) :
    linkAt j j r (some p) = linkAppend r p := by
  funext n
  simp [linkAt]

theorem linkAt_other {j node : Nat} (hj : j ≠ node) (r : PinRef) (pin : Option Nat) :
    linkAt j node r pin = id :=
  funext (linkAt_of_ne hj r pin)

theorem appended_get (g : Graph) (x : Node) (j : Nat) :
    ({ g with Nodes := g.Nodes ++ [x] } : Graph).Nodes[j]? =
      if j = g.Nodes.length then some x else g.Nodes[j]? := by
  simp only
  by_cases hj : j = g.Nodes.length
  · subst hj
    simp
  · rw [if_neg hj]
    by_cases hlt : j < g.Nodes.length
    · rw [List.getElem?_append_left hlt]
    · rw [List.getElem?_eq_none (by simp; omega), List.getElem?_eq_none (by omega)]

/-- The first wiring block on the graph with the fresh transition node appended. -/
theorem linkFrom_get {g : Graph} {t : TransitionJson} {m : StateTransitionJson}
    {from_ : Nat} {nf : Node} (hf : g.Nodes[from_]? = some nf)
    (hlinks : LinksBelow g.Nodes.length nf) (j : Nat) :
    (linkFrom { g with Nodes := g.Nodes ++ [transitionNode t m] } from_
        g.Nodes.length).Nodes[j]? =
      if j = g.Nodes.length then
        some (wiredNode t m (linkTo from_ (findOutputPin nf)) [])
      else
        (g.Nodes[j]?).map
          (linkAt j from_ { node := g.Nodes.length, pin := 0 } (findOutputPin nf)) := by
  have hflt := get_lt hf
  have hf2 : ({ g with Nodes := g.Nodes ++ [transitionNode t m] } : Graph).Nodes[from_]?
      = some nf := by
    rw [appended_get, if_neg (by omega), hf]
  unfold linkFrom
  rw [hf2]
  simp only [Option.some_bind]
  cases hfo : findOutputPin nf with
  | none =>
    simp only
    rw [appended_get]
    by_cases hj : j = g.Nodes.length
    · rw [if_pos hj, if_pos hj]
      rfl
    · rw [if_neg hj, if_neg hj]
      cases g.Nodes[j]? <;> rfl
  | some o =>
    simp only
    obtain ⟨pa, hpa⟩ := findOutputPin_lt hfo
    have hfresh : ({ node := g.Nodes.length, pin := 0 } : PinRef) ∉ pa.linkedTo := by
      intro hmem
      have := hlinks pa (List.getElem?_mem hpa) _ hmem
      simp at this
    have hpinAt : pinAt { g with Nodes := g.Nodes ++ [transitionNode t m] }
        { node := from_, pin := o } = some pa := by
      rw [pinAt_of_get (r := { node := from_, pin := o }) hf2]
      exact hpa
    rw [makeLinkTo_fresh hpinAt hfresh, updateNode_get, updateNode_get, appended_get]
    by_cases hj : j = g.Nodes.length
    · subst hj
      have hne : ¬ g.Nodes.length = from_ := by omega
      simp only [hne, if_false, if_true, Option.map_some']
      rfl
    · simp only [hj, if_false]
      by_cases hjf : j = from_
      · subst hjf
        rw [if_pos rfl, linkAt_self]
      · rw [if_neg hjf, linkAt_other hjf, Option.map_id, id]

/-- The second wiring block, on a graph whose transition node has no output link yet. -/
theorem linkInto_get {g1 : Graph} {t : TransitionJson} {m : StateTransitionJson}
    {len to_ : Nat} {nt : Node} {la : List PinRef}
    (hx : g1.Nodes[len]? = some (wiredNode t m la []))
    (hto : g1.Nodes[to_]? = some nt) (hne : to_ ≠ len) (j : Nat) :
    (linkInto g1 to_ len).Nodes[j]? =
      if j = len then some (wiredNode t m la (linkTo to_ (findInputPin nt)))
      else (g1.Nodes[j]?).map (linkAt j to_ { node := len, pin := 1 } (findInputPin nt)) := by
  unfold linkInto
  rw [hto]
  simp only [Option.some_bind]
  cases hti : findInputPin nt with
  | none =>
    simp only
    by_cases hj : j = len
    · rw [if_pos hj, hj, hx]
      rfl
    · rw [if_neg hj]
      cases g1.Nodes[j]? <;> rfl
  | some i =>
    simp only
    have hpinAt : pinAt g1 { node := len, pin := 1 } =
        some { pinName := "Out", direction := EPinDirection.EGPD_Output, linkedTo := [] } := by
      unfold pinAt
      simp only [hx]
      rfl
    rw [makeLinkTo_fresh hpinAt (by simp), updateNode_get, updateNode_get]
    by_cases hj : j = len
    · subst hj
      have hne2 : ¬ j = to_ := fun e => hne e.symm
      simp only [hne2, if_false, if_true, hx, Option.map_some']
      rfl
    · simp only [hj, if_false]
      by_cases hjt : j = to_
      · subst hjt
        rw [if_pos rfl, linkAt_self]
      · rw [if_neg hjt, linkAt_other hjt, Option.map_id, id]

/-- Both wiring blocks of a transition: each link is made when its own state connection
point exists. -/
theorem wireTransition_built {g : Graph} {t : TransitionJson} {m : StateTransitionJson}
    {from_ to_ : Nat} {nf nt : Node}
    (hf : g.Nodes[from_]? = some nf) (ht : g.Nodes[to_]? = some nt)
    (hlinks : LinksBelow g.Nodes.length nf) (j : Nat) :
    (wireTransition { g with Nodes := g.Nodes ++ [transitionNode t m] } from_ to_
        g.Nodes.length).Nodes[j]? =
      if j = g.Nodes.length then
        some (wiredNode t m (linkTo from_ (findOutputPin nf)) (linkTo to_ (findInputPin nt)))
      else
        (g.Nodes[j]?).map (fun n =>
          linkAt j to_ { node := g.Nodes.length, pin := 1 } (findInputPin nt)
            (linkAt j from_ { node := g.Nodes.length, pin := 0 } (findOutputPin nf) n)) := by
  have htlt := get_lt ht
  have h1 := linkFrom_get (t := t) (m := m) hf hlinks
  have hx := h1 g.Nodes.length
  rw [if_pos rfl] at hx
  have hto := h1 to_
  rw [if_neg (by omega), ht, Option.map_some'] at hto
  rw [wireTransition_eq, linkInto_get hx hto (by omega) j,
    findInputPin_congr (dirs_linkAt _ _ _ _ _)]
  by_cases hj : j = g.Nodes.length
  · rw [if_pos hj, if_pos hj]
  · rw [if_neg hj, if_neg hj, h1 j, if_neg hj, Option.map_map]
    rfl

/-! ## The transition loop, whatever pins the states have -/

theorem BuildInv.containerOk_built {E : Engine} {g0 : Graph} {states : List StateJson}
    {done : List TransitionJson} {g : Graph} (inv : BuildInv E g0 states done g) :
    ContainerOk E g0.Nodes.length states (stateExports g0.Nodes.length states) g := by
  refine ⟨rfl, ?_⟩
  intro i s hs
  obtain ⟨n, hn, hf, _, _⟩ := inv.statesKept i s hs
  rw [hn, Option.map_some', hf]

theorem BuildInv.build_step {E : Engine} {g0 : Graph} {states : List StateJson}
    {done : List TransitionJson} {g : Graph} (inv : BuildInv E g0 states done g)
    {t : TransitionJson} (hw : Buildable states done.length t) :
    ∃ g', transitionStep g0.Nodes.length states g done.length t = some g' ∧
      BuildInv E g0 states (done ++ [t]) g' := by
  obtain ⟨hp, hn, hm⟩ := hw
  obtain ⟨sp, hsp⟩ := Option.isSome_iff_exists.1 hp
  obtain ⟨sn, hsn⟩ := Option.isSome_iff_exists.1 hn
  obtain ⟨m, hm⟩ := Option.isSome_iff_exists.1 hm
  have hm' : transitionStateObject sp done.length = some m := by
    unfold reconciled at hm
    rw [hsp] at hm
    exact hm
  obtain ⟨_, hspget⟩ := arrayGet_eq_some hsp
  obtain ⟨_, hsnget⟩ := arrayGet_eq_some hsn
  obtain ⟨nf, hnf, hff, hfd, hfl⟩ := inv.statesKept _ sp hspget
  obtain ⟨nt, hnt, htf, htd, htl⟩ := inv.statesKept _ sn hsnget
  have hplt := get_lt hspget
  have hnlt := get_lt hsnget
  have hfo : findOutputPin nf = defaultOutput E (g0.Nodes.length + t.PreviousState.toNat) := by
    rw [findOutputPin_congr hfd, defaultOutput_eq]
  have hti : findInputPin nt = defaultInput E (g0.Nodes.length + t.NextState.toNat) := by
    rw [findInputPin_congr htd, defaultInput_eq]
  have hget := wireTransition_built (t := t) (m := m) hnf hnt hfl
  rw [hfo, hti] at hget
  have hentry := wireTransition_entry { g with Nodes := g.Nodes ++ [transitionNode t m] }
    (g0.Nodes.length + t.PreviousState.toNat) (g0.Nodes.length + t.NextState.toNat)
    g.Nodes.length
  have hlen : (wireTransition { g with Nodes := g.Nodes ++ [transitionNode t m] }
      (g0.Nodes.length + t.PreviousState.toNat) (g0.Nodes.length + t.NextState.toNat)
      g.Nodes.length).Nodes.length = g.Nodes.length + 1 := by
    have := congrArg List.length (map_fields_wireTransition
      { g with Nodes := g.Nodes ++ [transitionNode t m] }
      (g0.Nodes.length + t.PreviousState.toNat) (g0.Nodes.length + t.NextState.toNat)
      g.Nodes.length)
    simpa using this
  have hstep : transitionStep g0.Nodes.length states g done.length t =
      some (wireTransition { g with Nodes := g.Nodes ++ [transitionNode t m] }
        (g0.Nodes.length + t.PreviousState.toNat) (g0.Nodes.length + t.NextState.toNat)
        g.Nodes.length) := by
    unfold transitionStep
    simp only [hsp, hsn, hm']
  refine ⟨_, hstep, ?_⟩
  clear hstep
  generalize wireTransition { g with Nodes := g.Nodes ++ [transitionNode t m] }
    (g0.Nodes.length + t.PreviousState.toNat) (g0.Nodes.length + t.NextState.toNat)
    g.Nodes.length = g' at hget hentry hlen
  have hglen := inv.lenSum
  constructor
  · rw [hentry]; exact inv.entryKept
  · rw [hlen, hglen, List.length_append, List.length_singleton]; omega
  · intro j hj
    rw [hget, if_neg (by omega), linkAt_other (by omega), linkAt_other (by omega)]
    simp only [id, Option.map_id']
    exact inv.oldKept j hj
  · intro i' s hs
    obtain ⟨n, hn, hf, hd, hl⟩ := inv.statesKept i' s hs
    have hi'lt := get_lt hs
    rw [hget, if_neg (by omega), hn, Option.map_some']
    refine ⟨_, rfl, ?_, ?_, ?_⟩
    · rw [fields_linkAt, fields_linkAt, hf]
    · rw [dirs_linkAt, dirs_linkAt, hd]
    · rw [hlen]
      have hl' : LinksBelow (g.Nodes.length + 1) n := hl.mono_bound (Nat.le_succ _)
      exact (hl'.after_linkAt _ _ _ _ (by simp)).after_linkAt _ _ _ _ (by simp)
  · intro k t' hk
    by_cases hkd : k < done.length
    · rw [List.getElem?_append_left hkd] at hk
      obtain ⟨m', h1, h4, h5, h6⟩ := inv.built k t' hk
      refine ⟨m', h1, h4, h5, ?_⟩
      rw [hget, if_neg (by omega), linkAt_other (by omega), linkAt_other (by omega)]
      simp only [id, Option.map_id']
      exact h6
    · have hkl := get_lt hk
      simp only [List.length_append, List.length_singleton] at hkl
      have hke : k = done.length := by omega
      subst hke
      simp only [List.getElem?_concat_length, Option.some.injEq] at hk
      subst hk
      refine ⟨m, hm, hplt, hnlt, ?_⟩
      rw [hget, if_pos (by omega)]

theorem BuildInv.build_loop {E : Engine} {g0 : Graph} {states : List StateJson}
    (ts : List TransitionJson) {done : List TransitionJson} {g : Graph}
    (inv : BuildInv E g0 states done g)
    (hw : ∀ j t, ts[j]? = some t → Buildable states (done.length + j) t) :
    ∃ g', createTransitions (stateExports g0.Nodes.length states) done.length ts g = some g' ∧
      BuildInv E g0 states (done ++ ts) g' := by
  induction ts generalizing done g with
  | nil => exact ⟨g, rfl, by simpa using inv⟩
  | cons t rest ih =>
    obtain ⟨g1, hstep, inv1⟩ := inv.build_step (hw 0 t (by simp))
    have hrest : ∀ j t', rest[j]? = some t' →
        Buildable states ((done ++ [t]).length + j) t' := by
      intro j t' hj
      have := hw (j + 1) t' (by simpa using hj)
      simp only [List.length_append, List.length_singleton]
      have e : done.length + (j + 1) = done.length + 1 + j := by omega
      rw [e] at this
      exact this
    obtain ⟨g', hloop, inv'⟩ := ih inv1 hrest
    refine ⟨g', ?_, by simpa using inv'⟩
    simp only [createTransitions]
    rw [createTransition_eq inv.containerOk_built, hstep]
    simpa using hloop

theorem BuildInv.build_start (E : Engine) (g0 : Graph) (states : List StateJson) :
    BuildInv E g0 states [] (createStates E states g0 []).1 := by
  rw [createStates_eq]
  constructor
  · rfl
  · simp [stateNodes_length]
  · intro i hi
    simp only
    rw [List.getElem?_append_left hi]
  · intro i s hs
    refine ⟨stateNode E (g0.Nodes.length + i) s, ?_, rfl, rfl, ?_⟩
    · simp only
      rw [List.getElem?_append_right (by omega), stateNodes_get]
      simp [hs]
    · intro p hp r hr
      simp only [stateNode, mkPins, List.mem_map] at hp
      obtain ⟨_, _, rfl⟩ := hp
      cases hr
  · intro k t hk
    simp at hk

theorem transitionStep_buildable {n0 : Nat} {states : List StateJson} {g g' : Graph} {k : Nat}
    {t : TransitionJson} (h : transitionStep n0 states g k t = some g') :
    Buildable states k t := by
  unfold transitionStep at h
  unfold Buildable reconciled
  cases hp : arrayGet states t.PreviousState with
  | none => simp [hp] at h
  | some sp =>
    cases hn : arrayGet states t.NextState with
    | none => simp [hp, hn] at h
    | some sn =>
      simp only [hp, hn] at h
      cases hm : transitionStateObject sp k with
      | none => simp [hm] at h
      | some m => simp [hm]

/-- A transition loop that completes has met buildable records only. -/
theorem createTransitions_buildable {E : Engine} {n0 : Nat} {states : List StateJson}
    {c : List FUObjectExport} (ts : List TransitionJson) {g g' : Graph} {k : Nat}
    (ok : ContainerOk E n0 states c g) (h : createTransitions c k ts g = some g') :
    ∀ j t, ts[j]? = some t → Buildable states (k + j) t := by
  induction ts generalizing g k with
  | nil => intro j t hj; simp at hj
  | cons t rest ih =>
    simp only [createTransitions] at h
    cases hstep : createTransition c g k t with
    | none => rw [hstep] at h; cases h
    | some g1 =>
      rw [hstep] at h
      simp only at h
      rw [createTransition_eq ok] at hstep
      obtain ⟨m, _, hfields⟩ := transitionStep_fields hstep
      have ok1 : ContainerOk E n0 states c g1 := by
        apply ok.of_fields
        intro i hi
        rw [hfields, List.getElem?_append_left (by simpa using hi)]
      intro j t' hj
      cases j with
      | zero =>
        simp only [List.getElem?_cons_zero, Option.some.injEq] at hj
        subst hj
        exact transitionStep_buildable hstep
      | succ j =>
        have := ih ok1 h j t' (by simpa using hj)
        have e : k + (j + 1) = k + 1 + j := by omega
        rw [e]
        exact this

theorem loopGraph_container (E : Engine) (g0 : Graph) (states : List StateJson) :
    (createStates E states g0 []).2 = stateExports g0.Nodes.length states := by
  rw [createStates_eq]; simp

/-- The loops complete exactly on the documents whose records are all buildable, and the
result satisfies the invariant. -/
theorem loopGraph_spec (E : Engine) (g0 : Graph) (json : StateMachineJson) :
    ((∀ k t, json.Transitions[k]? = some t → Buildable json.States k t) →
      ∃ g2, loopGraph E g0 json = some g2) ∧
    ∀ g2, loopGraph E g0 json = some g2 →
      (∀ k t, json.Transitions[k]? = some t → Buildable json.States k t) ∧
      BuildInv E g0 json.States json.Transitions g2 := by
  have hall : (∀ k t, json.Transitions[k]? = some t → Buildable json.States k t) →
      ∃ g2, loopGraph E g0 json = some g2 ∧
        BuildInv E g0 json.States json.Transitions g2 := by
    intro hb
    obtain ⟨g2, hloop, inv⟩ := (BuildInv.build_start E g0 json.States).build_loop
      json.Transitions (by simpa using hb)
    simp only [List.length_nil, List.nil_append] at hloop inv
    refine ⟨g2, ?_, inv⟩
    unfold loopGraph
    rw [loopGraph_container]
    exact hloop
  refine ⟨fun hb => ?_, fun g2 h2 => ?_⟩
  · obtain ⟨g2, h, _⟩ := hall hb
    exact ⟨g2, h⟩
  · have hb : ∀ k t, json.Transitions[k]? = some t → Buildable json.States k t := by
      intro k t hk
      have := createTransitions_buildable json.Transitions
        (ContainerOk.container_start E g0 json.States) h2 k t hk
      simpa using this
    obtain ⟨g2', h, inv⟩ := hall hb
    rw [h2] at h
    cases h
    exact ⟨hb, inv⟩

theorem Create_eq_loop (E : Engine) (g0 : Graph) (json : StateMachineJson) :
    CreateStateMachineGraph E g0 json =
      match loopGraph E g0 json with
      | none => none
      | some g2 =>
        match wireEntry E json (stateExports g0.Nodes.length json.States) g2 with
        | none => some g2
        | some g3 => some (AutoLayoutStateMachineGraph g3) := by
  unfold CreateStateMachineGraph loopGraph
  simp only [loopGraph_container]

/-! ## The link made by the entry wiring -/

theorem wireEntry_frame_built {E : Engine} {json : StateMachineJson} {g0 : Graph}
    {states : List StateJson} {done : List TransitionJson} {g2 g3 : Graph}
    (inv : BuildInv E g0 states done g2) (hwf : EntryInGraph g0)
    (h : wireEntry E json (stateExports g0.Nodes.length states) g2 = some g3) (j : Nat)
    (hj : g0.Nodes.length + states.length ≤ j) : g3.Nodes[j]? = g2.Nodes[j]? := by
  unfold wireEntry at h
  split at h
  · cases h
  · rename_i e he
    rw [inv.entryKept] at he
    obtain ⟨helt, hlinks⟩ := hwf e he
    split at h
    · cases h
    · split at h
      · cases h
      · rename_i id hid
        have hidr : id < g0.Nodes.length + states.length ∧ g0.Nodes.length ≤ id := by
          cases hf : containerFind (stateExports g0.Nodes.length states) _ with
          | none => rw [hf] at hid; cases hid
          | some ex =>
            rw [hf] at hid
            simp only [Option.some_bind] at hid
            obtain ⟨i, hi, hobj⟩ := mem_stateExports (List.mem_of_find?_eq_some hf)
            rw [hobj] at hid
            simp only [Option.some_bind] at hid
            have := (castState_eq_some hid).1
            omega
        have halloc : (allocateDefaultPins E g2 id).Nodes[j]? = g2.Nodes[j]? := by
          unfold allocateDefaultPins
          rw [updateNode_get, if_neg (by omega)]
        have hconn : ∀ ep ip, (tryCreateConnection (allocateDefaultPins E g2 id)
            { node := e, pin := ep } { node := id, pin := ip }).Nodes[j]? = g2.Nodes[j]? := by
          intro ep ip
          unfold tryCreateConnection
          split
          · exact halloc
          · rw [makeLinkTo_frame _ _ _ _ (by simp; omega) (by simp; omega),
              breakAllPinLinks_frame _ _ _ (by simp; omega), halloc]
            intro pa hpa b hb
            unfold pinAt at hpa
            simp only at hpa
            have hen : (allocateDefaultPins E g2 id).Nodes[e]? = g0.Nodes[e]? := by
              unfold allocateDefaultPins
              rw [updateNode_get, if_neg (by omega), inv.oldKept e helt]
            rw [hen] at hpa
            cases hn : g0.Nodes[e]? with
            | none => rw [hn] at hpa; cases hpa
            | some n =>
              rw [hn] at hpa
              have := hlinks n hn pa (List.getElem?_mem hpa) b hb
              omega
        simp only at h
        split at h
        · split at h
          · simp only [Option.some.injEq] at h
            rw [← h]
            exact hconn _ _
          · simp only [Option.some.injEq] at h
            rw [← h]
            exact halloc
        · simp only [Option.some.injEq] at h
          rw [← h]
          exact halloc

/-- The result of a build, seen from the graph of the two loops: it is that graph, or the
layout of its entry-wired version, and the transition nodes are the same up to position. -/
theorem Create_cases {E : Engine} {g0 gF : Graph} {json : StateMachineJson}
    (h : CreateStateMachineGraph E g0 json = some gF) :
    ∃ g2, loopGraph E g0 json = some g2 ∧
      BuildInv E g0 json.States json.Transitions g2 ∧
      ((wireEntry E json (stateExports g0.Nodes.length json.States) g2 = none ∧ gF = g2) ∨
        ∃ g3, wireEntry E json (stateExports g0.Nodes.length json.States) g2 = some g3 ∧
          gF = AutoLayoutStateMachineGraph g3) := by
  rw [Create_eq_loop] at h
  cases hl : loopGraph E g0 json with
  | none => rw [hl] at h; cases h
  | some g2 =>
    rw [hl] at h
    simp only at h
    refine ⟨g2, rfl, ((loopGraph_spec E g0 json).2 g2 hl).2, ?_⟩
    cases hw : wireEntry E json (stateExports g0.Nodes.length json.States) g2 with
    | none =>
      rw [hw] at h
      simp only [Option.some.injEq] at h
      exact Or.inl ⟨rfl, h.symm⟩
    | some g3 =>
      rw [hw] at h
      simp only [Option.some.injEq] at h
      exact Or.inr ⟨g3, rfl, h.symm⟩

/-- In a completed build every record has its transition node, linked to the connection
points that exist. -/
theorem Create_built {E : Engine} {g0 gF : Graph} {json : StateMachineJson}
    (hwf : EntryInGraph g0) (h : CreateStateMachineGraph E g0 json = some gF)
    {k : Nat} {t : TransitionJson} (hk : json.Transitions[k]? = some t) :
    ∃ m n, reconciled json.States k t = some m ∧
      gF.Nodes[g0.Nodes.length + json.States.length + k]? = some n ∧
      strip n = strip (wiredNode t m
        (linkTo (g0.Nodes.length + t.PreviousState.toNat)
          (defaultOutput E (g0.Nodes.length + t.PreviousState.toNat)))
        (linkTo (g0.Nodes.length + t.NextState.toNat)
          (defaultInput E (g0.Nodes.length + t.NextState.toNat)))) := by
  obtain ⟨g2, _, inv, hF⟩ := Create_cases h
  obtain ⟨m, h1, _, _, h6⟩ := inv.built k t hk
  rcases hF with ⟨_, hF⟩ | ⟨g3, hw3, hF⟩
  · subst hF
    exact ⟨m, _, h1, h6, rfl⟩
  · have h3get := wireEntry_frame_built inv hwf hw3
      (g0.Nodes.length + json.States.length + k) (by omega)
    rw [h6] at h3get
    have ht : topo gF = topo g3 := by rw [hF]; exact topo_AutoLayout g3
    obtain ⟨n, hn, hs⟩ := strip_get_of_topo ht h3get
    exact ⟨m, n, h1, hn, hs⟩

/-! ## Claims about the wiring with missing connection points and about the entry -/

theorem entryInGraph_freshGraph : EntryInGraph freshGraph := by
  intro e he
  simp only [freshGraph, Option.some.injEq] at he
  subst he
  refine ⟨by decide, ?_⟩
  intro n hn
  simp only [freshGraph, List.getElem?_cons_zero, Option.some.injEq] at hn
  subst hn
  intro p hp r hr
  simp only [mkPins, List.map_cons, List.map_nil, List.mem_singleton] at hp
  subst hp
  cases hr

/-- C19 (the code does not do this): with an engine whose state "A" (node 1) has no
output pin, the transition `A → B` of the scenario document (node 4) lacks its from-state
connection point, yet its wiring is not skipped as a whole: the second wiring block links
its output pin to the input pin of "B" (node 2), and "B" is linked back. -/
theorem C19_missing_output_keeps_target_link :
    defaultOutput noOutputEngine 1 = none ∧
    ∃ gF n b, CreateStateMachineGraph noOutputEngine freshGraph (scenarioJson true false)
        = some gF ∧
      gF.Nodes[4]? = some n ∧ n.cls = NodeClass.transition ∧
      n.pins.map (fun p => p.linkedTo) = [[], [{ node := 2, pin := 0 }]] ∧
      gF.Nodes[2]? = some b ∧
      b.pins.map (fun p => p.linkedTo) = [[{ node := 4, pin := 1 }], [{ node := 5, pin := 0 }]] :=
  ⟨by decide,
    (CreateStateMachineGraph noOutputEngine freshGraph (scenarioJson true false)).get
      (by decide),
    ((CreateStateMachineGraph noOutputEngine freshGraph (scenarioJson true false)).get
      (by decide)).Nodes[4],
    ((CreateStateMachineGraph noOutputEngine freshGraph (scenarioJson true false)).get
      (by decide)).Nodes[2],
    by simp, by decide, by decide, by decide, by decide, by decide⟩

/-- C19 as amended: in every completed build the two wiring blocks of a transition are
independent.  The input pin of the node of the transition at position `k` is linked to the
output connection point of its from-state exactly when that connection point exists, and
its output pin is linked to the input connection point of its to-state exactly when that
one exists; a missing connection point skips its own link only, and every transition of the
list is processed this way. -/
theorem C19_wiring_blocks_independent (E : Engine) (g0 gF : Graph) (json : StateMachineJson)
    (k : Nat) (t : TransitionJson) (hwf : EntryInGraph g0)
    (hbuild : CreateStateMachineGraph E g0 json = some gF)
    (hk : json.Transitions[k]? = some t) :
    ∃ n, gF.Nodes[g0.Nodes.length + json.States.length + k]? = some n ∧
      n.cls = NodeClass.transition ∧
      n.pins.map (fun p => p.linkedTo) =
        [ linkTo (g0.Nodes.length + t.PreviousState.toNat)
            (defaultOutput E (g0.Nodes.length + t.PreviousState.toNat)),
          linkTo (g0.Nodes.length + t.NextState.toNat)
            (defaultInput E (g0.Nodes.length + t.NextState.toNat)) ] := by
  obtain ⟨m, n, _, hn, hs⟩ := Create_built hwf hbuild hk
  refine ⟨n, hn, ?_, ?_⟩
  · have := congrArg Node.cls hs
    exact this
  · have hp := congrArg (fun x => x.pins.map (fun p => p.linkedTo)) hs
    exact hp

/-- Witness of C19 as amended: the second transition of the scenario document under the
engine whose state "A" has no output pin. -/
theorem C19_wiring_blocks_independent_witness :
    ∃ gF, CreateStateMachineGraph noOutputEngine freshGraph (scenarioJson true false)
        = some gF ∧
      ∃ n, gF.Nodes[1 + 3 + 1]? = some n ∧ n.cls = NodeClass.transition ∧
        n.pins.map (fun p => p.linkedTo) =
          [[{ node := 2, pin := 1 }], [{ node := 3, pin := 0 }]] :=
  ⟨(CreateStateMachineGraph noOutputEngine freshGraph (scenarioJson true false)).get
      (by decide), by simp,
    C19_wiring_blocks_independent noOutputEngine freshGraph _ (scenarioJson true false) 1
      ⟨1, 2, false⟩ entryInGraph_freshGraph (by simp) rfl⟩

/-! ## Claims about the entry wiring -/

theorem wireEntry_of_invalid {E : Engine} {json : StateMachineJson}
    (hinv : arrayGet json.States json.InitialState = none) (c : List FUObjectExport)
    (g : Graph) : wireEntry E json c g = none := by
  unfold wireEntry
  cases g.EntryNode with
  | none => rfl
  | some e => simp only [hinv]

theorem Create_of_invalid {E : Engine} {json : StateMachineJson}
    (hinv : arrayGet json.States json.InitialState = none) (g0 : Graph) :
    CreateStateMachineGraph E g0 json = loopGraph E g0 json := by
  rw [Create_eq_loop]
  cases loopGraph E g0 json with
  | none => rfl
  | some g2 => simp only [wireEntry_of_invalid hinv]

theorem Create_isSome (E : Engine) (g0 : Graph) (json : StateMachineJson) :
    (CreateStateMachineGraph E g0 json).isSome = (loopGraph E g0 json).isSome := by
  rw [Create_eq_loop]
  cases loopGraph E g0 json with
  | none => rfl
  | some g2 =>
    simp only
    cases wireEntry E json (stateExports g0.Nodes.length json.States) g2 <;> rfl

/-- C13: when `InitialState` is not a valid index into "States", the entry step is left at
line 267 and the result is exactly the graph of the state and transition loops: the build
completes whenever those loops do (every record buildable), the entry pointer and every
node of the input graph, the entry node among them, are untouched, so that the entry node
links to none of the created states.  Against the same document with any other
`InitialState`: one build completes exactly when the other does, all nodes agree in class,
name and flags, and the transition nodes agree in their pins as well (same edges). -/
theorem C13_invalid_initial_state_partial_result (E : Engine) (g0 : Graph)
    (json : StateMachineJson)
    (hinv : arrayGet json.States json.InitialState = none) :
    CreateStateMachineGraph E g0 json = loopGraph E g0 json ∧
    ((∀ k t, json.Transitions[k]? = some t → Buildable json.States k t) →
      ∃ g2, CreateStateMachineGraph E g0 json = some g2) ∧
    (∀ g2, CreateStateMachineGraph E g0 json = some g2 →
      g2.EntryNode = g0.EntryNode ∧
      (∀ i, i < g0.Nodes.length → g2.Nodes[i]? = g0.Nodes[i]?) ∧
      (EntryInGraph g0 → ∀ e n, g2.EntryNode = some e → g2.Nodes[e]? = some n →
        LinksBelow g0.Nodes.length n)) ∧
    ∀ i : Int,
      (CreateStateMachineGraph E g0 { json with InitialState := i }).isSome =
        (CreateStateMachineGraph E g0 json).isSome ∧
      ∀ gF, CreateStateMachineGraph E g0 { json with InitialState := i } = some gF →
        ∃ g2, CreateStateMachineGraph E g0 json = some g2 ∧
          gF.Nodes.map fields = g2.Nodes.map fields ∧
          (EntryInGraph g0 → ∀ k, k < json.Transitions.length →
            (gF.Nodes[g0.Nodes.length + json.States.length + k]?).map strip =
              (g2.Nodes[g0.Nodes.length + json.States.length + k]?).map strip) := by
  have hC := Create_of_invalid (E := E) hinv g0
  refine ⟨hC, ?_, ?_, ?_⟩
  · intro hb
    rw [hC]
    exact (loopGraph_spec E g0 json).1 hb
  · intro g2 h2
    rw [hC] at h2
    obtain ⟨_, inv⟩ := (loopGraph_spec E g0 json).2 g2 h2
    refine ⟨inv.entryKept, inv.oldKept, ?_⟩
    intro hwf e n he hn
    rw [inv.entryKept] at he
    obtain ⟨helt, hlinks⟩ := hwf e he
    rw [inv.oldKept e helt] at hn
    exact hlinks n hn
  · intro i
    refine ⟨?_, ?_⟩
    · rw [Create_isSome, Create_isSome]
      rfl
    · intro gF hF
      obtain ⟨g2, hl, inv, hcases⟩ := Create_cases hF
      have hl2 : loopGraph E g0 json = some g2 := hl
      refine ⟨g2, by rw [hC, hl2], ?_, ?_⟩
      · rcases hcases with ⟨_, rfl⟩ | ⟨g3, hw3, rfl⟩
        · rfl
        · rw [map_fields_AutoLayout, map_fields_wireEntry hw3]
      · intro hwf k _
        rcases hcases with ⟨_, rfl⟩ | ⟨g3, hw3, rfl⟩
        · rfl
        · have h3 := wireEntry_frame_built inv hwf hw3
            (g0.Nodes.length + json.States.length + k) (by simp)
          have ht := topo_get_eq (topo_AutoLayout g3)
            (g0.Nodes.length + json.States.length + k)
          rw [ht]
          simp only at h3
          rw [h3]

/-- Witness of C13 on the scenario document with `InitialState = 7`: the build completes
with the six nodes of the loops and the entry pin is not linked. -/
theorem C13_invalid_initial_state_partial_result_witness :
    arrayGet invalidInitialJson.States invalidInitialJson.InitialState = none ∧
    CreateStateMachineGraph stockEngine freshGraph invalidInitialJson =
      loopGraph stockEngine freshGraph invalidInitialJson ∧
    (CreateStateMachineGraph stockEngine freshGraph invalidInitialJson).map
      (fun g => (g.Nodes.length, (g.Nodes[0]?).map (fun n => n.pins.map (fun p => p.linkedTo))))
      = some (6, some [[]]) :=
  ⟨by decide,
    (C13_invalid_initial_state_partial_result stockEngine freshGraph invalidInitialJson
      (by decide)).1,
    by decide⟩

end JsonAsAsset
